import Mathlib

set_option maxHeartbeats 1000000

namespace GoNfs

/-! Shallow embedding of the go-nfs caching handler (src/helpers/cachinghandler.go)
and of the rename protocol handler (src/nfs_onrename.go).

External collaborators are modelled as follows.

* `uuid.UUID` values are modelled as natural numbers; `uuid.New()` is modelled as a
  fresh-counter draw (the `nextId` field), which captures the uniqueness of freshly
  minted identifiers.  `uuid.MarshalBinary` / `uuid.FromBytes` are byte-exact mutual
  inverses on 16-byte values, so an opaque handle is identified with its id.
* `hashicorp/golang-lru/v2` is modelled by `Lru`: a recency list (most recently used
  first) together with a capacity, mirroring `Get`, `Peek`, `Add`, `GetOldest`,
  `Remove`, `Keys` (oldest to newest) and `Len`.  `Add` on a fresh key inserts at
  the front and, when the length then exceeds the capacity, drops the last (least
  recently used) pair and reports the eviction, exactly as the library does.
* `billy.Filesystem` references are modelled by `Fs`; `reflect.DeepEqual` between two
  references is structural equality, `Join` is `/`-intercalation of the components,
  and `billy.CapabilityCheck(fs, billy.WriteCapability)` is the `writable` field.
* Go strings are byte strings; `utf8Bytes` is the UTF-8 byte expansion.
-/

/-! ## Generic association-list primitives (backing the LRU model) -/

/-- Keys of an association list. -/
def keysOf {V : Type} (l : List (Nat × V)) : List Nat := l.map Prod.fst

/-- Value of the first pair with the given key. -/
def findKey {V : Type} (k : Nat) : List (Nat × V) → Option V
  | [] => none
  | p :: rest => if p.1 = k then some p.2 else findKey k rest

/-- Remove the first pair with the given key (if any). -/
def eraseKey {V : Type} (k : Nat) : List (Nat × V) → List (Nat × V)
  | [] => []
  | p :: rest => if p.1 = k then rest else p :: eraseKey k rest

/-- Remove the first occurrence of an element from a list of ids, mirroring the
index-based deletion loop of `evictReverseCache`. -/
def removeFirstId (h : Nat) : List Nat → List Nat
  | [] => []
  | x :: rest => if x = h then rest else x :: removeFirstId h rest

/-! ## The LRU cache model (`hashicorp/golang-lru/v2`) -/

/-- An LRU cache with `Nat` keys: the recency list (most recently used first) and
the configured capacity. -/
structure Lru (V : Type) where
  items : List (Nat × V)
  cap : Nat
deriving DecidableEq

/-- Lookup without touching recency (`Cache.Peek`). -/
def Lru.peek {V : Type} (c : Lru V) (k : Nat) : Option V := findKey k c.items

/-- Lookup that refreshes recency on a hit (`Cache.Get`). -/
def Lru.get {V : Type} (c : Lru V) (k : Nat) : Option V × Lru V :=
  match findKey k c.items with
  | some v => (some v, { c with items := (k, v) :: eraseKey k c.items })
  | none => (none, c)

/-- Insert or update (`Cache.Add`).  A fresh key is inserted most-recent; if the
length then exceeds the capacity the oldest pair is dropped and the returned flag
reports the eviction.  An existing key is updated and moved to most-recent with no
eviction. -/
def Lru.add {V : Type} (c : Lru V) (k : Nat) (v : V) : Lru V × Bool :=
  match findKey k c.items with
  | some _ => ({ c with items := (k, v) :: eraseKey k c.items }, false)
  | none =>
    let items' := (k, v) :: c.items
    if c.cap < items'.length then ({ c with items := items'.dropLast }, true)
    else ({ c with items := items' }, false)

/-- Oldest (least recently used) pair, without touching recency (`Cache.GetOldest`). -/
def Lru.getOldest {V : Type} (c : Lru V) : Option (Nat × V) := c.items.getLast?

/-- Remove a key (`Cache.Remove`). -/
def Lru.remove {V : Type} (c : Lru V) (k : Nat) : Lru V :=
  { c with items := eraseKey k c.items }

/-- Keys from oldest to newest (`Cache.Keys`). -/
def Lru.keys {V : Type} (c : Lru V) : List Nat := (keysOf c.items).reverse

/-- Number of cached pairs (`Cache.Len`). -/
def Lru.len {V : Type} (c : Lru V) : Nat := c.items.length

/-! ## Data model -/

/-- A backend (`billy.Filesystem`) reference.  `reflect.DeepEqual` on references is
structural equality of this value; the `writable` field models the
`billy.WriteCapability` capability bit. -/
structure Fs where
  tag : Nat
  writable : Bool
deriving DecidableEq

/-- Joined path string (`f.Join(path...)`).  All modelled backends join components
with a `/` separator. -/
def joinPath : List String → String
  | [] => ""
  | [a] => a
  | a :: b :: rest => a ++ "/" ++ joinPath (b :: rest)

/-- The forward-map entry `entry{f, p}` of the caching handler. -/
structure Entry where
  f : Fs
  p : List String
deriving DecidableEq

/-- Directory entry metadata (`io/fs.FileInfo`), reduced to the fields the sources
consume: `Name()` and `IsDir()`. -/
structure FileInfo where
  name : String
  isDir : Bool
deriving DecidableEq

/-- A cached directory-listing snapshot (`verifier{path, contents}`). -/
structure Verifier where
  path : String
  contents : List FileInfo
deriving DecidableEq

/-- The caching handler state (`CachingHandler`), together with the fresh-id counter
that models the uuid generator. -/
structure CachingHandler where
  activeHandles : Lru Entry
  reverseHandles : List (String × List Nat)
  activeVerifiers : Lru Verifier
  cacheLimit : Nat
  nextId : Nat
deriving DecidableEq

/-- Reverse-index lookup (`c.reverseHandles[path]`), `none` when the key is absent. -/
def revFind (p : String) : List (String × List Nat) → Option (List Nat)
  | [] => none
  | pr :: rest => if pr.1 = p then some pr.2 else revFind p rest

/-- Reverse-index store (`c.reverseHandles[path] = v`): replace the first binding of
the key, or append a new binding. -/
def revSet (p : String) (v : List Nat) : List (String × List Nat) → List (String × List Nat)
  | [] => [(p, v)]
  | pr :: rest => if pr.1 = p then (p, v) :: rest else pr :: revSet p v rest

/-- The create-if-absent-then-append sequence used by `ToHandle`, `UpdateHandle` and
`UpdateHandlesByPath` to register a handle under a joined path. -/
def bucketAppend (m : List (String × List Nat)) (p : String) (id : Nat) :
    List (String × List Nat) :=
  match revFind p m with
  | none => revSet p [id] m
  | some ids => revSet p (ids ++ [id]) m

/-- The bucket of a joined path, read as the empty list when absent. -/
def bucketOf (c : CachingHandler) (p : String) : List Nat :=
  (revFind p c.reverseHandles).getD []

/-- `NewCachingHandlerWithVerifierLimit`: fresh caches of the two capacities.  (The
sub-minimum-size diagnostic warning is a log line with no semantic effect.) -/
def NewCachingHandlerWithVerifierLimit (limit verifierLimit : Nat) : CachingHandler :=
  { activeHandles := { items := [], cap := limit }
    reverseHandles := []
    activeVerifiers := { items := [], cap := verifierLimit }
    cacheLimit := limit
    nextId := 0 }

/-- `NewCachingHandler`: both capacities equal. -/
def NewCachingHandler (limit : Nat) : CachingHandler :=
  NewCachingHandlerWithVerifierLimit limit limit

/-! ## Handle-cache operations -/

/-- The search loop of `searchReverseCache`: walk the bucket, `Get` each candidate
(which refreshes recency of live candidates), and return the first live candidate
whose stored backend reference is `DeepEqual` to the requested one. -/
def searchIds (f : Fs) : List Nat → Lru Entry → Option Nat × Lru Entry
  | [], lru => (none, lru)
  | id :: rest, lru =>
    match lru.get id with
    | (some cand, lru1) =>
      if cand.f = f then (some id, lru1) else searchIds f rest lru1
    | (none, lru1) => searchIds f rest lru1

/-- `searchReverseCache`: resolve a joined path to an existing handle for an equal
backend reference, threading the recency refreshes done by the candidate `Get`s. -/
def searchReverseCache (c : CachingHandler) (f : Fs) (path : String) :
    Option Nat × CachingHandler :=
  match revFind path c.reverseHandles with
  | none => (none, c)
  | some ids =>
    let r := searchIds f ids c.activeHandles
    (r.1, { c with activeHandles := r.2 })

/-- `evictReverseCache`: drop the first occurrence of the handle from the bucket of
the given joined path; no change when the key is absent. -/
def evictReverseCache (c : CachingHandler) (path : String) (h : Nat) : CachingHandler :=
  match revFind path c.reverseHandles with
  | none => c
  | some ids =>
    { c with reverseHandles := revSet path (removeFirstId h ids) c.reverseHandles }

/-- `ToHandle`: reuse an existing handle found through the reverse index, otherwise
mint a fresh id, record the oldest pair, insert (possibly evicting that oldest pair,
which is then also dropped from its bucket), and append the new handle to the bucket
of the joined path.  The source copies `path` before storing it; values are immutable
here, so the copy is the stored value itself. -/
def ToHandle (c : CachingHandler) (f : Fs) (path : List String) : Nat × CachingHandler :=
  let joinedPath := joinPath path
  match searchReverseCache c f joinedPath with
  | (some h, c1) => (h, c1)
  | (none, c1) =>
    let id := c1.nextId
    let oldest := c1.activeHandles.getOldest
    let ae := c1.activeHandles.add id { f := f, p := path }
    let c2 := { c1 with activeHandles := ae.1, nextId := c1.nextId + 1 }
    let c3 :=
      match oldest, ae.2 with
      | some ev, true => evictReverseCache c2 (joinPath ev.2.p) ev.1
      | _, _ => c2
    (id, { c3 with reverseHandles := bucketAppend c3.reverseHandles joinedPath id })

/-- The component-prefix test `hasPrefix(path, prefix)` of the source: true exactly
when the second list is componentwise an initial segment of the first.  (The source
phrases this as a length guard plus an indexed loop.) -/
def hasPfx : List String → List String → Bool
  | _, [] => true
  | [], _ :: _ => false
  | a :: as, b :: bs => a == b && hasPfx as bs

/-- The refresh loop of `FromHandle`: over a fixed snapshot of the keys (oldest to
newest), `Get` every entry whose stored path is a component-prefix of the resolved
path.  (When `Peek` misses, the source consults the zero-value entry, whose nil path
is a prefix of everything, and the subsequent `Get` of the absent key is a no-op; the
`none` arm is therefore equivalent.) -/
def refreshPfx (target : List String) : List Nat → Lru Entry → Lru Entry
  | [], lru => lru
  | k :: rest, lru =>
    match lru.peek k with
    | some cand =>
      if hasPfx target cand.p then refreshPfx target rest (lru.get k).2
      else refreshPfx target rest lru
    | none => refreshPfx target rest lru

/-- `FromHandle`: forward-map lookup; a miss is the `Stale` outcome (`none`).  On a
hit, refresh recency of every entry whose path is a component-prefix of the resolved
path, and return the resolved backend and (a copy of) the stored path. -/
def FromHandle (c : CachingHandler) (fh : Nat) : Option (Fs × List String) × CachingHandler :=
  match c.activeHandles.get fh with
  | (some e, lru1) =>
    let lru2 := refreshPfx e.p lru1.keys lru1
    (some (e.f, e.p), { c with activeHandles := lru2 })
  | (none, _) => (none, c)

/-- `InvalidateHandle`: drop the handle from its bucket when live, then remove it
from the forward map; always succeeds. -/
def InvalidateHandle (c : CachingHandler) (fh : Nat) : CachingHandler :=
  match c.activeHandles.get fh with
  | (some e, lru1) =>
    let c1 := evictReverseCache { c with activeHandles := lru1 } (joinPath e.p) fh
    { c1 with activeHandles := c1.activeHandles.remove fh }
  | (none, lru1) =>
    let c1 := { c with activeHandles := lru1 }
    { c1 with activeHandles := c1.activeHandles.remove fh }

/-- `UpdateHandle`: retarget one handle to a new path, overwriting its backend
reference with the supplied one; the flag is `false` exactly on the `Stale` failure
(unknown handle), in which case the state is unchanged. -/
def UpdateHandle (c : CachingHandler) (f : Fs) (fh : Nat) (newPath : List String) :
    CachingHandler × Bool :=
  match c.activeHandles.get fh with
  | (none, lru1) => ({ c with activeHandles := lru1 }, false)
  | (some oldEntry, lru1) =>
    let c1 := evictReverseCache { c with activeHandles := lru1 } (joinPath oldEntry.p) fh
    let ae := c1.activeHandles.add fh { f := f, p := newPath }
    let c2 := { c1 with activeHandles := ae.1 }
    ({ c2 with reverseHandles := bucketAppend c2.reverseHandles (joinPath newPath) fh }, true)

/-- The retarget loop of `UpdateHandlesByPath` over the snapshot of the old bucket:
skip dead handles; for each live one, drop it from the old bucket, overwrite its
entry with the new path while keeping its original backend reference, append it to
the new bucket, and count it. -/
def updateLoop (oldJ newJ : String) (newPathCopy : List String) :
    List Nat → CachingHandler → Nat → CachingHandler × Nat
  | [], c, acc => (c, acc)
  | id :: rest, c, acc =>
    match c.activeHandles.get id with
    | (none, lru1) =>
      updateLoop oldJ newJ newPathCopy rest { c with activeHandles := lru1 } acc
    | (some oldEntry, lru1) =>
      let c1 := evictReverseCache { c with activeHandles := lru1 } oldJ id
      let ae := c1.activeHandles.add id { f := oldEntry.f, p := newPathCopy }
      let c2 := { c1 with activeHandles := ae.1 }
      let c3 := { c2 with reverseHandles := bucketAppend c2.reverseHandles newJ id }
      updateLoop oldJ newJ newPathCopy rest c3 (acc + 1)

/-- `UpdateHandlesByPath`: retarget every live handle in the bucket of the joined old
path to the new path, returning the final state and the number actually migrated.
The source iterates over a copy of the bucket slice; iterating the immutable `ids`
value while threading the state is the same discipline. -/
def UpdateHandlesByPath (c : CachingHandler) (f : Fs) (oldPath newPath : List String) :
    CachingHandler × Nat :=
  let oldJ := joinPath oldPath
  match revFind oldJ c.reverseHandles with
  | none => (c, 0)
  | some ids =>
    if ids.length = 0 then (c, 0)
    else updateLoop oldJ (joinPath newPath) newPath ids c 0

/-- `HandleLimit`: the configured forward-map capacity. -/
def HandleLimit (c : CachingHandler) : Nat := c.cacheLimit

/-! ## Byte-level primitives: UTF-8 expansion, big-endian encoding, SHA-256

The verifier computation calls Go's `crypto/sha256` and `encoding/binary` standard
libraries; those are reproduced here so that the digest pipeline is executable. -/

/-- UTF-8 byte expansion of one code point. -/
def encodeChar (c : Char) : List Nat :=
  let n := c.toNat
  if n < 128 then [n]
  else if n < 2048 then [192 + n / 64, 128 + n % 64]
  else if n < 65536 then [224 + n / 4096, 128 + n / 64 % 64, 128 + n % 64]
  else [240 + n / 262144, 128 + n / 4096 % 64, 128 + n / 64 % 64, 128 + n % 64]

/-- The bytes of a Go string (UTF-8). -/
def utf8Bytes (s : String) : List Nat :=
  s.data.foldr (fun c acc => encodeChar c ++ acc) []

/-- `binary.BigEndian.AppendUint64`: the eight big-endian bytes of a `uint64`. -/
def beBytes8 (n : Nat) : List Nat :=
  let m := n % 18446744073709551616
  [m / 2 ^ 56 % 256, m / 2 ^ 48 % 256, m / 2 ^ 40 % 256, m / 2 ^ 32 % 256,
   m / 2 ^ 24 % 256, m / 2 ^ 16 % 256, m / 2 ^ 8 % 256, m % 256]

/-- Truncate to a 32-bit word. -/
def u32 (x : Nat) : Nat := x % 4294967296

/-- 32-bit rotate right (argument assumed below `2 ^ 32`). -/
def rotr (n x : Nat) : Nat := u32 (x >>> n ||| x <<< (32 - n))

def sha256S0 (x : Nat) : Nat := rotr 2 x ^^^ rotr 13 x ^^^ rotr 22 x
def sha256S1 (x : Nat) : Nat := rotr 6 x ^^^ rotr 11 x ^^^ rotr 25 x
def sha256s0 (x : Nat) : Nat := rotr 7 x ^^^ rotr 18 x ^^^ x >>> 3
def sha256s1 (x : Nat) : Nat := rotr 17 x ^^^ rotr 19 x ^^^ x >>> 10
def sha256Ch (x y z : Nat) : Nat := x &&& y ^^^ ((x ^^^ 4294967295) &&& z)
def sha256Maj (x y z : Nat) : Nat := x &&& y ^^^ x &&& z ^^^ y &&& z

/-- The SHA-256 round constants (the 64 words of FIPS 180-4 §4.2.2, written in
decimal). -/
def sha256K : List Nat :=
  [1116352408, 1899447441, 3049323471, 3921009573, 961987163,
   1508970993, 2453635748, 2870763221, 3624381080, 310598401,
   607225278, 1426881987, 1925078388, 2162078206, 2614888103,
   3248222580, 3835390401, 4022224774, 264347078, 604807628,
   770255983, 1249150122, 1555081692, 1996064986, 2554220882,
   2821834349, 2952996808, 3210313671, 3336571891, 3584528711,
   113926993, 338241895, 666307205, 773529912, 1294757372,
   1396182291, 1695183700, 1986661051, 2177026350, 2456956037,
   2730485921, 2820302411, 3259730800, 3345764771, 3516065817,
   3600352804, 4094571909, 275423344, 430227734, 506948616,
   659060556, 883997877, 958139571, 1322822218, 1537002063,
   1747873779, 1955562222, 2024104815, 2227730452, 2361852424,
   2428436474, 2756734187, 3204031479, 3329325298]

/-- The SHA-256 initial hash state (FIPS 180-4 §5.3.3, in decimal). -/
def sha256Init : List Nat :=
  [1779033703, 3144134277, 1013904242, 2773480762, 1359893119,
   2600822924, 528734635, 1541459225]

/-- Merkle–Damgaard padding: `0x80`, zeros to 56 mod 64, then the 64-bit big-endian
bit length. -/
def sha256Pad (msg : List Nat) : List Nat :=
  let z := (120 - (msg.length + 1) % 64) % 64
  msg ++ [128] ++ List.replicate z 0 ++ beBytes8 (8 * msg.length)

/-- Group bytes four at a time into big-endian 32-bit words. -/
def bytesToWords : List Nat → List Nat
  | b0 :: b1 :: b2 :: b3 :: rest =>
    (((b0 * 256 + b1) * 256 + b2) * 256 + b3) :: bytesToWords rest
  | _ => []

/-- Extend the sixteen block words to the 64-word message schedule. -/
def sha256Extend (w : List Nat) : List Nat :=
  (List.range 48).foldl
    (fun acc _ =>
      acc ++ [u32 (sha256s1 (acc.getD (acc.length - 2) 0) + acc.getD (acc.length - 7) 0 +
        sha256s0 (acc.getD (acc.length - 15) 0) + acc.getD (acc.length - 16) 0)])
    w

/-- One SHA-256 compression round on the working state `[a, b, c, d, e, f, g, h]`. -/
def sha256Round (st : List Nat) (k w : Nat) : List Nat :=
  let a := st.getD 0 0
  let b := st.getD 1 0
  let c := st.getD 2 0
  let d := st.getD 3 0
  let e := st.getD 4 0
  let f := st.getD 5 0
  let g := st.getD 6 0
  let h := st.getD 7 0
  let t1 := u32 (h + sha256S1 e + sha256Ch e f g + k + w)
  let t2 := u32 (sha256S0 a + sha256Maj a b c)
  [u32 (t1 + t2), a, b, c, u32 (d + t1), e, f, g]

/-- Compress one 64-byte block into the hash state. -/
def sha256Block (hst : List Nat) (block : List Nat) : List Nat :=
  let w := sha256Extend (bytesToWords block)
  let st := (List.zip sha256K w).foldl (fun st kw => sha256Round st kw.1 kw.2) hst
  List.zipWith (fun x y => u32 (x + y)) hst st

/-- Split a byte list into 64-byte chunks. -/
def chunks64 : List Nat → List (List Nat)
  | [] => []
  | b :: rest => (b :: rest).take 64 :: chunks64 ((b :: rest).drop 64)
termination_by l => l.length
decreasing_by simp; omega

/-- The eight 32-bit words of the SHA-256 digest of a byte list. -/
def sha256Words (msg : List Nat) : List Nat :=
  (chunks64 (sha256Pad msg)).foldl sha256Block sha256Init

/-- First eight digest bytes read as a big-endian `uint64`
(`binary.BigEndian.Uint64(vHash.Sum(nil)[0:8])`). -/
def sha256Trunc8 (msg : List Nat) : Nat :=
  let ws := sha256Words msg
  ws.getD 0 0 * 4294967296 + ws.getD 1 0

/-! ## Verifier cache operations -/

/-- The byte stream fed to the digest by `hashPathAndContents`: the eight big-endian
bytes of the byte length of `path`, then the bytes of `path`, then the bytes of each
entry name in listing order. -/
def verifierStream (path : String) (names : List String) : List Nat :=
  beBytes8 (utf8Bytes path).length ++ utf8Bytes path ++ (names.map utf8Bytes).flatten

/-- `hashPathAndContents`: SHA-256 over the stream of writes, truncated to the first
eight bytes read big-endian.  (A streaming hash of successive writes equals the hash
of their concatenation, which is `verifierStream`.) -/
def hashPathAndContents (path : String) (contents : List FileInfo) : Nat :=
  sha256Trunc8 (verifierStream path (contents.map FileInfo.name))

/-- `VerifierFor`: derive the digest, cache the snapshot under it, return it. -/
def VerifierFor (c : CachingHandler) (path : String) (contents : List FileInfo) :
    Nat × CachingHandler :=
  let id := hashPathAndContents path contents
  let ae := c.activeVerifiers.add id { path := path, contents := contents }
  (id, { c with activeVerifiers := ae.1 })

/-- `DataForVerifier`: lookup keyed solely by the id (the `path` argument is unused
by the source); a miss returns the nil snapshot, never an error. -/
def DataForVerifier (c : CachingHandler) (path : String) (id : Nat) :
    Option (List FileInfo) × CachingHandler :=
  match c.activeVerifiers.get id with
  | (some v, l1) => (some v.contents, { c with activeVerifiers := l1 })
  | (none, l1) => (none, { c with activeVerifiers := l1 })

/-! ## The rename handler (src/nfs_onrename.go)

The handler is embedded over an abstract backend world `W`: `stat` and `ren` are the
backend's `Stat` and `Rename` calls (`ren` returns the possibly mutated world), and
the four `WireFlags` booleans model the success of the four fallible response-
construction writes (status, source WCC block, destination WCC block, final response
write).  The attribute payloads of the WCC blocks are pure response data with no
control-flow effect (a failed post-stat is tolerated by `WriteWcc`), so they are not
modelled.  The XDR decode of each `DirOpArg` is modelled by an `Option`: `none` is a
decode failure.  The handler under verification is the caching handler, which
supports `UpdateHandlesByPath`, so the type assertion of step 7 succeeds and the
fallback branch is dead. -/

/-- Status taxonomy of the rename handler. -/
inductive NFSStatus
  | ok | stale | inval | notSupp | rofs | nameTooLong | noEnt | notDir | access
  | ioErr | serverFault
deriving DecidableEq

/-- Failure kind of a backend `Stat`, as discriminated by `os.IsNotExist`. -/
inductive StatErr
  | notExist | otherErr
deriving DecidableEq

/-- Failure kind of a backend `Rename`, as discriminated by `os.IsNotExist` and
`os.IsPermission`. -/
inductive RenameErr
  | notExist | permission | otherErr
deriving DecidableEq

/-- A decoded `DirOpArg`: directory handle plus filename. -/
structure DirOpArg where
  handle : Nat
  filename : String
deriving DecidableEq

/-- Success flags for the four fallible response-construction writes. -/
structure WireFlags where
  statusOk : Bool
  wccFromOk : Bool
  wccToOk : Bool
  respOk : Bool
deriving DecidableEq

/-- Modelled from the spec: the maximum filename component length constant
(`PathNameMax`) is referenced by the rename handler but declared outside the
provided sources; only its existence matters to the control flow. -/
def PathNameMax : Nat := 255

/-- `onRename`: the linear state machine of the rename handler, returning the
resulting status (`.ok` for the success response), the final handler state, and the
final backend world. -/
def onRename {W : Type} (stat : W → String → Except StatErr FileInfo)
    (ren : W → String → String → W × Option RenameErr) (flags : WireFlags)
    (c : CachingHandler) (w : W) (fromArg toArg : Option DirOpArg) :
    NFSStatus × CachingHandler × W :=
  match fromArg with
  | none => (.inval, c, w)
  | some fa =>
    match FromHandle c fa.handle with
    | (none, c1) => (.stale, c1, w)
    | (some (f, fromPath), c1) =>
      match toArg with
      | none => (.inval, c1, w)
      | some ta =>
        match FromHandle c1 ta.handle with
        | (none, c2) => (.stale, c2, w)
        | (some (f2, toPath), c2) =>
          if f ≠ f2 then (.notSupp, c2, w)
          else if f.writable = false then (.rofs, c2, w)
          else if PathNameMax < (utf8Bytes fa.filename).length ∨
              PathNameMax < (utf8Bytes ta.filename).length then (.nameTooLong, c2, w)
          else
            match stat w (joinPath fromPath) with
            | .error .notExist => (.noEnt, c2, w)
            | .error .otherErr => (.ioErr, c2, w)
            | .ok fromDirInfo =>
              if fromDirInfo.isDir = false then (.notDir, c2, w)
              else
                match stat w (joinPath toPath) with
                | .error .notExist => (.noEnt, c2, w)
                | .error .otherErr => (.ioErr, c2, w)
                | .ok toDirInfo =>
                  if toDirInfo.isDir = false then (.notDir, c2, w)
                  else
                    let oldPath := fromPath ++ [fa.filename]
                    let newPath := toPath ++ [ta.filename]
                    match ren w (joinPath oldPath) (joinPath newPath) with
                    | (w1, some .notExist) => (.noEnt, c2, w1)
                    | (w1, some .permission) => (.access, c2, w1)
                    | (w1, some .otherErr) => (.ioErr, c2, w1)
                    | (w1, none) =>
                      let c3 := (UpdateHandlesByPath c2 f oldPath newPath).1
                      if flags.statusOk = false then (.serverFault, c3, w1)
                      else if flags.wccFromOk = false then (.serverFault, c3, w1)
                      else if flags.wccToOk = false then (.serverFault, c3, w1)
                      else if flags.respOk = false then (.serverFault, c3, w1)
                      else (.ok, c3, w1)

/-! ## Well-formedness of a handler state

`WFcore` is the structural sanity of the two indexes (no duplicate forward keys, no
duplicate bucket keys or bucket members, bucket members point at their bucket's path,
live entries are registered in their path's bucket, and the fresh-id counter
dominates every id in sight).  `WF` additionally asserts that every bucket member is
live — the exact forward/reverse consistency of claim C9. -/

structure WFcore (c : CachingHandler) : Prop where
  keysNodup : (keysOf c.activeHandles.items).Nodup
  revKeysNodup : (c.reverseHandles.map Prod.fst).Nodup
  bucketsNodup : ∀ pr ∈ c.reverseHandles, pr.2.Nodup
  sound : ∀ pr ∈ c.reverseHandles, ∀ id ∈ pr.2, ∀ e,
    findKey id c.activeHandles.items = some e → joinPath e.p = pr.1
  complete : ∀ pr ∈ c.activeHandles.items, pr.1 ∈ bucketOf c (joinPath pr.2.p)
  freshLru : ∀ pr ∈ c.activeHandles.items, pr.1 < c.nextId
  freshRev : ∀ pr ∈ c.reverseHandles, ∀ id ∈ pr.2, id < c.nextId

/-- Full forward/reverse consistency: `WFcore` plus the absence of orphan bucket
entries (every bucket member is live in the forward map). -/
def WF (c : CachingHandler) : Prop :=
  WFcore c ∧ ∀ pr ∈ c.reverseHandles, ∀ id ∈ pr.2,
    (findKey id c.activeHandles.items).isSome = true

/-- Executable check for `WFcore`, used to discharge well-formedness of concrete
states by evaluation. -/
def WFcoreCheck (c : CachingHandler) : Bool :=
  decide ((keysOf c.activeHandles.items).Nodup) &&
  decide ((c.reverseHandles.map Prod.fst).Nodup) &&
  c.reverseHandles.all (fun pr => decide pr.2.Nodup) &&
  c.reverseHandles.all (fun pr => pr.2.all (fun id =>
    match findKey id c.activeHandles.items with
    | some e => decide (joinPath e.p = pr.1)
    | none => true)) &&
  c.activeHandles.items.all (fun pr => decide (pr.1 ∈ bucketOf c (joinPath pr.2.p))) &&
  c.activeHandles.items.all (fun pr => decide (pr.1 < c.nextId)) &&
  c.reverseHandles.all (fun pr => pr.2.all (fun id => decide (id < c.nextId)))

/-- Executable check for `WF`. -/
def WFCheck (c : CachingHandler) : Bool :=
  WFcoreCheck c &&
  c.reverseHandles.all (fun pr => pr.2.all (fun id =>
    (findKey id c.activeHandles.items).isSome))

/-- The effect of one live iteration of the retarget loop, factored out for
reasoning: the recency refresh of the `Get`, the old-bucket eviction, the entry
overwrite (new path, original backend), and the new-bucket append. -/
def updateStep (oldJ newJ : String) (np : List String) (id : Nat) (e : Entry)
    (c : CachingHandler) : CachingHandler :=
  let c1 := evictReverseCache
    { c with activeHandles :=
        { c.activeHandles with items := (id, e) :: eraseKey id c.activeHandles.items } }
    oldJ id
  let ae := c1.activeHandles.add id { f := e.f, p := np }
  let c2 := { c1 with activeHandles := ae.1 }
  { c2 with reverseHandles := bucketAppend c2.reverseHandles newJ id }

/-! ## Fixtures for concrete witnesses -/

/-- A writable backend reference. -/
def fsA : Fs := { tag := 0, writable := true }

/-- A second, distinct writable backend reference. -/
def fsB : Fs := { tag := 1, writable := true }

/-- A state holding a handle whose stored path `a/b` (one component containing a
slash) joins to the same string as the two-component path `a`,`b`. -/
def collidingState : CachingHandler :=
  (ToHandle ((ToHandle (NewCachingHandler 3) fsB ["a", "b"]).2) fsA ["a/b"]).2

/-- The mint-and-insert arm of `ToHandle` (reverse-cache miss), factored out for
reasoning: record the oldest pair, insert the fresh id (evicting the oldest pair
and dropping it from its bucket when the capacity is exceeded), and append the new
handle to the bucket of the joined path. -/
def mintState (c1 : CachingHandler) (f : Fs) (path : List String) : CachingHandler :=
  let id := c1.nextId
  let oldest := c1.activeHandles.getOldest
  let ae := c1.activeHandles.add id { f := f, p := path }
  let c2 := { c1 with activeHandles := ae.1, nextId := c1.nextId + 1 }
  let c3 :=
    match oldest, ae.2 with
    | some ev, true => evictReverseCache c2 (joinPath ev.2.p) ev.1
    | _, _ => c2
  { c3 with reverseHandles := bucketAppend c3.reverseHandles (joinPath path) id }

/-- Issue a handle for each path in order (the scenario driver of claim C3); the
handles themselves are discarded, only the resulting state is kept. -/
def insertAll (f : Fs) : List (List String) → CachingHandler → CachingHandler
  | [], c => c
  | p :: rest, c => insertAll f rest (ToHandle c f p).2

/-- Forward-map recency list (most recent first) produced by minting the given
paths in order with consecutive ids starting at `start`. -/
def filledRev (f : Fs) (start : Nat) : List (List String) → List (Nat × Entry)
  | [] => []
  | p :: rest => filledRev f (start + 1) rest ++ [(start, { f := f, p := p })]

/-- Reverse-index buckets produced by minting the given paths in order with
consecutive ids starting at `start`. -/
def filledBuckets (start : Nat) : List (List String) → List (String × List Nat)
  | [] => []
  | p :: rest => (joinPath p, [start]) :: filledBuckets (start + 1) rest

/-- The predicted state after issuing handles for the N+2 paths
`p0 :: ps ++ [q]` on a fresh cache of capacity `ps.length + 1`: the final
issuance evicts handle 0 (the one for `p0`), emptying its bucket. -/
def filledState (f : Fs) (p0 q : List String) (ps : List (List String)) : CachingHandler :=
  { activeHandles := { items := filledRev f 1 (ps ++ [q]), cap := ps.length + 1 }
    reverseHandles :=
      (joinPath p0, []) :: (filledBuckets 1 ps ++ [(joinPath q, [ps.length + 1])])
    activeVerifiers := { items := [], cap := ps.length + 1 }
    cacheLimit := ps.length + 1
    nextId := ps.length + 2 }

/-! ## Lemma library: association lists -/

@[simp] theorem findKey_nil {V : Type} (k : Nat) : findKey k ([] : List (Nat × V)) = none := rfl

@[simp] theorem findKey_cons {V : Type} (k : Nat) (p : Nat × V) (l : List (Nat × V)) :
    findKey k (p :: l) = if p.1 = k then some p.2 else findKey k l := rfl

@[simp] theorem eraseKey_nil {V : Type} (k : Nat) : eraseKey k ([] : List (Nat × V)) = [] := rfl

@[simp] theorem eraseKey_cons {V : Type} (k : Nat) (p : Nat × V) (l : List (Nat × V)) :
    eraseKey k (p :: l) = if p.1 = k then l else p :: eraseKey k l := rfl

@[simp] theorem keysOf_nil {V : Type} : keysOf ([] : List (Nat × V)) = [] := rfl

@[simp] theorem keysOf_cons {V : Type} (p : Nat × V) (l : List (Nat × V)) :
    keysOf (p :: l) = p.1 :: keysOf l := rfl

theorem keysOf_append {V : Type} (l l' : List (Nat × V)) :
    keysOf (l ++ l') = keysOf l ++ keysOf l' := by
  simp [keysOf]

theorem mem_keysOf {V : Type} {pr : Nat × V} {l : List (Nat × V)} (h : pr ∈ l) :
    pr.1 ∈ keysOf l :=
  List.mem_map_of_mem Prod.fst h

theorem findKey_eraseKey_ne {V : Type} {k k' : Nat} (l : List (Nat × V)) (h : k' ≠ k) :
    findKey k' (eraseKey k l) = findKey k' l := by
  induction l with
  | nil => rfl
  | cons p rest ih =>
    by_cases hp : p.1 = k
    · have hkk : ¬ k = k' := fun hh => h hh.symm
      simp [hp, hkk]
    · simp [hp, ih]

theorem findKey_eq_none_iff {V : Type} {k : Nat} {l : List (Nat × V)} :
    findKey k l = none ↔ k ∉ keysOf l := by
  induction l with
  | nil => simp
  | cons p rest ih =>
    by_cases hp : p.1 = k
    · simp [hp]
    · simp only [findKey_cons, if_neg hp, keysOf_cons, List.mem_cons, ih]
      constructor
      · intro hk hor
        exact hor.elim (fun hh => hp hh.symm) hk
      · intro hk hm
        exact hk (Or.inr hm)

theorem findKey_isSome_iff {V : Type} {k : Nat} {l : List (Nat × V)} :
    (findKey k l).isSome = true ↔ k ∈ keysOf l := by
  induction l with
  | nil => simp
  | cons p rest ih =>
    by_cases hp : p.1 = k
    · simp [hp]
    · simp only [findKey_cons, if_neg hp, keysOf_cons, List.mem_cons, ih]
      constructor
      · exact fun hm => Or.inr hm
      · intro hor
        exact hor.elim (fun hh => (hp hh.symm).elim) id

theorem mem_of_findKey_some {V : Type} {k : Nat} {v : V} {l : List (Nat × V)}
    (h : findKey k l = some v) : (k, v) ∈ l := by
  induction l with
  | nil => simp at h
  | cons p rest ih =>
    by_cases hp : p.1 = k
    · simp [hp] at h
      have hpv : p = (k, v) := by
        obtain ⟨a, b⟩ := p
        simp at hp h
        simp [hp, h]
      rw [hpv]
      exact List.mem_cons_self _ _
    · simp [hp] at h
      exact List.mem_cons_of_mem _ (ih h)

theorem findKey_of_mem_nodup {V : Type} {k : Nat} {v : V} {l : List (Nat × V)}
    (hn : (keysOf l).Nodup) (h : (k, v) ∈ l) : findKey k l = some v := by
  induction l with
  | nil => simp at h
  | cons p rest ih =>
    simp only [keysOf_cons, List.nodup_cons] at hn
    rcases List.mem_cons.mp h with h1 | h1
    · simp [← h1]
    · have hk : k ∈ keysOf rest := mem_keysOf h1
      have hne : ¬ p.1 = k := fun hh => hn.1 (by rw [hh]; exact hk)
      simp [hne, ih hn.2 h1]

theorem eraseKey_sublist {V : Type} (k : Nat) (l : List (Nat × V)) :
    (eraseKey k l).Sublist l := by
  induction l with
  | nil => simp
  | cons p rest ih =>
    by_cases hp : p.1 = k
    · simp only [eraseKey_cons, if_pos hp]
      exact List.sublist_cons_self p rest
    · simp only [eraseKey_cons, if_neg hp]
      exact List.Sublist.cons₂ p ih

theorem keysOf_eraseKey_sublist {V : Type} (k : Nat) (l : List (Nat × V)) :
    (keysOf (eraseKey k l)).Sublist (keysOf l) :=
  List.Sublist.map Prod.fst (eraseKey_sublist k l)

theorem nodup_keysOf_eraseKey {V : Type} {k : Nat} {l : List (Nat × V)}
    (h : (keysOf l).Nodup) : (keysOf (eraseKey k l)).Nodup :=
  (keysOf_eraseKey_sublist k l).nodup h

theorem eraseKey_of_not_mem {V : Type} {k : Nat} {l : List (Nat × V)}
    (h : k ∉ keysOf l) : eraseKey k l = l := by
  induction l with
  | nil => rfl
  | cons p rest ih =>
    simp only [keysOf_cons, List.mem_cons, not_or] at h
    have h1 : ¬ p.1 = k := fun hh => h.1 hh.symm
    simp [h1, ih h.2]

theorem not_mem_keysOf_eraseKey {V : Type} {k : Nat} {l : List (Nat × V)}
    (hn : (keysOf l).Nodup) : k ∉ keysOf (eraseKey k l) := by
  induction l with
  | nil => simp
  | cons p rest ih =>
    simp only [keysOf_cons, List.nodup_cons] at hn
    by_cases hp : p.1 = k
    · simp only [eraseKey_cons, if_pos hp]
      exact hp ▸ hn.1
    · simp only [eraseKey_cons, if_neg hp, keysOf_cons, List.mem_cons, not_or]
      exact ⟨fun hh => hp hh.symm, ih hn.2⟩

theorem mem_keysOf_eraseKey_of_ne {V : Type} {k k' : Nat} {l : List (Nat × V)} (h : k' ≠ k) :
    k' ∈ keysOf (eraseKey k l) ↔ k' ∈ keysOf l := by
  constructor
  · exact fun hh => (keysOf_eraseKey_sublist k l).subset hh
  · intro hh
    have h1 : (findKey k' (eraseKey k l)).isSome = true := by
      rw [findKey_eraseKey_ne l h]
      exact findKey_isSome_iff.mpr hh
    exact findKey_isSome_iff.mp h1

theorem perm_cons_eraseKey {V : Type} {k : Nat} {v : V} {l : List (Nat × V)}
    (h : findKey k l = some v) : l.Perm ((k, v) :: eraseKey k l) := by
  induction l with
  | nil => simp at h
  | cons p rest ih =>
    by_cases hp : p.1 = k
    · simp [hp] at h
      obtain ⟨a, b⟩ := p
      simp at hp h
      subst hp
      subst h
      simp
    · simp [hp] at h
      have hrec := ih h
      simp only [eraseKey_cons, if_neg hp]
      exact (List.Perm.cons p hrec).trans (List.Perm.swap (k, v) p _)

theorem findKey_eq_of_perm {V : Type} {l l' : List (Nat × V)}
    (hn : (keysOf l).Nodup) (h : l.Perm l') (k : Nat) : findKey k l = findKey k l' := by
  have hn' : (keysOf l').Nodup := ((h.map Prod.fst).nodup_iff).mp hn
  cases hf : findKey k l with
  | none =>
    have h1 : k ∉ keysOf l := findKey_eq_none_iff.mp hf
    have h2 : k ∉ keysOf l' := fun hm => h1 ((h.map Prod.fst).mem_iff.mpr hm)
    exact (findKey_eq_none_iff.mpr h2).symm
  | some v =>
    have h1 := mem_of_findKey_some hf
    exact (findKey_of_mem_nodup hn' (h.mem_iff.mp h1)).symm

/-! ## Lemma library: id lists (buckets) -/

@[simp] theorem removeFirstId_nil (h : Nat) : removeFirstId h [] = [] := rfl

@[simp] theorem removeFirstId_cons (h x : Nat) (l : List Nat) :
    removeFirstId h (x :: l) = if x = h then l else x :: removeFirstId h l := rfl

theorem removeFirstId_of_not_mem {h : Nat} {l : List Nat} (hm : h ∉ l) :
    removeFirstId h l = l := by
  induction l with
  | nil => rfl
  | cons x rest ih =>
    simp only [List.mem_cons, not_or] at hm
    have h1 : ¬ x = h := fun hh => hm.1 hh.symm
    simp [h1, ih hm.2]

theorem removeFirstId_sublist (h : Nat) (l : List Nat) : (removeFirstId h l).Sublist l := by
  induction l with
  | nil => simp
  | cons x rest ih =>
    by_cases hx : x = h
    · simp only [removeFirstId_cons, if_pos hx]
      exact List.sublist_cons_self x rest
    · simp only [removeFirstId_cons, if_neg hx]
      exact List.Sublist.cons₂ x ih

theorem nodup_removeFirstId {h : Nat} {l : List Nat} (hn : l.Nodup) :
    (removeFirstId h l).Nodup :=
  (removeFirstId_sublist h l).nodup hn

theorem mem_removeFirstId_of_ne {h x : Nat} {l : List Nat} (hx : x ≠ h) :
    x ∈ removeFirstId h l ↔ x ∈ l := by
  induction l with
  | nil => simp
  | cons y rest ih =>
    by_cases hy : y = h
    · simp only [removeFirstId_cons, if_pos hy, List.mem_cons]
      constructor
      · exact fun hm => Or.inr hm
      · rintro (hh | hm)
        · exact absurd (hh.trans hy) hx
        · exact hm
    · simp only [removeFirstId_cons, if_neg hy, List.mem_cons, ih]

theorem not_mem_removeFirstId {h : Nat} {l : List Nat} (hn : l.Nodup) :
    h ∉ removeFirstId h l := by
  induction l with
  | nil => simp
  | cons x rest ih =>
    simp only [List.nodup_cons] at hn
    by_cases hx : x = h
    · simp only [removeFirstId_cons, if_pos hx]
      exact hx ▸ hn.1
    · simp only [removeFirstId_cons, if_neg hx, List.mem_cons, not_or]
      exact ⟨fun hh => hx hh.symm, ih hn.2⟩

/-! ## Lemma library: the reverse index -/

@[simp] theorem revFind_nil (p : String) : revFind p [] = none := rfl

@[simp] theorem revFind_cons (p : String) (pr : String × List Nat) (m : List (String × List Nat)) :
    revFind p (pr :: m) = if pr.1 = p then some pr.2 else revFind p m := rfl

@[simp] theorem revSet_nil (p : String) (v : List Nat) : revSet p v [] = [(p, v)] := rfl

@[simp] theorem revSet_cons (p : String) (v : List Nat) (pr : String × List Nat)
    (m : List (String × List Nat)) :
    revSet p v (pr :: m) = if pr.1 = p then (p, v) :: m else pr :: revSet p v m := rfl

theorem revFind_revSet_self (p : String) (v : List Nat) (m : List (String × List Nat)) :
    revFind p (revSet p v m) = some v := by
  induction m with
  | nil => simp
  | cons pr rest ih =>
    by_cases hp : pr.1 = p <;> simp [hp, ih]

theorem revFind_revSet_ne {p p' : String} (v : List Nat) (m : List (String × List Nat))
    (h : p' ≠ p) : revFind p' (revSet p v m) = revFind p' m := by
  have h1 : ¬ p = p' := fun hh => h hh.symm
  induction m with
  | nil => simp [h1]
  | cons pr rest ih =>
    by_cases hp : pr.1 = p
    · simp [hp, h1]
    · simp [hp, ih]

theorem revFind_bucketAppend_self (m : List (String × List Nat)) (p : String) (id : Nat) :
    revFind p (bucketAppend m p id) = some ((revFind p m).getD [] ++ [id]) := by
  unfold bucketAppend
  cases h : revFind p m with
  | none => simp [revFind_revSet_self]
  | some ids => simp [revFind_revSet_self]

theorem revFind_bucketAppend_ne {p p' : String} (m : List (String × List Nat)) (id : Nat)
    (h : p' ≠ p) : revFind p' (bucketAppend m p id) = revFind p' m := by
  unfold bucketAppend
  cases hm : revFind p m with
  | none => simp [revFind_revSet_ne _ _ h]
  | some ids => simp [revFind_revSet_ne _ _ h]

theorem revKeys_revSet_of_mem {p : String} {m : List (String × List Nat)} (v : List Nat)
    (h : (revFind p m).isSome = true) :
    (revSet p v m).map Prod.fst = m.map Prod.fst := by
  induction m with
  | nil => simp at h
  | cons pr rest ih =>
    by_cases hp : pr.1 = p
    · simp [hp]
    · simp only [revFind_cons, if_neg hp] at h
      simp [hp, ih h]

theorem revKeys_revSet_of_not_mem {p : String} {m : List (String × List Nat)} (v : List Nat)
    (h : revFind p m = none) :
    (revSet p v m).map Prod.fst = m.map Prod.fst ++ [p] := by
  induction m with
  | nil => simp
  | cons pr rest ih =>
    by_cases hp : pr.1 = p
    · simp [hp] at h
    · simp only [revFind_cons, if_neg hp] at h
      simp [hp, ih h]

theorem revFind_eq_none_iff {p : String} {m : List (String × List Nat)} :
    revFind p m = none ↔ p ∉ m.map Prod.fst := by
  induction m with
  | nil => simp
  | cons pr rest ih =>
    by_cases hp : pr.1 = p
    · simp [hp]
    · simp only [revFind_cons, if_neg hp, List.map_cons, List.mem_cons, ih]
      constructor
      · intro hk hor
        exact hor.elim (fun hh => hp hh.symm) hk
      · intro hk hm
        exact hk (Or.inr hm)

theorem nodup_revKeys_revSet {p : String} {m : List (String × List Nat)} (v : List Nat)
    (hn : (m.map Prod.fst).Nodup) : ((revSet p v m).map Prod.fst).Nodup := by
  cases h : revFind p m with
  | none =>
    rw [revKeys_revSet_of_not_mem v h, List.nodup_append]
    refine ⟨hn, List.nodup_singleton p, fun a ha hpa => ?_⟩
    rw [List.mem_singleton] at hpa
    exact revFind_eq_none_iff.mp h (hpa ▸ ha)
  | some ids =>
    rw [revKeys_revSet_of_mem v (by simp [h])]
    exact hn

theorem mem_revSet_elim {p : String} {v : List Nat} {m : List (String × List Nat)}
    {pr : String × List Nat} (hn : (m.map Prod.fst).Nodup) (h : pr ∈ revSet p v m) :
    pr = (p, v) ∨ (pr ∈ m ∧ pr.1 ≠ p) := by
  induction m with
  | nil =>
    simp at h
    simp [h]
  | cons q rest ih =>
    simp only [List.map_cons, List.nodup_cons] at hn
    by_cases hq : q.1 = p
    · simp only [revSet_cons, if_pos hq, List.mem_cons] at h
      rcases h with h | h
      · left; exact h
      · right
        refine ⟨List.mem_cons_of_mem _ h, fun hp => ?_⟩
        exact hn.1 (by rw [← hq] at hp; rw [← hp]; exact List.mem_map_of_mem Prod.fst h)
    · simp only [revSet_cons, if_neg hq, List.mem_cons] at h
      rcases h with h | h
      · right
        exact ⟨List.mem_cons.mpr (Or.inl h), by rw [h]; exact hq⟩
      · rcases ih hn.2 h with h1 | h1
        · left; exact h1
        · right
          exact ⟨List.mem_cons_of_mem _ h1.1, h1.2⟩

theorem revFind_mem {p : String} {ids : List Nat} {m : List (String × List Nat)}
    (h : revFind p m = some ids) : (p, ids) ∈ m := by
  induction m with
  | nil => simp at h
  | cons pr rest ih =>
    by_cases hp : pr.1 = p
    · simp only [revFind_cons, if_pos hp, Option.some.injEq] at h
      have : pr = (p, ids) := by
        obtain ⟨a, b⟩ := pr
        simp at hp h
        simp [hp, h]
      rw [← this]
      exact List.mem_cons_self _ _
    · simp only [revFind_cons, if_neg hp] at h
      exact List.mem_cons_of_mem _ (ih h)

theorem revFind_of_mem_nodup {m : List (String × List Nat)} {pr : String × List Nat}
    (hn : (m.map Prod.fst).Nodup) (h : pr ∈ m) : revFind pr.1 m = some pr.2 := by
  induction m with
  | nil => simp at h
  | cons q rest ih =>
    simp only [List.map_cons, List.nodup_cons] at hn
    rcases List.mem_cons.mp h with h1 | h1
    · simp [h1]
    · have hk : pr.1 ∈ rest.map Prod.fst := List.mem_map_of_mem Prod.fst h1
      have hne : ¬ q.1 = pr.1 := fun hh => hn.1 (by rw [hh]; exact hk)
      simp [hne, ih hn.2 h1]

theorem WFcore_of_check {c : CachingHandler} (h : WFcoreCheck c = true) : WFcore c := by
  unfold WFcoreCheck at h
  simp only [Bool.and_eq_true, List.all_eq_true, decide_eq_true_eq] at h
  obtain ⟨⟨⟨⟨⟨⟨h1, h2⟩, h3⟩, h4⟩, h5⟩, h6⟩, h7⟩ := h
  refine ⟨h1, h2, h3, ?_, h5, h6, h7⟩
  intro pr hpr id hid e he
  have := h4 pr hpr id hid
  rw [he] at this
  simpa using this

theorem WF_of_check {c : CachingHandler} (h : WFCheck c = true) : WF c := by
  unfold WFCheck at h
  simp only [Bool.and_eq_true, List.all_eq_true] at h
  exact ⟨WFcore_of_check h.1, h.2⟩

/-! ## Component lemmas for the composite operations -/

@[simp] theorem evictReverseCache_activeHandles (c : CachingHandler) (p : String) (h : Nat) :
    (evictReverseCache c p h).activeHandles = c.activeHandles := by
  unfold evictReverseCache
  cases revFind p c.reverseHandles <;> rfl

@[simp] theorem evictReverseCache_activeVerifiers (c : CachingHandler) (p : String) (h : Nat) :
    (evictReverseCache c p h).activeVerifiers = c.activeVerifiers := by
  unfold evictReverseCache
  cases revFind p c.reverseHandles <;> rfl

@[simp] theorem evictReverseCache_nextId (c : CachingHandler) (p : String) (h : Nat) :
    (evictReverseCache c p h).nextId = c.nextId := by
  unfold evictReverseCache
  cases revFind p c.reverseHandles <;> rfl

@[simp] theorem evictReverseCache_cacheLimit (c : CachingHandler) (p : String) (h : Nat) :
    (evictReverseCache c p h).cacheLimit = c.cacheLimit := by
  unfold evictReverseCache
  cases revFind p c.reverseHandles <;> rfl

theorem revFind_evictReverseCache_self (c : CachingHandler) (p : String) (h : Nat) :
    revFind p (evictReverseCache c p h).reverseHandles =
      (revFind p c.reverseHandles).map (fun ids => removeFirstId h ids) := by
  unfold evictReverseCache
  cases hf : revFind p c.reverseHandles with
  | none => simp [hf]
  | some ids => simp [revFind_revSet_self]

theorem revFind_evictReverseCache_ne {p p' : String} (c : CachingHandler) (h : Nat)
    (hne : p' ≠ p) :
    revFind p' (evictReverseCache c p h).reverseHandles = revFind p' c.reverseHandles := by
  unfold evictReverseCache
  cases hf : revFind p c.reverseHandles with
  | none => simp
  | some ids => simp [revFind_revSet_ne _ _ hne]

theorem evictReverseCache_reverseHandles (c : CachingHandler) (p : String) (h : Nat) :
    (evictReverseCache c p h).reverseHandles =
      match revFind p c.reverseHandles with
      | none => c.reverseHandles
      | some ids => revSet p (removeFirstId h ids) c.reverseHandles := by
  unfold evictReverseCache
  cases hf : revFind p c.reverseHandles <;> simp

theorem mem_getD_bucketAppend_ne {k id : Nat} (m : List (String × List Nat)) (p p' : String)
    (hk : k ≠ id) :
    (k ∈ (revFind p' (bucketAppend m p id)).getD [] ↔ k ∈ (revFind p' m).getD []) := by
  by_cases hp : p' = p
  · subst hp
    rw [revFind_bucketAppend_self]
    simp [hk]
  · rw [revFind_bucketAppend_ne _ _ hp]

theorem mem_getD_evict_ne {k h : Nat} (c : CachingHandler) (p p' : String) (hk : k ≠ h) :
    (k ∈ (revFind p' (evictReverseCache c p h).reverseHandles).getD [] ↔
      k ∈ (revFind p' c.reverseHandles).getD []) := by
  by_cases hp : p' = p
  · subst hp
    rw [revFind_evictReverseCache_self]
    cases hrf : revFind p' c.reverseHandles <;> simp [hrf, mem_removeFirstId_of_ne hk]
  · rw [revFind_evictReverseCache_ne _ _ hp]

/-! ## The retarget step of `UpdateHandlesByPath` -/

theorem updateLoop_cons_live (oldJ newJ : String) (np : List String) (id : Nat)
    (rest : List Nat) (c : CachingHandler) (acc : Nat) (e : Entry)
    (hf : findKey id c.activeHandles.items = some e) :
    updateLoop oldJ newJ np (id :: rest) c acc =
      updateLoop oldJ newJ np rest (updateStep oldJ newJ np id e c) (acc + 1) := by
  simp only [updateLoop, Lru.get, hf, updateStep]

theorem updateLoop_cons_dead (oldJ newJ : String) (np : List String) (id : Nat)
    (rest : List Nat) (c : CachingHandler) (acc : Nat)
    (hf : findKey id c.activeHandles.items = none) :
    updateLoop oldJ newJ np (id :: rest) c acc = updateLoop oldJ newJ np rest c acc := by
  simp only [updateLoop, Lru.get, hf]

theorem updateStep_items (oldJ newJ : String) (np : List String) (id : Nat) (e : Entry)
    (c : CachingHandler) :
    (updateStep oldJ newJ np id e c).activeHandles.items =
      (id, { f := e.f, p := np }) :: eraseKey id c.activeHandles.items := by
  unfold updateStep
  simp [Lru.add]

theorem updateStep_cap (oldJ newJ : String) (np : List String) (id : Nat) (e : Entry)
    (c : CachingHandler) :
    (updateStep oldJ newJ np id e c).activeHandles.cap = c.activeHandles.cap := by
  unfold updateStep
  simp [Lru.add]

theorem updateStep_reverseHandles (oldJ newJ : String) (np : List String) (id : Nat)
    (e : Entry) (c : CachingHandler) :
    (updateStep oldJ newJ np id e c).reverseHandles =
      bucketAppend (evictReverseCache c oldJ id).reverseHandles newJ id := by
  unfold updateStep
  simp only [Lru.add]
  rw [evictReverseCache_reverseHandles, evictReverseCache_reverseHandles]

theorem updateStep_nextId (oldJ newJ : String) (np : List String) (id : Nat) (e : Entry)
    (c : CachingHandler) :
    (updateStep oldJ newJ np id e c).nextId = c.nextId := by
  unfold updateStep
  simp [Lru.add]

theorem updateStep_activeVerifiers (oldJ newJ : String) (np : List String) (id : Nat)
    (e : Entry) (c : CachingHandler) :
    (updateStep oldJ newJ np id e c).activeVerifiers = c.activeVerifiers := by
  unfold updateStep
  simp [Lru.add]

theorem updateStep_cacheLimit (oldJ newJ : String) (np : List String) (id : Nat) (e : Entry)
    (c : CachingHandler) :
    (updateStep oldJ newJ np id e c).cacheLimit = c.cacheLimit := by
  unfold updateStep
  simp [Lru.add]

theorem updateStep_findKey_ne {k id : Nat} (oldJ newJ : String) (np : List String)
    (e : Entry) (c : CachingHandler) (hk : k ≠ id) :
    findKey k (updateStep oldJ newJ np id e c).activeHandles.items =
      findKey k c.activeHandles.items := by
  rw [updateStep_items]
  have h1 : ¬ id = k := fun hh => hk hh.symm
  simp only [findKey_cons, if_neg h1]
  exact findKey_eraseKey_ne _ hk

theorem updateStep_findKey_self (oldJ newJ : String) (np : List String) (id : Nat)
    (e : Entry) (c : CachingHandler) :
    findKey id (updateStep oldJ newJ np id e c).activeHandles.items =
      some { f := e.f, p := np } := by
  rw [updateStep_items]
  simp

/-! ## Behaviour of the retarget loop -/

theorem updateLoop_findKey_not_mem {k : Nat} (oldJ newJ : String) (np : List String)
    (ids : List Nat) (c : CachingHandler) (acc : Nat) (hk : k ∉ ids) :
    findKey k ((updateLoop oldJ newJ np ids c acc).1).activeHandles.items =
      findKey k c.activeHandles.items := by
  induction ids generalizing c acc with
  | nil => simp [updateLoop]
  | cons id rest ih =>
    simp only [List.mem_cons, not_or] at hk
    cases hf : findKey id c.activeHandles.items with
    | none =>
      rw [updateLoop_cons_dead _ _ _ _ _ _ _ hf]
      exact ih _ _ hk.2
    | some e =>
      rw [updateLoop_cons_live _ _ _ _ _ _ _ _ hf]
      rw [ih _ _ hk.2]
      exact updateStep_findKey_ne _ _ _ _ _ hk.1

theorem updateLoop_findKey_mem {id : Nat} {e : Entry} (oldJ newJ : String) (np : List String)
    (ids : List Nat) (c : CachingHandler) (acc : Nat) (hn : ids.Nodup) (hid : id ∈ ids)
    (he : findKey id c.activeHandles.items = some e) :
    findKey id ((updateLoop oldJ newJ np ids c acc).1).activeHandles.items =
      some { f := e.f, p := np } := by
  induction ids generalizing c acc e with
  | nil => simp at hid
  | cons id0 rest ih =>
    simp only [List.nodup_cons] at hn
    rcases List.mem_cons.mp hid with h1 | h1
    · subst h1
      rw [updateLoop_cons_live _ _ _ _ _ _ _ _ he]
      rw [updateLoop_findKey_not_mem _ _ _ _ _ _ hn.1]
      exact updateStep_findKey_self _ _ _ _ _ _
    · have hne : id ≠ id0 := fun hh => hn.1 (hh ▸ h1)
      cases hf : findKey id0 c.activeHandles.items with
      | none =>
        rw [updateLoop_cons_dead _ _ _ _ _ _ _ hf]
        exact ih _ _ hn.2 h1 he
      | some e0 =>
        rw [updateLoop_cons_live _ _ _ _ _ _ _ _ hf]
        refine ih _ _ hn.2 h1 ?_
        rw [updateStep_findKey_ne _ _ _ _ _ hne]
        exact he

theorem updateLoop_count (oldJ newJ : String) (np : List String) (ids : List Nat)
    (c : CachingHandler) (acc : Nat) (hn : ids.Nodup) :
    (updateLoop oldJ newJ np ids c acc).2 =
      acc + (ids.filter (fun i => (findKey i c.activeHandles.items).isSome)).length := by
  induction ids generalizing c acc with
  | nil => simp [updateLoop]
  | cons id rest ih =>
    simp only [List.nodup_cons] at hn
    cases hf : findKey id c.activeHandles.items with
    | none =>
      rw [updateLoop_cons_dead _ _ _ _ _ _ _ hf, ih _ _ hn.2]
      simp [List.filter_cons, hf]
    | some e =>
      rw [updateLoop_cons_live _ _ _ _ _ _ _ _ hf, ih _ _ hn.2]
      have hfilter : rest.filter
          (fun i => (findKey i (updateStep oldJ newJ np id e c).activeHandles.items).isSome) =
          rest.filter (fun i => (findKey i c.activeHandles.items).isSome) := by
        apply List.filter_congr
        intro x hx
        have hne : x ≠ id := fun hh => hn.1 (hh ▸ hx)
        rw [updateStep_findKey_ne _ _ _ _ _ hne]
      rw [hfilter]
      simp [List.filter_cons, hf]
      omega

theorem updateLoop_old_bucket_mono {k : Nat} (oldJ newJ : String) (np : List String)
    (ids : List Nat) (c : CachingHandler) (acc : Nat) (hne : newJ ≠ oldJ)
    (hk : k ∉ (revFind oldJ c.reverseHandles).getD []) :
    k ∉ (revFind oldJ ((updateLoop oldJ newJ np ids c acc).1).reverseHandles).getD [] := by
  induction ids generalizing c acc with
  | nil => simpa [updateLoop] using hk
  | cons id rest ih =>
    cases hf : findKey id c.activeHandles.items with
    | none =>
      rw [updateLoop_cons_dead _ _ _ _ _ _ _ hf]
      exact ih _ _ hk
    | some e =>
      rw [updateLoop_cons_live _ _ _ _ _ _ _ _ hf]
      apply ih
      rw [updateStep_reverseHandles,
        revFind_bucketAppend_ne _ _ (fun hh => hne hh.symm),
        revFind_evictReverseCache_self]
      cases hrf : revFind oldJ c.reverseHandles with
      | none => simp
      | some b =>
        rw [hrf] at hk
        simp only [Option.getD_some] at hk
        simp only [Option.map_some', Option.getD_some]
        intro hmem
        exact hk ((removeFirstId_sublist id b).subset hmem)

theorem updateLoop_removes_from_old {id : Nat} (oldJ newJ : String) (np : List String)
    (ids : List Nat) (c : CachingHandler) (acc : Nat) (hne : newJ ≠ oldJ)
    (hn : ids.Nodup) (hb : ((revFind oldJ c.reverseHandles).getD []).Nodup)
    (hid : id ∈ ids) (hlive : (findKey id c.activeHandles.items).isSome = true) :
    id ∉ (revFind oldJ ((updateLoop oldJ newJ np ids c acc).1).reverseHandles).getD [] := by
  induction ids generalizing c acc with
  | nil => simp at hid
  | cons id0 rest ih =>
    simp only [List.nodup_cons] at hn
    rcases List.mem_cons.mp hid with h1 | h1
    · subst h1
      obtain ⟨e, he⟩ := Option.isSome_iff_exists.mp hlive
      rw [updateLoop_cons_live _ _ _ _ _ _ _ _ he]
      apply updateLoop_old_bucket_mono _ _ _ _ _ _ hne
      rw [updateStep_reverseHandles,
        revFind_bucketAppend_ne _ _ (fun hh => hne hh.symm),
        revFind_evictReverseCache_self]
      cases hrf : revFind oldJ c.reverseHandles with
      | none => simp
      | some b =>
        rw [hrf] at hb
        simp only [Option.getD_some] at hb
        simp only [Option.map_some', Option.getD_some]
        exact not_mem_removeFirstId hb
    · have hne0 : id ≠ id0 := fun hh => hn.1 (hh ▸ h1)
      cases hf : findKey id0 c.activeHandles.items with
      | none =>
        rw [updateLoop_cons_dead _ _ _ _ _ _ _ hf]
        exact ih _ _ hn.2 hb h1 hlive
      | some e0 =>
        rw [updateLoop_cons_live _ _ _ _ _ _ _ _ hf]
        refine ih _ _ hn.2 ?_ h1 ?_
        · rw [updateStep_reverseHandles,
            revFind_bucketAppend_ne _ _ (fun hh => hne hh.symm),
            revFind_evictReverseCache_self]
          cases hrf : revFind oldJ c.reverseHandles with
          | none => simp
          | some b =>
            rw [hrf] at hb
            simp only [Option.getD_some] at hb
            simp only [Option.map_some', Option.getD_some]
            exact nodup_removeFirstId hb
        · rw [updateStep_findKey_ne _ _ _ _ _ hne0]
          exact hlive

theorem updateLoop_bucket_not_mem {k : Nat} (oldJ newJ : String) (np : List String)
    (ids : List Nat) (c : CachingHandler) (acc : Nat) (hk : k ∉ ids) (p : String) :
    (k ∈ (revFind p ((updateLoop oldJ newJ np ids c acc).1).reverseHandles).getD [] ↔
      k ∈ (revFind p c.reverseHandles).getD []) := by
  induction ids generalizing c acc with
  | nil => simp [updateLoop]
  | cons id rest ih =>
    simp only [List.mem_cons, not_or] at hk
    cases hf : findKey id c.activeHandles.items with
    | none =>
      rw [updateLoop_cons_dead _ _ _ _ _ _ _ hf]
      exact ih _ _ hk.2
    | some e =>
      rw [updateLoop_cons_live _ _ _ _ _ _ _ _ hf]
      rw [ih _ _ hk.2, updateStep_reverseHandles,
        mem_getD_bucketAppend_ne _ _ _ hk.1]
      exact mem_getD_evict_ne _ _ _ hk.1

/-! ## Lengths of joined paths -/

theorem length_joinPath_head (x : String) (xs : List String) :
    x.length ≤ (joinPath (x :: xs)).length := by
  cases xs with
  | nil => simp [joinPath]
  | cons y t =>
    simp only [joinPath, String.length_append]
    omega

theorem length_joinPath_nested (pre : List String) (x : String) (xs : List String)
    (h : pre ≠ []) :
    (joinPath pre).length + 1 ≤ (joinPath (pre ++ x :: xs)).length := by
  have hsep : ("/" : String).length = 1 := rfl
  induction pre with
  | nil => exact absurd rfl h
  | cons a tail ih =>
    cases tail with
    | nil =>
      simp only [List.singleton_append, joinPath, String.length_append]
      have := length_joinPath_head x xs
      omega
    | cons b t =>
      have hih := ih (by simp)
      simp only [List.cons_append, joinPath, String.length_append, List.append_eq] at hih ⊢
      omega

/-- A path strictly nested under `pre` joins to a different string, provided the
nesting is real (`pre` nonempty, or the first extra component nonempty). -/
theorem joinPath_nested_ne (pre : List String) (x : String) (xs : List String)
    (h : pre ≠ [] ∨ x ≠ "") : joinPath (pre ++ x :: xs) ≠ joinPath pre := by
  intro heq
  cases pre with
  | cons a t =>
    have hlen := length_joinPath_nested (a :: t) x xs (by simp)
    rw [heq] at hlen
    omega
  | nil =>
    have hx : x ≠ "" := by
      rcases h with h | h
      · exact absurd rfl h
      · exact h
    have h1 : x.length ≤ (joinPath (x :: xs)).length := length_joinPath_head x xs
    have h2 : x.length ≠ 0 := by
      intro h0
      apply hx
      cases x with
      | mk d =>
        have hd : d = [] := List.length_eq_zero.mp (by simpa [String.length] using h0)
        subst hd
        rfl
    simp only [List.nil_append] at heq
    rw [heq] at h1
    simp only [joinPath, String.length] at h1
    simp at h1
    omega

/-! ## Behaviour of `Lru.get` and the reverse-cache search -/

theorem Lru_get_snd_findKey {V : Type} (lru : Lru V) (id k : Nat) :
    findKey k (lru.get id).2.items = findKey k lru.items := by
  unfold Lru.get
  cases hf : findKey id lru.items with
  | none => rfl
  | some v =>
    dsimp only
    by_cases hk : id = k
    · subst hk
      simp [hf]
    · simp only [findKey_cons, if_neg hk]
      exact findKey_eraseKey_ne _ (fun hh => hk hh.symm)

theorem Lru_get_snd_perm {V : Type} (lru : Lru V) (id : Nat) :
    (lru.get id).2.items.Perm lru.items := by
  unfold Lru.get
  cases hf : findKey id lru.items with
  | none => exact List.Perm.refl _
  | some v =>
    dsimp only
    exact (perm_cons_eraseKey hf).symm

theorem Lru_get_snd_cap {V : Type} (lru : Lru V) (id : Nat) :
    (lru.get id).2.cap = lru.cap := by
  unfold Lru.get
  cases hf : findKey id lru.items with
  | none => rfl
  | some v => rfl

theorem searchIds_findKey (f : Fs) (ids : List Nat) (lru : Lru Entry) (k : Nat) :
    findKey k (searchIds f ids lru).2.items = findKey k lru.items := by
  induction ids generalizing lru with
  | nil => rfl
  | cons id rest ih =>
    simp only [searchIds]
    cases hg : lru.get id with
    | mk r lru1 =>
      have hfk : ∀ k', findKey k' lru1.items = findKey k' lru.items := by
        intro k'
        rw [← Lru_get_snd_findKey lru id k', hg]
      cases r with
      | none => simpa [hfk k] using ih lru1
      | some cand =>
        by_cases hc : cand.f = f
        · simp only [if_pos hc]
          exact hfk k
        · simp only [if_neg hc]
          rw [ih lru1]
          exact hfk k

theorem searchIds_perm (f : Fs) (ids : List Nat) (lru : Lru Entry) :
    (searchIds f ids lru).2.items.Perm lru.items := by
  induction ids generalizing lru with
  | nil => exact List.Perm.refl _
  | cons id rest ih =>
    simp only [searchIds]
    cases hg : lru.get id with
    | mk r lru1 =>
      have hperm : lru1.items.Perm lru.items := by
        rw [show lru1 = (lru.get id).2 from by rw [hg]]
        exact Lru_get_snd_perm lru id
      cases r with
      | none => exact (ih lru1).trans hperm
      | some cand =>
        by_cases hc : cand.f = f
        · simp only [if_pos hc]
          exact hperm
        · simp only [if_neg hc]
          exact (ih lru1).trans hperm

theorem searchIds_cap (f : Fs) (ids : List Nat) (lru : Lru Entry) :
    (searchIds f ids lru).2.cap = lru.cap := by
  induction ids generalizing lru with
  | nil => rfl
  | cons id rest ih =>
    simp only [searchIds]
    cases hg : lru.get id with
    | mk r lru1 =>
      have hcap : lru1.cap = lru.cap := by
        rw [show lru1 = (lru.get id).2 from by rw [hg]]
        exact Lru_get_snd_cap lru id
      cases r with
      | none => rw [ih lru1, hcap]
      | some cand =>
        by_cases hc : cand.f = f
        · simp only [if_pos hc]
          exact hcap
        · simp only [if_neg hc]
          rw [ih lru1, hcap]

theorem searchIds_none (f : Fs) (ids : List Nat) (lru : Lru Entry)
    (h : (searchIds f ids lru).1 = none) :
    ∀ i ∈ ids, ∀ e, findKey i lru.items = some e → ¬ e.f = f := by
  induction ids generalizing lru with
  | nil => simp
  | cons id rest ih =>
    simp only [searchIds] at h
    intro i hi e he
    cases hg : lru.get id with
    | mk r lru1 =>
      rw [hg] at h
      have hr : r = findKey id lru.items := by
        rw [show r = (lru.get id).1 from by rw [hg]]
        unfold Lru.get
        cases findKey id lru.items <;> rfl
      have hfk : ∀ k', findKey k' lru1.items = findKey k' lru.items := by
        intro k'
        rw [← Lru_get_snd_findKey lru id k', hg]
      cases r with
      | none =>
        dsimp only at h
        rcases List.mem_cons.mp hi with h1 | h1
        · subst h1
          rw [he] at hr
          simp at hr
        · exact ih lru1 h i h1 e (by rw [hfk]; exact he)
      | some cand =>
        dsimp only at h
        by_cases hc : cand.f = f
        · rw [if_pos hc] at h
          simp at h
        · rw [if_neg hc] at h
          rcases List.mem_cons.mp hi with h1 | h1
          · subst h1
            rw [he] at hr
            simp only [Option.some.injEq] at hr
            rw [← hr]
            exact hc
          · exact ih lru1 h i h1 e (by rw [hfk]; exact he)

theorem searchIds_some (f : Fs) (ids : List Nat) (lru : Lru Entry) (h0 : Nat)
    (h : (searchIds f ids lru).1 = some h0) :
    h0 ∈ ids ∧ ∃ e, findKey h0 lru.items = some e ∧ e.f = f := by
  induction ids generalizing lru with
  | nil => simp [searchIds] at h
  | cons id rest ih =>
    simp only [searchIds] at h
    cases hg : lru.get id with
    | mk r lru1 =>
      rw [hg] at h
      have hr : r = findKey id lru.items := by
        rw [show r = (lru.get id).1 from by rw [hg]]
        unfold Lru.get
        cases findKey id lru.items <;> rfl
      have hfk : ∀ k', findKey k' lru1.items = findKey k' lru.items := by
        intro k'
        rw [← Lru_get_snd_findKey lru id k', hg]
      cases r with
      | none =>
        dsimp only at h
        obtain ⟨hmem, e, he, hef⟩ := ih lru1 h
        exact ⟨List.mem_cons_of_mem _ hmem, e, by rw [← hfk]; exact he, hef⟩
      | some cand =>
        dsimp only at h
        by_cases hc : cand.f = f
        · rw [if_pos hc] at h
          dsimp only at h
          simp only [Option.some.injEq] at h
          subst h
          exact ⟨List.mem_cons_self _ _, cand, hr.symm, hc⟩
        · rw [if_neg hc] at h
          obtain ⟨hmem, e, he, hef⟩ := ih lru1 h
          exact ⟨List.mem_cons_of_mem _ hmem, e, by rw [← hfk]; exact he, hef⟩

theorem searchIds_fst_stable (f : Fs) (ids : List Nat) (lru lru' : Lru Entry)
    (h : ∀ i, findKey i lru'.items = findKey i lru.items) :
    (searchIds f ids lru').1 = (searchIds f ids lru).1 := by
  induction ids generalizing lru lru' with
  | nil => rfl
  | cons id rest ih =>
    simp only [searchIds]
    cases hg : lru.get id with
    | mk r lru1 =>
      cases hg' : lru'.get id with
      | mk r' lru1' =>
        have hr : r = findKey id lru.items := by
          rw [show r = (lru.get id).1 from by rw [hg]]
          unfold Lru.get
          cases findKey id lru.items <;> rfl
        have hr' : r' = findKey id lru'.items := by
          rw [show r' = (lru'.get id).1 from by rw [hg']]
          unfold Lru.get
          cases findKey id lru'.items <;> rfl
        have hrr : r' = r := by rw [hr, hr', h]
        subst hrr
        have hnext : ∀ i, findKey i lru1'.items = findKey i lru1.items := by
          intro i
          rw [show lru1' = (lru'.get id).2 from by rw [hg'],
            show lru1 = (lru.get id).2 from by rw [hg],
            Lru_get_snd_findKey, Lru_get_snd_findKey]
          exact h i
        cases r' with
        | none => exact ih lru1 lru1' hnext
        | some cand =>
          by_cases hc : cand.f = f
          · simp [hc]
          · simp only [if_neg hc]
            exact ih lru1 lru1' hnext

/-! ## Behaviour of `searchReverseCache` -/

theorem searchReverseCache_none_rev {c : CachingHandler} {f : Fs} {path : String}
    (h : revFind path c.reverseHandles = none) :
    searchReverseCache c f path = (none, c) := by
  unfold searchReverseCache
  dsimp only
  rw [h]

theorem searchReverseCache_some_rev {c : CachingHandler} {f : Fs} {path : String}
    {ids : List Nat} (h : revFind path c.reverseHandles = some ids) :
    searchReverseCache c f path =
      ((searchIds f ids c.activeHandles).1,
        { c with activeHandles := (searchIds f ids c.activeHandles).2 }) := by
  unfold searchReverseCache
  dsimp only
  rw [h]

theorem searchReverseCache_state (c : CachingHandler) (f : Fs) (path : String) :
    (searchReverseCache c f path).2.reverseHandles = c.reverseHandles ∧
    (searchReverseCache c f path).2.nextId = c.nextId ∧
    (searchReverseCache c f path).2.activeVerifiers = c.activeVerifiers ∧
    (searchReverseCache c f path).2.cacheLimit = c.cacheLimit ∧
    (searchReverseCache c f path).2.activeHandles.cap = c.activeHandles.cap ∧
    (∀ k, findKey k (searchReverseCache c f path).2.activeHandles.items =
      findKey k c.activeHandles.items) ∧
    (searchReverseCache c f path).2.activeHandles.items.Perm c.activeHandles.items := by
  cases hrev : revFind path c.reverseHandles with
  | none =>
    rw [searchReverseCache_none_rev hrev]
    exact ⟨rfl, rfl, rfl, rfl, rfl, fun k => rfl, List.Perm.refl _⟩
  | some ids =>
    rw [searchReverseCache_some_rev hrev]
    exact ⟨rfl, rfl, rfl, rfl, searchIds_cap f ids c.activeHandles,
      fun k => searchIds_findKey f ids c.activeHandles k,
      searchIds_perm f ids c.activeHandles⟩

theorem searchReverseCache_none_prop {c c1 : CachingHandler} {f : Fs} {path : String}
    (hsr : searchReverseCache c f path = (none, c1)) :
    ∀ i ∈ (revFind path c.reverseHandles).getD [], ∀ e,
      findKey i c.activeHandles.items = some e → ¬ e.f = f := by
  cases hrev : revFind path c.reverseHandles with
  | none => simp
  | some ids =>
    rw [searchReverseCache_some_rev hrev] at hsr
    have h1 : (searchIds f ids c.activeHandles).1 = none := by
      have := congrArg Prod.fst hsr
      simpa using this
    simpa using searchIds_none f ids c.activeHandles h1

theorem searchReverseCache_some_prop {c c1 : CachingHandler} {f : Fs} {path : String}
    {h0 : Nat} (hsr : searchReverseCache c f path = (some h0, c1)) :
    ∃ e, findKey h0 c.activeHandles.items = some e ∧ e.f = f := by
  cases hrev : revFind path c.reverseHandles with
  | none =>
    rw [searchReverseCache_none_rev hrev] at hsr
    simp at hsr
  | some ids =>
    rw [searchReverseCache_some_rev hrev] at hsr
    have h1 : (searchIds f ids c.activeHandles).1 = some h0 := by
      have := congrArg Prod.fst hsr
      simpa using this
    exact (searchIds_some f ids c.activeHandles h0 h1).2

theorem searchReverseCache_fst_stable {c c' : CachingHandler} (f : Fs) (path : String)
    (hfind : ∀ i, findKey i c'.activeHandles.items = findKey i c.activeHandles.items)
    (hrev : c'.reverseHandles = c.reverseHandles) :
    (searchReverseCache c' f path).1 = (searchReverseCache c f path).1 := by
  cases hrevf : revFind path c.reverseHandles with
  | none =>
    rw [searchReverseCache_none_rev hrevf,
      searchReverseCache_none_rev (by rw [hrev]; exact hrevf)]
  | some ids =>
    rw [searchReverseCache_some_rev hrevf,
      searchReverseCache_some_rev (by rw [hrev]; exact hrevf)]
    exact searchIds_fst_stable f ids c.activeHandles c'.activeHandles hfind

/-! ## Claim C10 -/

/-- Claim C10: `DataForVerifier` ignores its path argument — for every verifier id
and any two path strings the two calls return the same result and have the same
effect on the verifier cache (the lookup is keyed solely by the id) — and a miss in
the verifier cache yields the nil snapshot rather than an error. -/
theorem DataForVerifier_ignores_path (c : CachingHandler) (p1 p2 : String) (id : Nat) :
    DataForVerifier c p1 id = DataForVerifier c p2 id ∧
    (findKey id c.activeVerifiers.items = none → (DataForVerifier c p1 id).1 = none) := by
  refine ⟨rfl, fun h => ?_⟩
  simp [DataForVerifier, Lru.get, h]

/-- Witness for the miss clause of claim C10 at a concrete state. -/
theorem DataForVerifier_ignores_path_witness :
    DataForVerifier (NewCachingHandler 2) "a" 5 = DataForVerifier (NewCachingHandler 2) "b" 5 ∧
    (DataForVerifier (NewCachingHandler 2) "a" 5).1 = none :=
  ⟨(DataForVerifier_ignores_path (NewCachingHandler 2) "a" "b" 5).1,
   (DataForVerifier_ignores_path (NewCachingHandler 2) "a" "b" 5).2 rfl⟩

/-! ## Claim C8 -/

/-- Claim C8 counterexample: permuting the entry order does not always change the
digest input stream.  With entry names `a` and `aa` (a genuine reordering of two
distinct names) the two listing orders feed the digest identical byte streams, so
the verifiers coincide as well. -/
theorem VerifierFor_order_cex :
    verifierStream "p" ["a", "aa"] = verifierStream "p" ["aa", "a"] ∧
    hashPathAndContents "p"
        [{ name := "a", isDir := false }, { name := "aa", isDir := false }] =
      hashPathAndContents "p"
        [{ name := "aa", isDir := false }, { name := "a", isDir := false }] ∧
    ["a", "aa"] ≠ ["aa", "a"] := by
  have h : verifierStream "p" ["a", "aa"] = verifierStream "p" ["aa", "a"] := by decide
  exact ⟨h, congrArg sha256Trunc8 h, by decide⟩

/-- Claim C8 (amended): `VerifierFor` is deterministic — identical path string and
identical ordered entry names yield the same 64-bit verifier from any two cache
states — and the verifier is the truncated digest of the stream formed by the 8-byte
big-endian byte length of the path, then the path bytes, then each entry name's
bytes in listing order; permuting the entry order changes that stream whenever the
permutation changes the concatenated name bytes (which a permutation need not do:
see the counterexample). -/
theorem VerifierFor_deterministic (c1 c2 : CachingHandler) (p : String)
    (cs1 cs2 : List FileInfo) (h : cs1.map FileInfo.name = cs2.map FileInfo.name) :
    (VerifierFor c1 p cs1).1 = (VerifierFor c2 p cs2).1 ∧
    (VerifierFor c1 p cs1).1 = sha256Trunc8 (verifierStream p (cs1.map FileInfo.name)) ∧
    ∀ ns1 ns2 : List String,
      (ns1.map utf8Bytes).flatten ≠ (ns2.map utf8Bytes).flatten →
      verifierStream p ns1 ≠ verifierStream p ns2 := by
  refine ⟨?_, rfl, ?_⟩
  · show hashPathAndContents p cs1 = hashPathAndContents p cs2
    unfold hashPathAndContents
    rw [h]
  · intro ns1 ns2 hne hEq
    unfold verifierStream at hEq
    exact hne (List.append_cancel_left hEq)

/-- Witness for claim C8 (amended) at concrete inputs: determinism across distinct
cache states and distinct non-name metadata, and order sensitivity for streams with
different concatenations. -/
theorem VerifierFor_deterministic_witness :
    (VerifierFor (NewCachingHandler 2) "d" [{ name := "x", isDir := false }]).1 =
      (VerifierFor (NewCachingHandler 3) "d" [{ name := "x", isDir := true }]).1 ∧
    verifierStream "d" ["x"] ≠ verifierStream "d" ["y"] :=
  ⟨(VerifierFor_deterministic (NewCachingHandler 2) (NewCachingHandler 3) "d"
      [{ name := "x", isDir := false }] [{ name := "x", isDir := true }] rfl).1,
   (VerifierFor_deterministic (NewCachingHandler 2) (NewCachingHandler 3) "d"
      [{ name := "x", isDir := false }] [{ name := "x", isDir := true }] rfl).2.2
      ["x"] ["y"] (by decide)⟩

/-! ## Facts about `UpdateHandlesByPath` -/

theorem UpdateHandlesByPath_none {c : CachingHandler} {f : Fs}
    {oldPath newPath : List String}
    (h : revFind (joinPath oldPath) c.reverseHandles = none) :
    UpdateHandlesByPath c f oldPath newPath = (c, 0) := by
  unfold UpdateHandlesByPath
  dsimp only
  rw [h]

theorem UpdateHandlesByPath_some_nil {c : CachingHandler} {f : Fs}
    {oldPath newPath : List String}
    (h : revFind (joinPath oldPath) c.reverseHandles = some []) :
    UpdateHandlesByPath c f oldPath newPath = (c, 0) := by
  unfold UpdateHandlesByPath
  dsimp only
  rw [h]
  simp

theorem UpdateHandlesByPath_some {c : CachingHandler} {f : Fs}
    {oldPath newPath : List String} {ids : List Nat}
    (h : revFind (joinPath oldPath) c.reverseHandles = some ids)
    (hne : ¬ ids.length = 0) :
    UpdateHandlesByPath c f oldPath newPath =
      updateLoop (joinPath oldPath) (joinPath newPath) newPath ids c 0 := by
  unfold UpdateHandlesByPath
  dsimp only
  rw [h]
  simp [hne]

theorem UpdateHandlesByPath_count (c : CachingHandler) (f : Fs)
    (oldPath newPath : List String) (hwf : WFcore c) :
    (UpdateHandlesByPath c f oldPath newPath).2 =
      ((bucketOf c (joinPath oldPath)).filter
        (fun i => (findKey i c.activeHandles.items).isSome)).length := by
  cases hrf : revFind (joinPath oldPath) c.reverseHandles with
  | none => rw [UpdateHandlesByPath_none hrf]; simp [bucketOf, hrf]
  | some ids =>
    by_cases hlen : ids.length = 0
    · rw [List.length_eq_zero] at hlen
      subst hlen
      rw [UpdateHandlesByPath_some_nil hrf]
      simp [bucketOf, hrf]
    · rw [UpdateHandlesByPath_some hrf hlen,
        updateLoop_count _ _ _ _ _ _ (hwf.bucketsNodup _ (revFind_mem hrf))]
      simp [bucketOf, hrf]

theorem UpdateHandlesByPath_clears_old (c : CachingHandler) (f : Fs)
    (oldPath newPath : List String) (hwf : WFcore c)
    (hne : joinPath newPath ≠ joinPath oldPath) (id : Nat)
    (hid : id ∈ bucketOf c (joinPath oldPath))
    (hlive : (findKey id c.activeHandles.items).isSome = true) :
    id ∉ bucketOf ((UpdateHandlesByPath c f oldPath newPath).1) (joinPath oldPath) := by
  unfold bucketOf at hid
  cases hrf : revFind (joinPath oldPath) c.reverseHandles with
  | none =>
    rw [hrf] at hid
    simp at hid
  | some ids =>
    rw [hrf] at hid
    simp only [Option.getD_some] at hid
    have hlen : ¬ ids.length = 0 := by
      intro h0
      rw [List.length_eq_zero] at h0
      subst h0
      simp at hid
    rw [UpdateHandlesByPath_some hrf hlen]
    unfold bucketOf
    exact updateLoop_removes_from_old _ _ _ _ _ _ hne
      (hwf.bucketsNodup _ (revFind_mem hrf))
      (by rw [hrf]; simpa using hwf.bucketsNodup _ (revFind_mem hrf)) hid hlive

theorem UpdateHandlesByPath_untouched (c : CachingHandler) (f : Fs)
    (oldPath newPath : List String) (id : Nat)
    (hid : id ∉ bucketOf c (joinPath oldPath)) :
    findKey id ((UpdateHandlesByPath c f oldPath newPath).1).activeHandles.items =
      findKey id c.activeHandles.items ∧
    ∀ p, (id ∈ bucketOf ((UpdateHandlesByPath c f oldPath newPath).1) p ↔
      id ∈ bucketOf c p) := by
  unfold bucketOf at hid
  cases hrf : revFind (joinPath oldPath) c.reverseHandles with
  | none => rw [UpdateHandlesByPath_none hrf]; simp
  | some ids =>
    rw [hrf] at hid
    simp only [Option.getD_some] at hid
    by_cases hlen : ids.length = 0
    · rw [List.length_eq_zero] at hlen
      subst hlen
      rw [UpdateHandlesByPath_some_nil hrf]
      simp
    · rw [UpdateHandlesByPath_some hrf hlen]
      unfold bucketOf
      exact ⟨updateLoop_findKey_not_mem _ _ _ _ _ _ hid,
        fun p => updateLoop_bucket_not_mem _ _ _ _ _ _ hid p⟩

theorem live_other_join_not_in_bucket (c : CachingHandler) (hwf : WFcore c)
    (oldPath : List String) (id : Nat) (e : Entry)
    (he : findKey id c.activeHandles.items = some e)
    (hne : joinPath e.p ≠ joinPath oldPath) :
    id ∉ bucketOf c (joinPath oldPath) := by
  intro hmem
  unfold bucketOf at hmem
  cases hrf : revFind (joinPath oldPath) c.reverseHandles with
  | none =>
    rw [hrf] at hmem
    simp at hmem
  | some ids =>
    rw [hrf] at hmem
    simp only [Option.getD_some] at hmem
    exact hne (hwf.sound _ (revFind_mem hrf) id hmem e he)

/-! ## Claim C1 -/

/-- Claim C1 counterexample: `UpdateHandlesByPath` does not overwrite the stored
backend reference with the supplied backend argument.  A handle minted by `fsB` for
path `a`, after `UpdateHandlesByPath` with supplied backend `fsA`, still stores
backend `fsB` (the path alone is retargeted). -/
theorem UpdateHandlesByPath_backend_cex :
    findKey 0 ((UpdateHandlesByPath (ToHandle (NewCachingHandler 2) fsB ["a"]).2 fsA
      ["a"] ["b"]).1).activeHandles.items = some { f := fsB, p := ["b"] } ∧ fsB ≠ fsA := by
  exact ⟨by decide, by decide⟩

/-- Claim C1 (amended): for every handle whose stored path exactly equals `oldPath`
at the time of the call, `UpdateHandlesByPath(backend, oldPath, newPath)` moves that
handle to `newPath` while keeping its stored backend reference unchanged, regardless
of which backend reference originally minted the handle (the supplied backend is
used only to compute the joined path keys). -/
theorem UpdateHandlesByPath_moves_keeps_backend (c : CachingHandler) (f : Fs)
    (oldPath newPath : List String) (id : Nat) (e : Entry) (hwf : WFcore c)
    (he : findKey id c.activeHandles.items = some e) (hp : e.p = oldPath) :
    findKey id ((UpdateHandlesByPath c f oldPath newPath).1).activeHandles.items =
      some { f := e.f, p := newPath } := by
  have hmem : id ∈ bucketOf c (joinPath e.p) := hwf.complete (id, e) (mem_of_findKey_some he)
  rw [hp] at hmem
  unfold bucketOf at hmem
  cases hrf : revFind (joinPath oldPath) c.reverseHandles with
  | none =>
    rw [hrf] at hmem
    simp at hmem
  | some ids =>
    rw [hrf] at hmem
    simp only [Option.getD_some] at hmem
    have hlen : ¬ ids.length = 0 := by
      intro h0
      rw [List.length_eq_zero] at h0
      subst h0
      simp at hmem
    rw [UpdateHandlesByPath_some hrf hlen]
    exact updateLoop_findKey_mem _ _ _ _ _ _
      (hwf.bucketsNodup _ (revFind_mem hrf)) hmem he

/-- Witness for claim C1 (amended): a handle minted by `fsB` for path `a` is moved
to path `b` by a bulk retarget supplied with backend `fsA`, keeping backend `fsB`. -/
theorem UpdateHandlesByPath_moves_keeps_backend_witness :
    findKey 0 ((UpdateHandlesByPath (ToHandle (NewCachingHandler 2) fsB ["a"]).2 fsA
      ["a"] ["b"]).1).activeHandles.items = some { f := fsB, p := ["b"] } :=
  UpdateHandlesByPath_moves_keeps_backend _ fsA ["a"] ["b"] 0 { f := fsB, p := ["a"] }
    (WFcore_of_check (by decide)) (by decide) rfl

/-! ## Claim C2 -/

/-- Claim C2: a handle that is live in the cache and references the renamed path
when a rename commits keeps the same handle value (the same id is resolved below),
its stored path becomes the new path, and resolving it afterwards via `FromHandle`
yields the new path and the same backend — never the `Stale` outcome (`none`). -/
theorem rename_preserves_handle (c : CachingHandler) (f : Fs)
    (oldPath newPath : List String) (id : Nat) (e : Entry) (hwf : WFcore c)
    (he : findKey id c.activeHandles.items = some e) (hp : e.p = oldPath) :
    (FromHandle ((UpdateHandlesByPath c f oldPath newPath).1) id).1 =
      some (e.f, newPath) := by
  have h1 := UpdateHandlesByPath_moves_keeps_backend c f oldPath newPath id e hwf he hp
  simp only [FromHandle, Lru.get, h1]

/-- Witness for claim C2, the scenario of the specification: rename
`docs/readme.txt` to `docs/readme.bak` while handle `0` references the old path;
afterwards handle `0` resolves to the new path with the same backend, not `Stale`. -/
theorem rename_preserves_handle_witness :
    (FromHandle ((UpdateHandlesByPath
      (ToHandle (NewCachingHandler 2) fsB ["docs", "readme.txt"]).2 fsB
      ["docs", "readme.txt"] ["docs", "readme.bak"]).1) 0).1 =
      some (fsB, ["docs", "readme.bak"]) :=
  rename_preserves_handle _ fsB ["docs", "readme.txt"] ["docs", "readme.bak"] 0
    { f := fsB, p := ["docs", "readme.txt"] }
    (WFcore_of_check (by decide)) (by decide) rfl

/-! ## Claim C6 -/

/-- Claim C6 counterexample: at a single concrete input both universal parts of the
claim fail.  Handle `1` stores path `[a/b]`, which is not exactly `[a, b]`, yet the
call retargets it (it is counted among the 2 migrated); and with joined old and new
paths equal, the old bucket retains the migrated handles. -/
theorem UpdateHandlesByPath_exact_path_cex :
    findKey 1 collidingState.activeHandles.items = some { f := fsA, p := ["a/b"] } ∧
    (["a/b"] : List String) ≠ ["a", "b"] ∧
    findKey 1 ((UpdateHandlesByPath collidingState fsB ["a", "b"] ["a", "b"]).1).activeHandles.items =
      some { f := fsA, p := ["a", "b"] } ∧
    (UpdateHandlesByPath collidingState fsB ["a", "b"] ["a", "b"]).2 = 2 ∧
    1 ∈ bucketOf ((UpdateHandlesByPath collidingState fsB ["a", "b"] ["a", "b"]).1)
      (joinPath ["a", "b"]) := by
  refine ⟨by decide, by decide, by decide, by decide, by decide⟩

/-- Claim C6 (amended): `UpdateHandlesByPath(backend, oldPath, newPath)` retargets
exactly the live handles registered in the Reverse Index bucket of the joined
`oldPath` — which includes every handle whose stored path exactly equals `oldPath`,
but is keyed by the joined string — and returns exactly the number of handles
actually migrated, silently skipping (and not counting) handles in the bucket that
are no longer live.  When the joined `newPath` differs from the joined `oldPath`,
the old bucket retains none of the migrated handles.  Any handle not registered in
that bucket — in particular any live handle whose stored path is nested strictly
under `oldPath` — is left completely unchanged: same forward entry, same bucket
memberships. -/
theorem UpdateHandlesByPath_migration (c : CachingHandler) (f : Fs)
    (oldPath newPath : List String) (hwf : WFcore c) :
    ((UpdateHandlesByPath c f oldPath newPath).2 =
      ((bucketOf c (joinPath oldPath)).filter
        (fun i => (findKey i c.activeHandles.items).isSome)).length) ∧
    (joinPath newPath ≠ joinPath oldPath →
      ∀ id ∈ bucketOf c (joinPath oldPath),
        (findKey id c.activeHandles.items).isSome = true →
        id ∉ bucketOf ((UpdateHandlesByPath c f oldPath newPath).1) (joinPath oldPath)) ∧
    (∀ id, id ∉ bucketOf c (joinPath oldPath) →
      findKey id ((UpdateHandlesByPath c f oldPath newPath).1).activeHandles.items =
        findKey id c.activeHandles.items ∧
      ∀ p, (id ∈ bucketOf ((UpdateHandlesByPath c f oldPath newPath).1) p ↔
        id ∈ bucketOf c p)) ∧
    (∀ id e x xs, findKey id c.activeHandles.items = some e →
      e.p = oldPath ++ x :: xs → (oldPath ≠ [] ∨ x ≠ "") →
      id ∉ bucketOf c (joinPath oldPath)) := by
  refine ⟨UpdateHandlesByPath_count c f oldPath newPath hwf,
    fun hne id hid hlive => UpdateHandlesByPath_clears_old c f oldPath newPath hwf hne id hid hlive,
    fun id hid => UpdateHandlesByPath_untouched c f oldPath newPath id hid,
    fun id e x xs he hnest hreal => ?_⟩
  apply live_other_join_not_in_bucket c hwf oldPath id e he
  rw [hnest]
  exact joinPath_nested_ne oldPath x xs hreal

/-- Witness for claim C6 (amended) at a concrete state: one live handle under
path `a` is migrated to path `b` (count 1), leaves the old bucket, and a handle
nested strictly under `a` is not in the bucket. -/
theorem UpdateHandlesByPath_migration_witness :
    ((UpdateHandlesByPath (ToHandle (NewCachingHandler 2) fsB ["a"]).2 fsB
      ["a"] ["b"]).2 = 1) ∧
    (0 ∉ bucketOf ((UpdateHandlesByPath (ToHandle (NewCachingHandler 2) fsB ["a"]).2 fsB
      ["a"] ["b"]).1) (joinPath ["a"])) := by
  have h := UpdateHandlesByPath_migration (ToHandle (NewCachingHandler 2) fsB ["a"]).2 fsB
    ["a"] ["b"] (WFcore_of_check (by decide))
  refine ⟨by rw [h.1]; decide, h.2.1 (by decide) 0 (by decide) (by decide)⟩

theorem searchIds_append_match (f : Fs) (pre : List Nat) (h0 : Nat) (lru : Lru Entry)
    (e : Entry) (hpre : ∀ i ∈ pre, ∀ e', findKey i lru.items = some e' → ¬ e'.f = f)
    (hh : findKey h0 lru.items = some e) (hef : e.f = f) :
    (searchIds f (pre ++ [h0]) lru).1 = some h0 := by
  induction pre generalizing lru with
  | nil =>
    simp only [List.nil_append, searchIds]
    have hg : lru.get h0 = (some e, { lru with items := (h0, e) :: eraseKey h0 lru.items }) := by
      unfold Lru.get
      rw [hh]
    rw [hg]
    dsimp only
    rw [if_pos hef]
  | cons a pre' ih =>
    simp only [List.cons_append, searchIds]
    cases hg : lru.get a with
    | mk r lru1 =>
      have hr : r = findKey a lru.items := by
        rw [show r = (lru.get a).1 from by rw [hg]]
        unfold Lru.get
        cases findKey a lru.items <;> rfl
      have hfk : ∀ k', findKey k' lru1.items = findKey k' lru.items := by
        intro k'
        rw [← Lru_get_snd_findKey lru a k', hg]
      cases r with
      | none =>
        dsimp only
        refine ih lru1 ?_ (by rw [hfk]; exact hh)
        intro i hi e' hie'
        exact hpre i (List.mem_cons_of_mem _ hi) e' (by rw [← hfk]; exact hie')
      | some cand =>
        dsimp only
        have hcand : ¬ cand.f = f :=
          hpre a (List.mem_cons_self _ _) cand hr.symm
        rw [if_neg hcand]
        refine ih lru1 ?_ (by rw [hfk]; exact hh)
        intro i hi e' hie'
        exact hpre i (List.mem_cons_of_mem _ hi) e' (by rw [← hfk]; exact hie')

theorem mem_getD_evict_subset {i : Nat} (c : CachingHandler) (q p : String) (h : Nat)
    (hm : i ∈ (revFind p (evictReverseCache c q h).reverseHandles).getD []) :
    i ∈ (revFind p c.reverseHandles).getD [] := by
  by_cases hp : p = q
  · subst hp
    rw [revFind_evictReverseCache_self] at hm
    cases hrf : revFind p c.reverseHandles with
    | none => simp [hrf] at hm
    | some b =>
      simp only [hrf, Option.map_some', Option.getD_some] at hm
      simp only [hrf, Option.getD_some]
      exact (removeFirstId_sublist h b).subset hm
  · rw [revFind_evictReverseCache_ne _ _ hp] at hm
    exact hm

/-! ## Behaviour of `ToHandle` -/

theorem ToHandle_found {c c1 : CachingHandler} {f : Fs} {path : List String} {h0 : Nat}
    (hsr : searchReverseCache c f (joinPath path) = (some h0, c1)) :
    ToHandle c f path = (h0, c1) := by
  unfold ToHandle
  dsimp only
  rw [hsr]

theorem ToHandle_miss {c c1 : CachingHandler} {f : Fs} {path : List String}
    (hsr : searchReverseCache c f (joinPath path) = (none, c1)) :
    ToHandle c f path = (c1.nextId, mintState c1 f path) := by
  unfold ToHandle mintState
  dsimp only
  rw [hsr]

theorem mintState_spec (c1 : CachingHandler) (f : Fs) (path : List String)
    (hfresh : findKey c1.nextId c1.activeHandles.items = none)
    (hcap : 1 ≤ c1.activeHandles.cap) :
    ((mintState c1 f path).activeHandles.items =
        (c1.nextId, { f := f, p := path }) :: c1.activeHandles.items ∨
      (mintState c1 f path).activeHandles.items =
        (c1.nextId, { f := f, p := path }) :: c1.activeHandles.items.dropLast) ∧
    ∃ base : List (String × List Nat),
      (mintState c1 f path).reverseHandles = bucketAppend base (joinPath path) c1.nextId ∧
      ∀ i, i ∈ (revFind (joinPath path) base).getD [] →
        i ∈ (revFind (joinPath path) c1.reverseHandles).getD [] := by
  unfold mintState
  dsimp only
  simp only [Lru.add, hfresh]
  by_cases hevict : c1.activeHandles.cap < ((c1.nextId, { f := f, p := path }) :: c1.activeHandles.items).length
  · have hne : c1.activeHandles.items ≠ [] := by
      intro h0
      rw [h0] at hevict
      simp at hevict
      omega
    rw [if_pos hevict]
    dsimp only
    cases hold : c1.activeHandles.getOldest with
    | none =>
      unfold Lru.getOldest at hold
      rw [List.getLast?_eq_none_iff] at hold
      exact absurd hold hne
    | some ev =>
      dsimp only
      constructor
      · right
        cases hcc : c1.activeHandles.items with
        | nil => exact absurd hcc hne
        | cons it0 its => simp
      · refine ⟨_, rfl, fun i hi => ?_⟩
        have h2 := mem_getD_evict_subset _ _ _ _ hi
        exact h2
  · rw [if_neg hevict]
    dsimp only
    cases hold : c1.activeHandles.getOldest with
    | none =>
      dsimp only
      exact ⟨Or.inl rfl, _, rfl, fun i hi => hi⟩
    | some ev =>
      dsimp only
      exact ⟨Or.inl rfl, _, rfl, fun i hi => hi⟩

/-! ## Claim C4 -/

/-- Claim C4: `ToHandle` is idempotent for issuance.  Calling it twice for the same
`(backend, path)` pair — backend compared by structural equality — with no
intervening operation returns the same handle both times; that handle resolves in
both resulting states to one and the same entry whose backend is the requested one;
and the second call does not grow the forward map (its size is exactly preserved). -/
theorem ToHandle_idempotent (c : CachingHandler) (f : Fs) (path : List String)
    (hwf : WFcore c) (hcap : 1 ≤ c.activeHandles.cap) :
    (ToHandle (ToHandle c f path).2 f path).1 = (ToHandle c f path).1 ∧
    (∃ e : Entry,
      findKey (ToHandle c f path).1
        ((ToHandle (ToHandle c f path).2 f path).2).activeHandles.items = some e ∧
      findKey (ToHandle c f path).1
        ((ToHandle c f path).2).activeHandles.items = some e ∧
      e.f = f) ∧
    ((ToHandle (ToHandle c f path).2 f path).2).activeHandles.items.length =
      ((ToHandle c f path).2).activeHandles.items.length := by
  rcases hsr1 : searchReverseCache c f (joinPath path) with ⟨r1, c1⟩
  have hstate := searchReverseCache_state c f (joinPath path)
  rw [hsr1] at hstate
  obtain ⟨hrev1, hnext1, _, _, hcap1, hfind1, hperm1⟩ := hstate
  cases r1 with
  | some h1 =>
    have hT1 : ToHandle c f path = (h1, c1) := ToHandle_found hsr1
    obtain ⟨e, he, hef⟩ := searchReverseCache_some_prop hsr1
    have hstable : (searchReverseCache c1 f (joinPath path)).1 =
        (searchReverseCache c f (joinPath path)).1 :=
      searchReverseCache_fst_stable f (joinPath path) hfind1 hrev1
    rw [hsr1] at hstable
    rcases hsr2 : searchReverseCache c1 f (joinPath path) with ⟨r2, c2⟩
    rw [hsr2] at hstable
    dsimp only at hstable
    subst hstable
    have hT2 : ToHandle c1 f path = (h1, c2) := ToHandle_found hsr2
    have hstate2 := searchReverseCache_state c1 f (joinPath path)
    rw [hsr2] at hstate2
    obtain ⟨_, _, _, _, _, hfind2, hperm2⟩ := hstate2
    rw [hT1]
    dsimp only
    rw [hT2]
    dsimp only
    refine ⟨rfl, ⟨e, ?_, ?_, hef⟩, hperm2.length_eq⟩
    · rw [hfind2, hfind1]
      exact he
    · rw [hfind1]
      exact he
  | none =>
    have hT1 : ToHandle c f path = (c1.nextId, mintState c1 f path) := ToHandle_miss hsr1
    have hnomatch := searchReverseCache_none_prop hsr1
    have hfresh : findKey c1.nextId c1.activeHandles.items = none := by
      rw [findKey_eq_none_iff]
      intro hmem
      have hmem' : c1.nextId ∈ keysOf c.activeHandles.items :=
        (hperm1.map Prod.fst).mem_iff.mp hmem
      obtain ⟨pr, hpr, hfst⟩ := List.mem_map.mp hmem'
      have hlt := hwf.freshLru pr hpr
      rw [hfst, hnext1] at hlt
      omega
    have hcap' : 1 ≤ c1.activeHandles.cap := by
      rw [hcap1]
      exact hcap
    obtain ⟨hitems, base, hbase, hsubset⟩ := mintState_spec c1 f path hfresh hcap'
    have hrev2 : revFind (joinPath path) (mintState c1 f path).reverseHandles =
        some ((revFind (joinPath path) base).getD [] ++ [c1.nextId]) := by
      rw [hbase]
      exact revFind_bucketAppend_self base (joinPath path) c1.nextId
    have hn1 : (keysOf c1.activeHandles.items).Nodup :=
      ((hperm1.map Prod.fst).nodup_iff).mpr hwf.keysNodup
    have hMself : findKey c1.nextId (mintState c1 f path).activeHandles.items =
        some { f := f, p := path } := by
      rcases hitems with h | h <;> rw [h] <;> simp
    have hpre : ∀ i ∈ (revFind (joinPath path) base).getD [], ∀ e,
        findKey i (mintState c1 f path).activeHandles.items = some e → ¬ e.f = f := by
      intro i hi e hie
      have hiorig : i ∈ (revFind (joinPath path) c.reverseHandles).getD [] := by
        rw [← hrev1]
        exact hsubset i hi
      have hilt : i < c.nextId := by
        cases hrf : revFind (joinPath path) c.reverseHandles with
        | none =>
          rw [hrf] at hiorig
          simp at hiorig
        | some b =>
          rw [hrf] at hiorig
          simp only [Option.getD_some] at hiorig
          exact hwf.freshRev _ (revFind_mem hrf) i hiorig
      have hine : ¬ c1.nextId = i := by
        rw [hnext1]
        omega
      have hie1 : findKey i c1.activeHandles.items = some e := by
        rcases hitems with h | h <;> rw [h] at hie <;>
          rw [findKey_cons] at hie <;> rw [if_neg hine] at hie
        · exact hie
        · have hmem := mem_of_findKey_some hie
          exact findKey_of_mem_nodup hn1 ((List.dropLast_sublist _).subset hmem)
      exact hnomatch i hiorig e (by rw [← hfind1 i]; exact hie1)
    have hsearch : (searchIds f ((revFind (joinPath path) base).getD [] ++ [c1.nextId])
        (mintState c1 f path).activeHandles).1 = some c1.nextId :=
      searchIds_append_match f _ c1.nextId _ { f := f, p := path } hpre hMself rfl
    have hsr2 : searchReverseCache (mintState c1 f path) f (joinPath path) =
        (some c1.nextId,
          { mintState c1 f path with
            activeHandles := (searchIds f ((revFind (joinPath path) base).getD [] ++ [c1.nextId])
              (mintState c1 f path).activeHandles).2 }) := by
      rw [searchReverseCache_some_rev hrev2, hsearch]
    have hT2 := ToHandle_found hsr2
    rw [hT1]
    dsimp only
    rw [hT2]
    dsimp only
    refine ⟨rfl, ⟨{ f := f, p := path }, ?_, hMself, rfl⟩, ?_⟩
    · rw [searchIds_findKey]
      exact hMself
    · exact (searchIds_perm f _ _).length_eq

/-- Witness for claim C4 at a concrete state: issuing a handle twice for
`(fsA, [w])` on a fresh capacity-2 cache. -/
theorem ToHandle_idempotent_witness :
    (ToHandle (ToHandle (NewCachingHandler 2) fsA ["w"]).2 fsA ["w"]).1 =
      (ToHandle (NewCachingHandler 2) fsA ["w"]).1 ∧
    (∃ e : Entry,
      findKey (ToHandle (NewCachingHandler 2) fsA ["w"]).1
        ((ToHandle (ToHandle (NewCachingHandler 2) fsA ["w"]).2 fsA ["w"]).2).activeHandles.items =
        some e ∧
      findKey (ToHandle (NewCachingHandler 2) fsA ["w"]).1
        ((ToHandle (NewCachingHandler 2) fsA ["w"]).2).activeHandles.items = some e ∧
      e.f = fsA) ∧
    ((ToHandle (ToHandle (NewCachingHandler 2) fsA ["w"]).2 fsA ["w"]).2).activeHandles.items.length =
      ((ToHandle (NewCachingHandler 2) fsA ["w"]).2).activeHandles.items.length :=
  ToHandle_idempotent (NewCachingHandler 2) fsA ["w"] (WFcore_of_check (by decide)) (by decide)

/-! ## Claim C7: helper lemmas -/

theorem hasPfx_refl (p : List String) : hasPfx p p = true := by
  induction p with
  | nil => rfl
  | cons a rest ih => simp [hasPfx, ih]

theorem mem_key_unique {V : Type} {l : List (Nat × V)} (hn : (keysOf l).Nodup)
    {pr pr' : Nat × V} (h : pr ∈ l) (h' : pr' ∈ l) (hk : pr.1 = pr'.1) : pr = pr' := by
  have h1 : findKey pr.1 l = some pr.2 := by
    apply findKey_of_mem_nodup hn
    simpa using h
  have h2 : findKey pr'.1 l = some pr'.2 := by
    apply findKey_of_mem_nodup hn
    simpa using h'
  rw [hk] at h1
  rw [h1] at h2
  simp only [Option.some.injEq] at h2
  obtain ⟨a, b⟩ := pr
  obtain ⟨a', b'⟩ := pr'
  simp at hk h2
  simp [hk, h2]

theorem filterMap_congr_mem {A B : Type} {l : List A} {f g : A → Option B}
    (h : ∀ a ∈ l, f a = g a) : l.filterMap f = l.filterMap g := by
  induction l with
  | nil => rfl
  | cons a rest ih =>
    simp only [List.filterMap_cons]
    rw [h a (List.mem_cons_self _ _), ih (fun a' ha' => h a' (List.mem_cons_of_mem _ ha'))]

theorem filterMap_reverse_eq {A B : Type} (f : A → Option B) (l : List A) :
    l.reverse.filterMap f = (l.filterMap f).reverse := by
  induction l with
  | nil => rfl
  | cons a rest ih =>
    simp only [List.reverse_cons, List.filterMap_append, List.filterMap_cons, ih]
    cases f a <;> simp

theorem filter_eraseKey_eq {V : Type} (k : Nat) (l : List (Nat × V))
    (hn : (keysOf l).Nodup) (P : Nat × V → Bool) :
    (eraseKey k l).filter P = l.filter (fun pr => !(pr.1 == k) && P pr) := by
  induction l with
  | nil => rfl
  | cons q rest ih =>
    simp only [keysOf_cons, List.nodup_cons] at hn
    by_cases hq : q.1 = k
    · simp only [eraseKey_cons, if_pos hq, List.filter_cons]
      have hb : (!(q.1 == k) && P q) = false := by simp [hq]
      rw [hb]
      simp only [Bool.false_eq_true, if_false]
      apply List.filter_congr
      intro pr hpr
      have hne : ¬ pr.1 = k := by
        intro hh
        apply hn.1
        have hqp : q.1 = pr.1 := by rw [hq, hh]
        rw [hqp]
        exact mem_keysOf hpr
      simp [hne]
    · simp only [eraseKey_cons, if_neg hq, List.filter_cons]
      have hb : (!(q.1 == k) && P q) = P q := by simp [hq]
      rw [hb, ih hn.2]

theorem refreshPfx_items (t : List String) (ks : List Nat) (lru : Lru Entry)
    (hks : ks.Nodup) (hn : (keysOf lru.items).Nodup) :
    (refreshPfx t ks lru).items =
      (ks.filterMap (fun k =>
        match findKey k lru.items with
        | some e => if hasPfx t e.p then some (k, e) else none
        | none => none)).reverse ++
      lru.items.filter (fun pr =>
        decide (pr.1 ∉ (ks.filterMap (fun k =>
          match findKey k lru.items with
          | some e => if hasPfx t e.p then some (k, e) else none
          | none => none)).map Prod.fst)) := by
  induction ks generalizing lru with
  | nil =>
    simp only [refreshPfx, List.filterMap_nil, List.reverse_nil, List.nil_append,
      List.map_nil]
    have : lru.items.filter (fun pr => decide (pr.1 ∉ ([] : List Nat))) = lru.items := by
      apply List.filter_eq_self.mpr
      intro pr _
      simp
    rw [this]
  | cons k ks' ih =>
    simp only [List.nodup_cons] at hks
    simp only [refreshPfx, Lru.peek]
    cases hf : findKey k lru.items with
    | none =>
      dsimp only
      rw [ih lru hks.2 hn]
      simp only [List.filterMap_cons, hf]
    | some cand =>
      dsimp only
      by_cases hc : hasPfx t cand.p
      · rw [if_pos hc]
        have hlru1 : (lru.get k).2 =
            { lru with items := (k, cand) :: eraseKey k lru.items } := by
          unfold Lru.get
          rw [hf]
        rw [hlru1]
        have hn1 : (keysOf ((k, cand) :: eraseKey k lru.items)).Nodup := by
          simp only [keysOf_cons, List.nodup_cons]
          exact ⟨not_mem_keysOf_eraseKey hn, nodup_keysOf_eraseKey hn⟩
        rw [ih { lru with items := (k, cand) :: eraseKey k lru.items } hks.2 hn1]
        dsimp only
        have hcongr : ks'.filterMap (fun k' =>
            match findKey k' ((k, cand) :: eraseKey k lru.items) with
            | some e => if hasPfx t e.p then some (k', e) else none
            | none => none) =
          ks'.filterMap (fun k' =>
            match findKey k' lru.items with
            | some e => if hasPfx t e.p then some (k', e) else none
            | none => none) := by
          apply filterMap_congr_mem
          intro a ha
          have hak : ¬ k = a := fun hh => hks.1 (hh ▸ ha)
          rw [findKey_cons, if_neg hak, findKey_eraseKey_ne _ (fun hh => hak hh.symm)]
        rw [hcongr]
        have hsub : ∀ pr' ∈ ks'.filterMap (fun k' =>
            match findKey k' lru.items with
            | some e => if hasPfx t e.p then some (k', e) else none
            | none => none), pr'.1 ∈ ks' := by
          intro pr' hpr'
          obtain ⟨a, ha, hga⟩ := List.mem_filterMap.mp hpr'
          cases hfa : findKey a lru.items with
          | none =>
            rw [hfa] at hga
            simp at hga
          | some ea =>
            rw [hfa] at hga
            dsimp only at hga
            by_cases hea : hasPfx t ea.p
            · rw [if_pos hea] at hga
              simp only [Option.some.injEq] at hga
              rw [← hga]
              exact ha
            · rw [if_neg hea] at hga
              simp at hga
        have hknot : k ∉ (ks'.filterMap (fun k' =>
            match findKey k' lru.items with
            | some e => if hasPfx t e.p then some (k', e) else none
            | none => none)).map Prod.fst := by
          intro hmem
          obtain ⟨pr', hpr', hfst⟩ := List.mem_map.mp hmem
          exact hks.1 (hfst ▸ hsub pr' hpr')
        -- head of the new filterMap
        simp only [List.filterMap_cons, hf, if_pos hc]
        rw [List.reverse_cons]
        -- the filter over the refreshed items
        rw [List.filter_cons]
        have hQk : decide ((k, cand).1 ∉ (ks'.filterMap (fun k' =>
            match findKey k' lru.items with
            | some e => if hasPfx t e.p then some (k', e) else none
            | none => none)).map Prod.fst) = true := by
          simpa using hknot
        rw [hQk]
        simp only [if_true]
        rw [filter_eraseKey_eq k lru.items hn]
        have hptwise : lru.items.filter (fun pr => !(pr.1 == k) &&
            decide (pr.1 ∉ (ks'.filterMap (fun k' =>
              match findKey k' lru.items with
              | some e => if hasPfx t e.p then some (k', e) else none
              | none => none)).map Prod.fst)) =
          lru.items.filter (fun pr =>
            decide (pr.1 ∉ ((k, cand) :: ks'.filterMap (fun k' =>
              match findKey k' lru.items with
              | some e => if hasPfx t e.p then some (k', e) else none
              | none => none)).map Prod.fst)) := by
          apply List.filter_congr
          intro pr hpr
          by_cases h1 : pr.1 = k <;>
            by_cases h2 : pr.1 ∈ (ks'.filterMap (fun k' =>
              match findKey k' lru.items with
              | some e => if hasPfx t e.p then some (k', e) else none
              | none => none)).map Prod.fst <;>
            simp [h1, h2]
        rw [hptwise]
        simp [List.append_assoc]
      · rw [if_neg hc]
        rw [ih lru hks.2 hn]
        simp only [List.filterMap_cons, hf, if_neg hc]

theorem filterMap_keysOf_match (t : List String) (l : List (Nat × Entry))
    (hn : (keysOf l).Nodup) :
    (keysOf l).filterMap (fun k =>
      match findKey k l with
      | some e => if hasPfx t e.p then some (k, e) else none
      | none => none) = l.filter (fun pr => hasPfx t pr.2.p) := by
  induction l with
  | nil => rfl
  | cons q rest ih =>
    simp only [keysOf_cons, List.nodup_cons] at hn
    have hq : findKey q.1 (q :: rest) = some q.2 := by simp
    simp only [keysOf_cons, List.filterMap_cons, hq]
    have htail : (keysOf rest).filterMap (fun k =>
        match findKey k (q :: rest) with
        | some e => if hasPfx t e.p then some (k, e) else none
        | none => none) =
      (keysOf rest).filterMap (fun k =>
        match findKey k rest with
        | some e => if hasPfx t e.p then some (k, e) else none
        | none => none) := by
      apply filterMap_congr_mem
      intro a ha
      have hqa : ¬ q.1 = a := fun hh => hn.1 (hh ▸ ha)
      rw [findKey_cons, if_neg hqa]
    rw [htail, ih hn.2]
    by_cases hc : hasPfx t q.2.p
    · rw [if_pos hc]
      simp [List.filter_cons, hc, Prod.mk.eta]
    · rw [if_neg hc]
      simp [List.filter_cons, hc]

/-! ## Behaviour of `FromHandle` -/

theorem FromHandle_none {c : CachingHandler} {fh : Nat}
    (h : findKey fh c.activeHandles.items = none) : FromHandle c fh = (none, c) := by
  have hg : c.activeHandles.get fh = (none, c.activeHandles) := by
    unfold Lru.get
    rw [h]
  unfold FromHandle
  rw [hg]

theorem FromHandle_some {c : CachingHandler} {fh : Nat} {e : Entry}
    (h : findKey fh c.activeHandles.items = some e) :
    FromHandle c fh = (some (e.f, e.p),
      { c with activeHandles :=
          (refreshPfx e.p
            (Lru.keys ⟨(fh, e) :: eraseKey fh c.activeHandles.items, c.activeHandles.cap⟩)
            ⟨(fh, e) :: eraseKey fh c.activeHandles.items, c.activeHandles.cap⟩) }) := by
  have hg : c.activeHandles.get fh = (some e,
      ⟨(fh, e) :: eraseKey fh c.activeHandles.items, c.activeHandles.cap⟩) := by
    unfold Lru.get
    rw [h]
  unfold FromHandle
  rw [hg]

/-! ## Claim C7 -/

/-- Claim C7: on a forward-map miss `FromHandle` returns the `Stale` outcome
(`none`) and leaves the state untouched.  On a hit it returns the stored backend
and (a copy of) the stored path, and the resulting recency list is exactly: the
entries whose stored path is a component-prefix of the resolved path — its
ancestor directories and the entry itself (`hasPfx` is reflexive) — promoted in
front of all remaining entries, each group keeping its internal order; no other
entry is refreshed. -/
theorem FromHandle_prefix_refresh (c : CachingHandler) (fh : Nat)
    (hn : (keysOf c.activeHandles.items).Nodup) :
    (findKey fh c.activeHandles.items = none → FromHandle c fh = (none, c)) ∧
    (∀ e, findKey fh c.activeHandles.items = some e →
      (FromHandle c fh).1 = some (e.f, e.p) ∧
      hasPfx e.p e.p = true ∧
      (FromHandle c fh).2.activeHandles.items =
        ((fh, e) :: eraseKey fh c.activeHandles.items).filter
          (fun pr => hasPfx e.p pr.2.p) ++
        ((fh, e) :: eraseKey fh c.activeHandles.items).filter
          (fun pr => !(hasPfx e.p pr.2.p))) := by
  refine ⟨fun h => FromHandle_none h, fun e he => ?_⟩
  have hn1 : (keysOf ((fh, e) :: eraseKey fh c.activeHandles.items)).Nodup := by
    simp only [keysOf_cons, List.nodup_cons]
    exact ⟨not_mem_keysOf_eraseKey hn, nodup_keysOf_eraseKey hn⟩
  refine ⟨by rw [FromHandle_some he], hasPfx_refl e.p, ?_⟩
  rw [FromHandle_some he]
  dsimp only
  have hkeys : Lru.keys (⟨(fh, e) :: eraseKey fh c.activeHandles.items,
      c.activeHandles.cap⟩ : Lru Entry) =
    (keysOf ((fh, e) :: eraseKey fh c.activeHandles.items)).reverse := rfl
  rw [hkeys]
  rw [refreshPfx_items e.p _ _ (List.nodup_reverse.mpr hn1) hn1]
  rw [filterMap_reverse_eq, filterMap_keysOf_match e.p _ hn1, List.reverse_reverse]
  have hfc : (((fh, e) :: eraseKey fh c.activeHandles.items).filter (fun pr =>
      decide (pr.1 ∉ (((fh, e) :: eraseKey fh c.activeHandles.items).filter
        (fun pr => hasPfx e.p pr.2.p)).reverse.map Prod.fst))) =
    ((fh, e) :: eraseKey fh c.activeHandles.items).filter
      (fun pr => !(hasPfx e.p pr.2.p)) := by
    apply List.filter_congr
    intro pr hpr
    by_cases hm : hasPfx e.p pr.2.p
    · have hin : pr.1 ∈ (((fh, e) :: eraseKey fh c.activeHandles.items).filter
          (fun pr => hasPfx e.p pr.2.p)).reverse.map Prod.fst := by
        apply List.mem_map_of_mem Prod.fst
        rw [List.mem_reverse]
        exact List.mem_filter.mpr ⟨hpr, hm⟩
      rw [hm]
      simp only [Bool.not_true, decide_eq_false_iff_not, not_not]
      exact hin
    · have hout : pr.1 ∉ (((fh, e) :: eraseKey fh c.activeHandles.items).filter
          (fun pr => hasPfx e.p pr.2.p)).reverse.map Prod.fst := by
        intro hmem
        obtain ⟨pr', hpr', hfst⟩ := List.mem_map.mp hmem
        rw [List.mem_reverse] at hpr'
        obtain ⟨hpr'mem, hpr'm⟩ := List.mem_filter.mp hpr'
        have heq := mem_key_unique hn1 hpr'mem hpr hfst
        rw [heq] at hpr'm
        exact hm hpr'm
      have hmf : hasPfx e.p pr.2.p = false := by
        cases hx : hasPfx e.p pr.2.p
        · rfl
        · exact absurd hx hm
      rw [hmf]
      simp only [Bool.not_false, decide_eq_true_eq]
      exact hout
  rw [hfc]

/-- Witness for claim C7 at a concrete state with an ancestor, the resolved entry
and an unrelated entry: resolving handle 1 (path `d/x`) promotes handle 1 and its
ancestor handle 0 (path `d`), leaves handle 2 (path `z`) behind, and an unknown
handle is a `Stale` miss that does not change the state. -/
theorem FromHandle_prefix_refresh_witness :
    (FromHandle (ToHandle (ToHandle (ToHandle (NewCachingHandler 3) fsA ["d"]).2
        fsA ["d", "x"]).2 fsA ["z"]).2 1).1 = some (fsA, ["d", "x"]) ∧
    (FromHandle (ToHandle (ToHandle (ToHandle (NewCachingHandler 3) fsA ["d"]).2
        fsA ["d", "x"]).2 fsA ["z"]).2 1).2.activeHandles.items =
      [(1, { f := fsA, p := ["d", "x"] }), (0, { f := fsA, p := ["d"] }),
        (2, { f := fsA, p := ["z"] })] ∧
    FromHandle (ToHandle (ToHandle (ToHandle (NewCachingHandler 3) fsA ["d"]).2
        fsA ["d", "x"]).2 fsA ["z"]).2 99 =
      (none, (ToHandle (ToHandle (ToHandle (NewCachingHandler 3) fsA ["d"]).2
        fsA ["d", "x"]).2 fsA ["z"]).2) := by
  have hh := (FromHandle_prefix_refresh (ToHandle (ToHandle (ToHandle (NewCachingHandler 3)
    fsA ["d"]).2 fsA ["d", "x"]).2 fsA ["z"]).2 1 (by decide)).2
    { f := fsA, p := ["d", "x"] } (by decide)
  have hmiss := (FromHandle_prefix_refresh (ToHandle (ToHandle (ToHandle (NewCachingHandler 3)
    fsA ["d"]).2 fsA ["d", "x"]).2 fsA ["z"]).2 99 (by decide)).1 (by decide)
  refine ⟨hh.1, ?_, hmiss⟩
  rw [hh.2.2]
  decide

/-! ## Claim C5 -/

/-- Claim C5: the rename handler fails fast.  Every failure of steps 1 to 5 —
request decode, source or destination handle resolution, same-backend check,
writability check, name-length check, and the two pre-operation directory stats —
returns its corresponding error status with the backend world untouched, before the
backend rename is ever issued.  Once the backend rename has been issued and has
succeeded, the final world is exactly the post-rename world no matter which of the
response-construction writes fail: such failures surface only as a `ServerFault`
status, and with all writes succeeding the handler reports success. -/
theorem onRename_commit_semantics {W : Type} (stat : W → String → Except StatErr FileInfo)
    (ren : W → String → String → W × Option RenameErr) (flags : WireFlags)
    (c : CachingHandler) (w : W) (fromArg toArg : Option DirOpArg) :
    (fromArg = none → onRename stat ren flags c w fromArg toArg = (.inval, c, w)) ∧
    (∀ fa c1, fromArg = some fa → FromHandle c fa.handle = (none, c1) →
      onRename stat ren flags c w fromArg toArg = (.stale, c1, w)) ∧
    (∀ fa f fromPath c1, fromArg = some fa →
      FromHandle c fa.handle = (some (f, fromPath), c1) → toArg = none →
      onRename stat ren flags c w fromArg toArg = (.inval, c1, w)) ∧
    (∀ fa f fromPath c1 ta c2, fromArg = some fa →
      FromHandle c fa.handle = (some (f, fromPath), c1) → toArg = some ta →
      FromHandle c1 ta.handle = (none, c2) →
      onRename stat ren flags c w fromArg toArg = (.stale, c2, w)) ∧
    (∀ fa f fromPath c1 ta f2 toPath c2, fromArg = some fa →
      FromHandle c fa.handle = (some (f, fromPath), c1) → toArg = some ta →
      FromHandle c1 ta.handle = (some (f2, toPath), c2) → f ≠ f2 →
      onRename stat ren flags c w fromArg toArg = (.notSupp, c2, w)) ∧
    (∀ fa f fromPath c1 ta f2 toPath c2, fromArg = some fa →
      FromHandle c fa.handle = (some (f, fromPath), c1) → toArg = some ta →
      FromHandle c1 ta.handle = (some (f2, toPath), c2) → f = f2 →
      f.writable = false →
      onRename stat ren flags c w fromArg toArg = (.rofs, c2, w)) ∧
    (∀ fa f fromPath c1 ta f2 toPath c2, fromArg = some fa →
      FromHandle c fa.handle = (some (f, fromPath), c1) → toArg = some ta →
      FromHandle c1 ta.handle = (some (f2, toPath), c2) → f = f2 →
      f.writable = true →
      (PathNameMax < (utf8Bytes fa.filename).length ∨
        PathNameMax < (utf8Bytes ta.filename).length) →
      onRename stat ren flags c w fromArg toArg = (.nameTooLong, c2, w)) ∧
    (∀ fa f fromPath c1 ta f2 toPath c2 se, fromArg = some fa →
      FromHandle c fa.handle = (some (f, fromPath), c1) → toArg = some ta →
      FromHandle c1 ta.handle = (some (f2, toPath), c2) → f = f2 →
      f.writable = true →
      ¬ (PathNameMax < (utf8Bytes fa.filename).length ∨
        PathNameMax < (utf8Bytes ta.filename).length) →
      stat w (joinPath fromPath) = .error se →
      onRename stat ren flags c w fromArg toArg =
        ((if se = .notExist then .noEnt else .ioErr), c2, w)) ∧
    (∀ fa f fromPath c1 ta f2 toPath c2 d1, fromArg = some fa →
      FromHandle c fa.handle = (some (f, fromPath), c1) → toArg = some ta →
      FromHandle c1 ta.handle = (some (f2, toPath), c2) → f = f2 →
      f.writable = true →
      ¬ (PathNameMax < (utf8Bytes fa.filename).length ∨
        PathNameMax < (utf8Bytes ta.filename).length) →
      stat w (joinPath fromPath) = .ok d1 → d1.isDir = false →
      onRename stat ren flags c w fromArg toArg = (.notDir, c2, w)) ∧
    (∀ fa f fromPath c1 ta f2 toPath c2 d1 se, fromArg = some fa →
      FromHandle c fa.handle = (some (f, fromPath), c1) → toArg = some ta →
      FromHandle c1 ta.handle = (some (f2, toPath), c2) → f = f2 →
      f.writable = true →
      ¬ (PathNameMax < (utf8Bytes fa.filename).length ∨
        PathNameMax < (utf8Bytes ta.filename).length) →
      stat w (joinPath fromPath) = .ok d1 → d1.isDir = true →
      stat w (joinPath toPath) = .error se →
      onRename stat ren flags c w fromArg toArg =
        ((if se = .notExist then .noEnt else .ioErr), c2, w)) ∧
    (∀ fa f fromPath c1 ta f2 toPath c2 d1 d2, fromArg = some fa →
      FromHandle c fa.handle = (some (f, fromPath), c1) → toArg = some ta →
      FromHandle c1 ta.handle = (some (f2, toPath), c2) → f = f2 →
      f.writable = true →
      ¬ (PathNameMax < (utf8Bytes fa.filename).length ∨
        PathNameMax < (utf8Bytes ta.filename).length) →
      stat w (joinPath fromPath) = .ok d1 → d1.isDir = true →
      stat w (joinPath toPath) = .ok d2 → d2.isDir = false →
      onRename stat ren flags c w fromArg toArg = (.notDir, c2, w)) ∧
    (∀ fa f fromPath c1 ta f2 toPath c2 d1 d2 w1, fromArg = some fa →
      FromHandle c fa.handle = (some (f, fromPath), c1) → toArg = some ta →
      FromHandle c1 ta.handle = (some (f2, toPath), c2) → f = f2 →
      f.writable = true →
      ¬ (PathNameMax < (utf8Bytes fa.filename).length ∨
        PathNameMax < (utf8Bytes ta.filename).length) →
      stat w (joinPath fromPath) = .ok d1 → d1.isDir = true →
      stat w (joinPath toPath) = .ok d2 → d2.isDir = true →
      ren w (joinPath (fromPath ++ [fa.filename])) (joinPath (toPath ++ [ta.filename])) =
        (w1, none) →
      (onRename stat ren flags c w fromArg toArg).2.2 = w1 ∧
      ((onRename stat ren flags c w fromArg toArg).1 = .ok ∨
        (onRename stat ren flags c w fromArg toArg).1 = .serverFault) ∧
      (flags.statusOk = true → flags.wccFromOk = true → flags.wccToOk = true →
        flags.respOk = true →
        onRename stat ren flags c w fromArg toArg =
          (.ok, (UpdateHandlesByPath c2 f (fromPath ++ [fa.filename])
            (toPath ++ [ta.filename])).1, w1))) := by
  obtain ⟨s1, s2, s3, s4⟩ := flags
  refine ⟨?_, ?_, ?_, ?_, ?_, ?_, ?_, ?_, ?_, ?_, ?_, ?_⟩
  · intro h
    subst h
    rfl
  · intro fa c1 hfa hFH
    subst hfa
    unfold onRename
    dsimp only
    rw [hFH]
  · intro fa f fromPath c1 hfa hFH hta
    subst hfa
    subst hta
    unfold onRename
    dsimp only
    rw [hFH]
  · intro fa f fromPath c1 ta c2 hfa hFH1 hta hFH2
    subst hfa
    subst hta
    unfold onRename
    dsimp only
    rw [hFH1]
    dsimp only
    rw [hFH2]
  · intro fa f fromPath c1 ta f2 toPath c2 hfa hFH1 hta hFH2 hne
    subst hfa
    subst hta
    unfold onRename
    dsimp only
    rw [hFH1]
    dsimp only
    rw [hFH2]
    dsimp only
    rw [if_pos hne]
  · intro fa f fromPath c1 ta f2 toPath c2 hfa hFH1 hta hFH2 heq hw
    subst hfa
    subst hta
    unfold onRename
    dsimp only
    rw [hFH1]
    dsimp only
    rw [hFH2]
    dsimp only
    rw [if_neg (fun hh => hh heq), if_pos hw]
  · intro fa f fromPath c1 ta f2 toPath c2 hfa hFH1 hta hFH2 heq hw hlen
    subst hfa
    subst hta
    unfold onRename
    dsimp only
    rw [hFH1]
    dsimp only
    rw [hFH2]
    dsimp only
    rw [if_neg (fun hh => hh heq), if_neg (by rw [hw]; simp), if_pos hlen]
  · intro fa f fromPath c1 ta f2 toPath c2 se hfa hFH1 hta hFH2 heq hw hlen hstat
    subst hfa
    subst hta
    unfold onRename
    dsimp only
    rw [hFH1]
    dsimp only
    rw [hFH2]
    dsimp only
    rw [if_neg (fun hh => hh heq), if_neg (by rw [hw]; simp), if_neg hlen, hstat]
    cases se with
    | notExist => simp
    | otherErr => simp
  · intro fa f fromPath c1 ta f2 toPath c2 d1 hfa hFH1 hta hFH2 heq hw hlen hstat hdir
    subst hfa
    subst hta
    unfold onRename
    dsimp only
    rw [hFH1]
    dsimp only
    rw [hFH2]
    dsimp only
    rw [if_neg (fun hh => hh heq), if_neg (by rw [hw]; simp), if_neg hlen, hstat]
    dsimp only
    rw [if_pos hdir]
  · intro fa f fromPath c1 ta f2 toPath c2 d1 se hfa hFH1 hta hFH2 heq hw hlen hstat hdir
      hstat2
    subst hfa
    subst hta
    unfold onRename
    dsimp only
    rw [hFH1]
    dsimp only
    rw [hFH2]
    dsimp only
    rw [if_neg (fun hh => hh heq), if_neg (by rw [hw]; simp), if_neg hlen, hstat]
    dsimp only
    rw [if_neg (by rw [hdir]; simp), hstat2]
    cases se with
    | notExist => simp
    | otherErr => simp
  · intro fa f fromPath c1 ta f2 toPath c2 d1 d2 hfa hFH1 hta hFH2 heq hw hlen hstat hdir
      hstat2 hdir2
    subst hfa
    subst hta
    unfold onRename
    dsimp only
    rw [hFH1]
    dsimp only
    rw [hFH2]
    dsimp only
    rw [if_neg (fun hh => hh heq), if_neg (by rw [hw]; simp), if_neg hlen, hstat]
    dsimp only
    rw [if_neg (by rw [hdir]; simp), hstat2]
    dsimp only
    rw [if_pos hdir2]
  · intro fa f fromPath c1 ta f2 toPath c2 d1 d2 w1 hfa hFH1 hta hFH2 heq hw hlen hstat
      hdir hstat2 hdir2 hren
    subst hfa
    subst hta
    have hred : onRename stat ren ⟨s1, s2, s3, s4⟩ c w (some fa) (some ta) =
        (if s1 = false then ((.serverFault : NFSStatus),
            (UpdateHandlesByPath c2 f (fromPath ++ [fa.filename]) (toPath ++ [ta.filename])).1, w1)
          else if s2 = false then (.serverFault,
            (UpdateHandlesByPath c2 f (fromPath ++ [fa.filename]) (toPath ++ [ta.filename])).1, w1)
          else if s3 = false then (.serverFault,
            (UpdateHandlesByPath c2 f (fromPath ++ [fa.filename]) (toPath ++ [ta.filename])).1, w1)
          else if s4 = false then (.serverFault,
            (UpdateHandlesByPath c2 f (fromPath ++ [fa.filename]) (toPath ++ [ta.filename])).1, w1)
          else (.ok,
            (UpdateHandlesByPath c2 f (fromPath ++ [fa.filename]) (toPath ++ [ta.filename])).1, w1)) := by
      unfold onRename
      dsimp only
      rw [hFH1]
      dsimp only
      rw [hFH2]
      dsimp only
      rw [if_neg (fun hh => hh heq), if_neg (by rw [hw]; simp), if_neg hlen, hstat]
      dsimp only
      rw [if_neg (by rw [hdir]; simp), hstat2]
      dsimp only
      rw [if_neg (by rw [hdir2]; simp), hren]
    rw [hred]
    cases s1 <;> cases s2 <;> cases s3 <;> cases s4 <;> simp

/-- Witness for claim C5: a committed rename on a world counter (the backend rename
bumps the world from 7 to 8) with all response writes succeeding reports success,
keeps the post-rename world, and propagates to the handle cache. -/
theorem onRename_commit_semantics_witness :
    onRename
      (fun (_ : Nat) (_ : String) =>
        (.ok { name := "", isDir := true } : Except StatErr FileInfo))
      (fun wld _ _ => (wld + 1, (none : Option RenameErr)))
      { statusOk := true, wccFromOk := true, wccToOk := true, respOk := true }
      (ToHandle (ToHandle (NewCachingHandler 4) fsA ["src"]).2 fsA ["dst"]).2 7
      (some { handle := 0, filename := "a.txt" })
      (some { handle := 1, filename := "a.txt" }) =
      (.ok, (UpdateHandlesByPath
        (FromHandle (FromHandle
          (ToHandle (ToHandle (NewCachingHandler 4) fsA ["src"]).2 fsA ["dst"]).2 0).2 1).2
        fsA (["src"] ++ ["a.txt"]) (["dst"] ++ ["a.txt"])).1, 8) := by
  have h := (onRename_commit_semantics
      (fun (_ : Nat) (_ : String) =>
        (.ok { name := "", isDir := true } : Except StatErr FileInfo))
      (fun wld _ _ => (wld + 1, (none : Option RenameErr)))
      { statusOk := true, wccFromOk := true, wccToOk := true, respOk := true }
      (ToHandle (ToHandle (NewCachingHandler 4) fsA ["src"]).2 fsA ["dst"]).2 7
      (some { handle := 0, filename := "a.txt" })
      (some { handle := 1, filename := "a.txt" })).2.2.2.2.2.2.2.2.2.2.2
    { handle := 0, filename := "a.txt" } fsA ["src"]
    (FromHandle (ToHandle (ToHandle (NewCachingHandler 4) fsA ["src"]).2 fsA ["dst"]).2 0).2
    { handle := 1, filename := "a.txt" } fsA ["dst"]
    (FromHandle (FromHandle
      (ToHandle (ToHandle (NewCachingHandler 4) fsA ["src"]).2 fsA ["dst"]).2 0).2 1).2
    { name := "", isDir := true } { name := "", isDir := true } 8
    rfl (by decide) rfl (by decide) rfl rfl (by decide) rfl rfl rfl rfl rfl
  exact h.2.2 rfl rfl rfl rfl

/-! ## Filling a fresh cache to capacity (claim C3) -/

theorem findKey_append {V : Type} (k : Nat) (l1 l2 : List (Nat × V)) :
    findKey k (l1 ++ l2) =
      match findKey k l1 with
      | some v => some v
      | none => findKey k l2 := by
  induction l1 with
  | nil => rfl
  | cons p rest ih =>
    by_cases hp : p.1 = k
    · simp [hp]
    · simp [hp, ih]

theorem revFind_append (p : String) (m1 m2 : List (String × List Nat)) :
    revFind p (m1 ++ m2) =
      match revFind p m1 with
      | some v => some v
      | none => revFind p m2 := by
  induction m1 with
  | nil => rfl
  | cons pr rest ih =>
    by_cases hp : pr.1 = p
    · simp [hp]
    · simp [hp, ih]

theorem revSet_of_miss {p : String} {m : List (String × List Nat)} (v : List Nat)
    (h : revFind p m = none) : revSet p v m = m ++ [(p, v)] := by
  induction m with
  | nil => rfl
  | cons pr rest ih =>
    by_cases hp : pr.1 = p
    · simp [hp] at h
    · simp only [revFind_cons, if_neg hp] at h
      simp [hp, ih h]

theorem insertAll_append (f : Fs) (l1 l2 : List (List String)) (c : CachingHandler) :
    insertAll f (l1 ++ l2) c = insertAll f l2 (insertAll f l1 c) := by
  induction l1 generalizing c with
  | nil => rfl
  | cons p rest ih =>
    simp only [List.cons_append, insertAll]
    exact ih _

theorem length_filledRev (f : Fs) (s : Nat) (l : List (List String)) :
    (filledRev f s l).length = l.length := by
  induction l generalizing s with
  | nil => rfl
  | cons p rest ih => simp [filledRev, ih]

theorem filledRev_append (f : Fs) (xs ys : List (List String)) (s : Nat) :
    filledRev f s (xs ++ ys) = filledRev f (s + xs.length) ys ++ filledRev f s xs := by
  induction xs generalizing s with
  | nil => simp [filledRev]
  | cons x rest ih =>
    have hs : s + 1 + rest.length = s + (rest.length + 1) := by omega
    rw [List.cons_append]
    simp only [filledRev, List.length_cons]
    rw [ih (s + 1), hs, List.append_assoc]

theorem findKey_filledRev_lo (f : Fs) (k s : Nat) (l : List (List String)) (hk : k < s) :
    findKey k (filledRev f s l) = none := by
  induction l generalizing s with
  | nil => rfl
  | cons p rest ih =>
    rw [filledRev, findKey_append, ih (s + 1) (by omega)]
    have hs : ¬ s = k := by omega
    simp [hs]

theorem findKey_filledRev_hi (f : Fs) (k s : Nat) (l : List (List String))
    (hk : s + l.length ≤ k) : findKey k (filledRev f s l) = none := by
  induction l generalizing s with
  | nil => rfl
  | cons p rest ih =>
    simp only [List.length_cons] at hk
    rw [filledRev, findKey_append, ih (s + 1) (by omega)]
    have hs : ¬ s = k := by omega
    simp [hs]

theorem findKey_filledRev_mem (f : Fs) (s j : Nat) (l : List (List String))
    (hj : j < l.length) :
    findKey (s + j) (filledRev f s l) = some { f := f, p := l.get ⟨j, hj⟩ } := by
  induction l generalizing s j with
  | nil => simp at hj
  | cons p rest ih =>
    cases j with
    | zero =>
      rw [filledRev, findKey_append, findKey_filledRev_lo f (s + 0) (s + 1) rest (by omega)]
      simp
    | succ j' =>
      have hj' : j' < rest.length := by
        simp only [List.length_cons] at hj
        omega
      have hsj : s + (j' + 1) = (s + 1) + j' := by omega
      rw [filledRev, findKey_append, hsj, ih (s + 1) j' hj']
      simp

theorem filledBuckets_append (s : Nat) (xs ys : List (List String)) :
    filledBuckets s (xs ++ ys) =
      filledBuckets s xs ++ filledBuckets (s + xs.length) ys := by
  induction xs generalizing s with
  | nil => simp [filledBuckets]
  | cons x rest ih =>
    have hs : s + 1 + rest.length = s + (rest.length + 1) := by omega
    rw [List.cons_append]
    simp only [filledBuckets, List.length_cons, ih (s + 1), hs, List.cons_append]

theorem revFind_filledBuckets_none {p : String} (s : Nat) (l : List (List String))
    (hp : ∀ q ∈ l, joinPath q ≠ p) : revFind p (filledBuckets s l) = none := by
  induction l generalizing s with
  | nil => rfl
  | cons q rest ih =>
    simp only [filledBuckets, revFind_cons]
    rw [if_neg (hp q (List.mem_cons_self _ _)),
      ih (s + 1) (fun q' hq' => hp q' (List.mem_cons_of_mem _ hq'))]

theorem insertAll_fill (f : Fs) (ps : List (List String)) :
    ∀ (c : CachingHandler),
    (∀ p ∈ ps, revFind (joinPath p) c.reverseHandles = none) →
    List.Pairwise (fun a b => joinPath a ≠ joinPath b) ps →
    (∀ k ∈ keysOf c.activeHandles.items, k < c.nextId) →
    c.activeHandles.items.length + ps.length ≤ c.activeHandles.cap →
    insertAll f ps c =
      { activeHandles :=
          { items := filledRev f c.nextId ps ++ c.activeHandles.items,
            cap := c.activeHandles.cap }
        reverseHandles := c.reverseHandles ++ filledBuckets c.nextId ps
        activeVerifiers := c.activeVerifiers
        cacheLimit := c.cacheLimit
        nextId := c.nextId + ps.length } := by
  induction ps with
  | nil =>
    intro c h1 h2 h3 h4
    simp only [insertAll, filledRev, filledBuckets, List.nil_append, List.append_nil,
      List.length_nil, Nat.add_zero]
  | cons p rest ih =>
    intro c h1 h2 h3 h4
    have hp : revFind (joinPath p) c.reverseHandles = none :=
      h1 p (List.mem_cons_self _ _)
    have hsr : searchReverseCache c f (joinPath p) = (none, c) :=
      searchReverseCache_none_rev hp
    have hfresh : findKey c.nextId c.activeHandles.items = none := by
      rw [findKey_eq_none_iff]
      intro hmem
      exact lt_irrefl _ (h3 _ hmem)
    have hlen : ¬ c.activeHandles.cap <
        ((c.nextId, ({ f := f, p := p } : Entry)) :: c.activeHandles.items).length := by
      simp only [List.length_cons]
      simp only [List.length_cons] at h4
      omega
    have hba : bucketAppend c.reverseHandles (joinPath p) c.nextId =
        c.reverseHandles ++ [(joinPath p, [c.nextId])] := by
      unfold bucketAppend
      rw [hp]
      exact revSet_of_miss _ hp
    have hmint : mintState c f p =
        { activeHandles :=
            { items := (c.nextId, { f := f, p := p }) :: c.activeHandles.items,
              cap := c.activeHandles.cap }
          reverseHandles := c.reverseHandles ++ [(joinPath p, [c.nextId])]
          activeVerifiers := c.activeVerifiers
          cacheLimit := c.cacheLimit
          nextId := c.nextId + 1 } := by
      unfold mintState
      dsimp only
      simp only [Lru.add, hfresh]
      rw [if_neg hlen]
      cases hold : c.activeHandles.getOldest with
      | none =>
        dsimp only
        rw [hba]
      | some ev =>
        dsimp only
        rw [hba]
    have hpair := List.pairwise_cons.mp h2
    have h1' : ∀ p' ∈ rest,
        revFind (joinPath p') (c.reverseHandles ++ [(joinPath p, [c.nextId])]) = none := by
      intro p' hp'
      rw [revFind_append, h1 p' (List.mem_cons_of_mem _ hp')]
      have hne : ¬ joinPath p = joinPath p' := hpair.1 p' hp'
      simp [hne]
    have ihres := ih
      { activeHandles :=
          { items := (c.nextId, { f := f, p := p }) :: c.activeHandles.items,
            cap := c.activeHandles.cap }
        reverseHandles := c.reverseHandles ++ [(joinPath p, [c.nextId])]
        activeVerifiers := c.activeVerifiers
        cacheLimit := c.cacheLimit
        nextId := c.nextId + 1 }
      h1' hpair.2
      (by
        dsimp only
        intro k hk
        simp only [keysOf_cons, List.mem_cons] at hk
        rcases hk with hk | hk
        · omega
        · have := h3 k hk
          omega)
      (by
        dsimp only
        simp only [List.length_cons]
        simp only [List.length_cons] at h4
        omega)
    rw [insertAll, ToHandle_miss hsr, hmint] at *
    rw [ihres]
    have hrev : (c.reverseHandles ++ [(joinPath p, [c.nextId])]) ++
        filledBuckets (c.nextId + 1) rest =
        c.reverseHandles ++ filledBuckets c.nextId (p :: rest) := by
      rw [List.append_assoc]
      rfl
    have hitems : filledRev f (c.nextId + 1) rest ++
        ((c.nextId, ({ f := f, p := p } : Entry)) :: c.activeHandles.items) =
        filledRev f c.nextId (p :: rest) ++ c.activeHandles.items := by
      show filledRev f (c.nextId + 1) rest ++
        ([(c.nextId, ({ f := f, p := p } : Entry))] ++ c.activeHandles.items) = _
      rw [← List.append_assoc]
      rfl
    simp only [hrev, hitems, List.length_cons]
    have hn : c.nextId + 1 + rest.length = c.nextId + (rest.length + 1) := by omega
    rw [hn]

/-- Claim C3: filling a fresh cache of capacity N (at least 1) with N+1 issuances
for pairwise-distinct joined paths: the forward map never exceeds N entries after
any prefix of the calls; the first-issued (least-recently-touched) handle, id 0,
afterwards resolves to the `Stale` outcome; each of the other N handles still
resolves to its backend and path; and the evicted handle is removed from its
Reverse Index bucket. -/
theorem ToHandle_capacity_eviction (f : Fs) (p0 q : List String) (ps : List (List String))
    (hdist : List.Pairwise (fun a b => joinPath a ≠ joinPath b) (p0 :: (ps ++ [q]))) :
    (∀ l1 l2, p0 :: (ps ++ [q]) = l1 ++ l2 →
      (insertAll f l1 (NewCachingHandler (ps.length + 1))).activeHandles.items.length
        ≤ ps.length + 1) ∧
    (FromHandle (insertAll f (p0 :: (ps ++ [q])) (NewCachingHandler (ps.length + 1))) 0).1
      = none ∧
    (∀ i pi, 1 ≤ i → (ps ++ [q]).get? (i - 1) = some pi →
      (FromHandle (insertAll f (p0 :: (ps ++ [q])) (NewCachingHandler (ps.length + 1))) i).1
        = some (f, pi)) ∧
    0 ∉ bucketOf (insertAll f (p0 :: (ps ++ [q])) (NewCachingHandler (ps.length + 1)))
      (joinPath p0) := by
  have hhead : ∀ x ∈ ps ++ [q], joinPath p0 ≠ joinPath x := (List.pairwise_cons.mp hdist).1
  have htail : List.Pairwise (fun a b => joinPath a ≠ joinPath b) (ps ++ [q]) :=
    (List.pairwise_cons.mp hdist).2
  have hcross : ∀ x ∈ ps, joinPath x ≠ joinPath q := by
    intro x hx
    exact (List.pairwise_append.mp htail).2.2 x hx q (List.mem_singleton_self q)
  have hallq : ∀ x ∈ p0 :: ps, joinPath x ≠ joinPath q := by
    intro x hx
    rcases List.mem_cons.mp hx with hx | hx
    · subst hx
      exact hhead q (List.mem_append_right _ (List.mem_singleton_self q))
    · exact hcross x hx
  have hp0ps : List.Pairwise (fun a b => joinPath a ≠ joinPath b) (p0 :: ps) :=
    hdist.sublist (List.Sublist.cons₂ p0 (List.sublist_append_left ps [q]))
  have hfull := insertAll_fill f (p0 :: ps) (NewCachingHandler (ps.length + 1))
    (by intro p hp; rfl) hp0ps
    (by intro k hk; simp [NewCachingHandler, NewCachingHandlerWithVerifierLimit, keysOf] at hk)
    (by simp [NewCachingHandler, NewCachingHandlerWithVerifierLimit])
  have hfull2 : insertAll f (p0 :: ps) (NewCachingHandler (ps.length + 1)) =
      { activeHandles := { items := filledRev f 0 (p0 :: ps), cap := ps.length + 1 }
        reverseHandles := filledBuckets 0 (p0 :: ps)
        activeVerifiers := { items := [], cap := ps.length + 1 }
        cacheLimit := ps.length + 1
        nextId := ps.length + 1 } := by
    rw [hfull]
    simp [NewCachingHandler, NewCachingHandlerWithVerifierLimit]
  have hitems0 : filledRev f 0 (p0 :: ps) =
      filledRev f 1 ps ++ [(0, ({ f := f, p := p0 } : Entry))] := rfl
  have hbuck0 : filledBuckets 0 (p0 :: ps) =
      (joinPath p0, [0]) :: filledBuckets 1 ps := rfl
  have hlfr : (filledRev f 0 (p0 :: ps)).length = ps.length + 1 := by
    rw [length_filledRev]
    simp
  have hqmiss : revFind (joinPath q) (filledBuckets 0 (p0 :: ps)) = none :=
    revFind_filledBuckets_none 0 (p0 :: ps) hallq
  have hfreshq : findKey (ps.length + 1) (filledRev f 0 (p0 :: ps)) = none := by
    refine findKey_filledRev_hi f (ps.length + 1) 0 (p0 :: ps) ?_
    simp
  have hfr : filledRev f 1 (ps ++ [q]) =
      (ps.length + 1, ({ f := f, p := q } : Entry)) :: filledRev f 1 ps := by
    have h1 : 1 + ps.length = ps.length + 1 := by omega
    rw [filledRev_append, h1]
    rfl
  have hfindq2 : revFind (joinPath q) ((joinPath p0, []) :: filledBuckets 1 ps) = none := by
    simp only [revFind_cons]
    rw [if_neg (hallq p0 (List.mem_cons_self _ _)),
      revFind_filledBuckets_none 1 ps (fun x hx => hallq x (List.mem_cons_of_mem _ hx))]
  have hmq : mintState
      { activeHandles := { items := filledRev f 0 (p0 :: ps), cap := ps.length + 1 }
        reverseHandles := filledBuckets 0 (p0 :: ps)
        activeVerifiers := { items := [], cap := ps.length + 1 }
        cacheLimit := ps.length + 1
        nextId := ps.length + 1 } f q = filledState f p0 q ps := by
    unfold mintState
    dsimp only
    simp only [Lru.add, hfreshq]
    rw [if_pos (by rw [List.length_cons, hlfr]; omega)]
    have hold : (Lru.getOldest
        ({ items := filledRev f 0 (p0 :: ps), cap := ps.length + 1 } : Lru Entry)) =
        some (0, ({ f := f, p := p0 } : Entry)) := by
      unfold Lru.getOldest
      dsimp only
      rw [hitems0]
      exact List.getLast?_concat _
    rw [hold]
    dsimp only
    have hdrop : ((ps.length + 1, ({ f := f, p := q } : Entry)) ::
        filledRev f 0 (p0 :: ps)).dropLast =
        (ps.length + 1, ({ f := f, p := q } : Entry)) :: filledRev f 1 ps := by
      rw [hitems0, ← List.cons_append]
      exact List.dropLast_concat
    rw [hdrop]
    have hev : evictReverseCache
        { activeHandles :=
            { items := (ps.length + 1, ({ f := f, p := q } : Entry)) :: filledRev f 1 ps,
              cap := ps.length + 1 }
          reverseHandles := filledBuckets 0 (p0 :: ps)
          activeVerifiers := ({ items := [], cap := ps.length + 1 } : Lru Verifier)
          cacheLimit := ps.length + 1
          nextId := ps.length + 1 + 1 } (joinPath p0) 0 =
        { activeHandles :=
            { items := (ps.length + 1, ({ f := f, p := q } : Entry)) :: filledRev f 1 ps,
              cap := ps.length + 1 }
          reverseHandles := (joinPath p0, []) :: filledBuckets 1 ps
          activeVerifiers := ({ items := [], cap := ps.length + 1 } : Lru Verifier)
          cacheLimit := ps.length + 1
          nextId := ps.length + 1 + 1 } := by
      unfold evictReverseCache
      dsimp only
      rw [hbuck0]
      simp
    rw [hev]
    have hba : bucketAppend ((joinPath p0, []) :: filledBuckets 1 ps) (joinPath q)
        (ps.length + 1) =
        (joinPath p0, []) :: (filledBuckets 1 ps ++ [(joinPath q, [ps.length + 1])]) := by
      unfold bucketAppend
      rw [hfindq2, revSet_of_miss _ hfindq2]
      rfl
    rw [hba, ← hfr]
    rfl
  have hfinal : insertAll f (p0 :: (ps ++ [q])) (NewCachingHandler (ps.length + 1)) =
      filledState f p0 q ps := by
    have hsplit : p0 :: (ps ++ [q]) = (p0 :: ps) ++ [q] := by simp
    rw [hsplit, insertAll_append, hfull2]
    show (ToHandle _ f q).2 = _
    rw [ToHandle_miss (searchReverseCache_none_rev hqmiss)]
    dsimp only
    exact hmq
  refine ⟨?_, ?_, ?_, ?_⟩
  · intro l1 l2 heq
    cases l2 with
    | nil =>
      rw [List.append_nil] at heq
      rw [← heq, hfinal]
      show (filledRev f 1 (ps ++ [q])).length ≤ ps.length + 1
      rw [length_filledRev]
      simp
    | cons x l2' =>
      have hlen1 : l1.length + (l2'.length + 1) = ps.length + 2 := by
        have hthis := congrArg List.length heq
        simp only [List.length_cons, List.length_append, List.length_nil] at hthis
        omega
      have hsub : l1.Sublist (p0 :: (ps ++ [q])) := by
        rw [heq]
        exact List.sublist_append_left l1 (x :: l2')
      have hfill := insertAll_fill f l1 (NewCachingHandler (ps.length + 1))
        (by intro p hp; rfl) (hdist.sublist hsub)
        (by
          intro k hk
          simp [NewCachingHandler, NewCachingHandlerWithVerifierLimit, keysOf] at hk)
        (by
          simp [NewCachingHandler, NewCachingHandlerWithVerifierLimit]
          omega)
      rw [hfill]
      dsimp only
      rw [List.length_append, length_filledRev]
      simp [NewCachingHandler, NewCachingHandlerWithVerifierLimit]
      omega
  · rw [hfinal]
    have hfk0 : findKey 0 (filledState f p0 q ps).activeHandles.items = none :=
      findKey_filledRev_lo f 0 1 (ps ++ [q]) (by omega)
    rw [FromHandle_none hfk0]
  · intro i pi hi hget
    obtain ⟨hlt, hgeteq⟩ := List.get?_eq_some.mp hget
    have hfind : findKey i (filledState f p0 q ps).activeHandles.items =
        some { f := f, p := pi } := by
      show findKey i (filledRev f 1 (ps ++ [q])) = some { f := f, p := pi }
      have hieq : i = 1 + (i - 1) := by omega
      rw [hieq, findKey_filledRev_mem f 1 (i - 1) (ps ++ [q]) hlt, hgeteq]
    rw [hfinal, FromHandle_some hfind]
  · rw [hfinal]
    unfold bucketOf filledState
    dsimp only
    simp

/-- Witness for claim C3: the spec scenario — capacity 3, issuing handles for
paths A, B, C, D in order makes the handle for A (id 0) resolve to the Stale
outcome, the handle for D still resolves, and id 0 is gone from A's bucket. -/
theorem ToHandle_capacity_eviction_witness :
    (FromHandle (insertAll fsA [["A"], ["B"], ["C"], ["D"]] (NewCachingHandler 3)) 0).1
      = none ∧
    (FromHandle (insertAll fsA [["A"], ["B"], ["C"], ["D"]] (NewCachingHandler 3)) 3).1
      = some (fsA, ["D"]) ∧
    0 ∉ bucketOf (insertAll fsA [["A"], ["B"], ["C"], ["D"]] (NewCachingHandler 3))
      (joinPath ["A"]) := by
  have h := ToHandle_capacity_eviction fsA ["A"] ["D"] [["B"], ["C"]] (by decide)
  exact ⟨h.2.1, h.2.2.1 3 ["D"] (by decide) rfl, h.2.2.2⟩

/-! ## Preservation of forward/reverse consistency (claim C9) -/

theorem WF_of_eq {c c' : CachingHandler}
    (hi : c'.activeHandles.items = c.activeHandles.items)
    (hr : c'.reverseHandles = c.reverseHandles)
    (hn : c'.nextId = c.nextId) (hwf : WF c) : WF c' := by
  obtain ⟨⟨k1, k2, k3, k4, k5, k6, k7⟩, ho⟩ := hwf
  refine ⟨⟨?_, ?_, ?_, ?_, ?_, ?_, ?_⟩, ?_⟩
  · rw [hi]; exact k1
  · rw [hr]; exact k2
  · rw [hr]; exact k3
  · rw [hr, hi]; exact k4
  · intro pr hpr
    rw [hi] at hpr
    have h5 := k5 pr hpr
    unfold bucketOf at h5 ⊢
    rw [hr]
    exact h5
  · rw [hi, hn]; exact k6
  · rw [hr, hn]; exact k7
  · rw [hr, hi]; exact ho

theorem WF_perm_items {c c' : CachingHandler}
    (hr : c'.reverseHandles = c.reverseHandles)
    (hn : c'.nextId = c.nextId)
    (hperm : c'.activeHandles.items.Perm c.activeHandles.items)
    (hwf : WF c) : WF c' := by
  obtain ⟨⟨k1, k2, k3, k4, k5, k6, k7⟩, ho⟩ := hwf
  have hfind : ∀ k, findKey k c'.activeHandles.items = findKey k c.activeHandles.items :=
    fun k => (findKey_eq_of_perm k1 hperm.symm k).symm
  refine ⟨⟨?_, ?_, ?_, ?_, ?_, ?_, ?_⟩, ?_⟩
  · exact ((hperm.map Prod.fst).nodup_iff).mpr k1
  · rw [hr]; exact k2
  · rw [hr]; exact k3
  · intro pr hpr i hi e' he'
    rw [hfind] at he'
    rw [hr] at hpr
    exact k4 pr hpr i hi e' he'
  · intro pr hpr
    have h5 := k5 pr (hperm.subset hpr)
    unfold bucketOf at h5 ⊢
    rw [hr]
    exact h5
  · intro pr hpr
    rw [hn]
    exact k6 pr (hperm.subset hpr)
  · rw [hr, hn]; exact k7
  · intro pr hpr i hi
    rw [hfind]
    rw [hr] at hpr
    exact ho pr hpr i hi

theorem refreshPfx_perm (t : List String) (ks : List Nat) (lru : Lru Entry) :
    (refreshPfx t ks lru).items.Perm lru.items := by
  induction ks generalizing lru with
  | nil => exact List.Perm.refl _
  | cons k rest ih =>
    simp only [refreshPfx]
    cases hp : lru.peek k with
    | none =>
      dsimp only
      exact ih lru
    | some cand =>
      dsimp only
      by_cases hc : hasPfx t cand.p
      · rw [if_pos hc]
        exact (ih _).trans (Lru_get_snd_perm lru k)
      · rw [if_neg hc]
        exact ih lru

theorem bucketAppend_eq_revSet (m : List (String × List Nat)) (p : String) (id : Nat) :
    bucketAppend m p id = revSet p ((revFind p m).getD [] ++ [id]) m := by
  unfold bucketAppend
  cases h : revFind p m with
  | none => simp [h]
  | some ids => simp [h]

theorem bucket_mem_rev {c : CachingHandler} (p' : String) (i : Nat)
    (hi : i ∈ (revFind p' c.reverseHandles).getD []) :
    ∃ idsp, revFind p' c.reverseHandles = some idsp ∧
      (p', idsp) ∈ c.reverseHandles ∧ i ∈ idsp := by
  cases hq : revFind p' c.reverseHandles with
  | none => rw [hq] at hi; simp at hi
  | some idsp =>
    rw [hq] at hi
    simp only [Option.getD_some] at hi
    exact ⟨idsp, rfl, revFind_mem hq, hi⟩

theorem retarget_WF (c : CachingHandler) (id : Nat) (e : Entry) (fN : Fs) (np : List String)
    (av : Lru Verifier) (cl cap : Nat) (hwf : WF c)
    (hfind : findKey id c.activeHandles.items = some e) :
    WF { activeHandles :=
           { items := (id, { f := fN, p := np }) :: eraseKey id c.activeHandles.items,
             cap := cap }
         reverseHandles :=
           bucketAppend (evictReverseCache c (joinPath e.p) id).reverseHandles
             (joinPath np) id
         activeVerifiers := av
         cacheLimit := cl
         nextId := c.nextId } := by
  obtain ⟨⟨k1, k2, k3, k4, k5, k6, k7⟩, ho⟩ := hwf
  have hmem : (id, e) ∈ c.activeHandles.items := mem_of_findKey_some hfind
  have hidb : id ∈ bucketOf c (joinPath e.p) := k5 (id, e) hmem
  obtain ⟨ids0, hrf⟩ : ∃ ids0, revFind (joinPath e.p) c.reverseHandles = some ids0 := by
    unfold bucketOf at hidb
    cases hrf0 : revFind (joinPath e.p) c.reverseHandles with
    | none => rw [hrf0] at hidb; simp at hidb
    | some ids0 => exact ⟨ids0, rfl⟩
  have hid0 : id ∈ ids0 := by
    unfold bucketOf at hidb
    rw [hrf] at hidb
    simpa using hidb
  have hmem0 : (joinPath e.p, ids0) ∈ c.reverseHandles := revFind_mem hrf
  have hnd0 : ids0.Nodup := k3 _ hmem0
  have hE : (evictReverseCache c (joinPath e.p) id).reverseHandles =
      revSet (joinPath e.p) (removeFirstId id ids0) c.reverseHandles := by
    rw [evictReverseCache_reverseHandles, hrf]
  have hEkeys : ((evictReverseCache c (joinPath e.p) id).reverseHandles.map Prod.fst)
      = c.reverseHandles.map Prod.fst := by
    rw [hE]
    exact revKeys_revSet_of_mem _ (by rw [hrf]; rfl)
  have hEkeysNodup :
      ((evictReverseCache c (joinPath e.p) id).reverseHandles.map Prod.fst).Nodup := by
    rw [hEkeys]; exact k2
  have hnoid : ∀ p',
      id ∉ (revFind p' (evictReverseCache c (joinPath e.p) id).reverseHandles).getD [] := by
    intro p' hmm
    rw [hE] at hmm
    by_cases hp : p' = joinPath e.p
    · subst hp
      rw [revFind_revSet_self] at hmm
      simp only [Option.getD_some] at hmm
      exact not_mem_removeFirstId hnd0 hmm
    · rw [revFind_revSet_ne _ _ hp] at hmm
      cases hq : revFind p' c.reverseHandles with
      | none => rw [hq] at hmm; simp at hmm
      | some idsq =>
        rw [hq] at hmm
        simp only [Option.getD_some] at hmm
        exact hp (k4 (p', idsq) (revFind_mem hq) id hmm e hfind).symm
  have hmemE : ∀ pr, pr ∈ (evictReverseCache c (joinPath e.p) id).reverseHandles →
      pr = (joinPath e.p, removeFirstId id ids0) ∨
      (pr ∈ c.reverseHandles ∧ pr.1 ≠ joinPath e.p) := by
    intro pr hpr
    rw [hE] at hpr
    exact mem_revSet_elim k2 hpr
  have hEsub : ∀ p' i,
      i ∈ (revFind p' (evictReverseCache c (joinPath e.p) id).reverseHandles).getD [] →
      i ∈ (revFind p' c.reverseHandles).getD [] :=
    fun p' i hi => mem_getD_evict_subset c _ _ id hi
  have hfI_self : findKey id ((id, ({ f := fN, p := np } : Entry)) ::
      eraseKey id c.activeHandles.items) = some { f := fN, p := np } := by simp
  have hfI_ne : ∀ k, k ≠ id →
      findKey k ((id, ({ f := fN, p := np } : Entry)) ::
        eraseKey id c.activeHandles.items) = findKey k c.activeHandles.items := by
    intro k hk
    have h1 : ¬ id = k := fun hh => hk hh.symm
    simp only [findKey_cons, if_neg h1]
    exact findKey_eraseKey_ne _ hk
  have hR : bucketAppend (evictReverseCache c (joinPath e.p) id).reverseHandles
      (joinPath np) id =
      revSet (joinPath np)
        ((revFind (joinPath np)
          (evictReverseCache c (joinPath e.p) id).reverseHandles).getD [] ++ [id])
        (evictReverseCache c (joinPath e.p) id).reverseHandles :=
    bucketAppend_eq_revSet _ _ _
  have hmemR : ∀ pr,
      pr ∈ bucketAppend (evictReverseCache c (joinPath e.p) id).reverseHandles
        (joinPath np) id →
      pr = (joinPath np, (revFind (joinPath np)
          (evictReverseCache c (joinPath e.p) id).reverseHandles).getD [] ++ [id]) ∨
      (pr ∈ (evictReverseCache c (joinPath e.p) id).reverseHandles ∧
        pr.1 ≠ joinPath np) := by
    intro pr hpr
    rw [hR] at hpr
    exact mem_revSet_elim hEkeysNodup hpr
  have hb1nd : ((revFind (joinPath np)
      (evictReverseCache c (joinPath e.p) id).reverseHandles).getD []).Nodup := by
    cases hq : revFind (joinPath np)
        (evictReverseCache c (joinPath e.p) id).reverseHandles with
    | none => simp
    | some idsn =>
      simp only [Option.getD_some]
      rcases hmemE _ (revFind_mem hq) with h1 | ⟨h1, _⟩
      · have h2 : idsn = removeFirstId id ids0 := congrArg Prod.snd h1
        rw [h2]
        exact nodup_removeFirstId hnd0
      · exact k3 _ h1
  refine ⟨⟨?_, ?_, ?_, ?_, ?_, ?_, ?_⟩, ?_⟩
  · dsimp only
    simp only [keysOf_cons]
    exact List.nodup_cons.mpr ⟨not_mem_keysOf_eraseKey k1, nodup_keysOf_eraseKey k1⟩
  · dsimp only
    rw [hR]
    exact nodup_revKeys_revSet _ hEkeysNodup
  · dsimp only
    intro pr hpr
    rcases hmemR pr hpr with h1 | ⟨hprE, _⟩
    · subst h1
      dsimp only
      rw [List.nodup_append]
      refine ⟨hb1nd, List.nodup_singleton _, ?_⟩
      intro a ha hamem
      rw [List.mem_singleton] at hamem
      subst hamem
      exact hnoid _ ha
    · rcases hmemE pr hprE with h1 | ⟨h1, _⟩
      · rw [h1]
        dsimp only
        exact nodup_removeFirstId hnd0
      · exact k3 pr h1
  · dsimp only
    intro pr hpr i hi e' he'
    rcases hmemR pr hpr with h1 | ⟨hprE, hprne⟩
    · subst h1
      dsimp only at hi ⊢
      rcases List.mem_append.mp hi with hib | hii
      · have hine : i ≠ id := fun hh => hnoid _ (hh ▸ hib)
        rw [hfI_ne i hine] at he'
        obtain ⟨idsp, hq, hmemp, hip⟩ := bucket_mem_rev _ i (hEsub _ i hib)
        exact k4 (joinPath np, idsp) hmemp i hip e' he'
      · rw [List.mem_singleton] at hii
        subst hii
        rw [hfI_self] at he'
        obtain rfl : ({ f := fN, p := np } : Entry) = e' := Option.some.inj he'
        rfl
    · rcases hmemE pr hprE with h1 | ⟨h1, hne1⟩
      · subst h1
        dsimp only at hi ⊢
        have hine : i ≠ id := fun hh => not_mem_removeFirstId hnd0 (hh ▸ hi)
        rw [hfI_ne i hine] at he'
        exact k4 (joinPath e.p, ids0) hmem0 i
          ((removeFirstId_sublist id ids0).subset hi) e' he'
      · have hine : i ≠ id := by
          intro hh
          subst hh
          exact hne1 (k4 pr h1 i hi e hfind).symm
        rw [hfI_ne i hine] at he'
        exact k4 pr h1 i hi e' he'
  · dsimp only
    intro pr hpr
    rcases List.mem_cons.mp hpr with h1 | h1
    · subst h1
      unfold bucketOf
      dsimp only
      rw [revFind_bucketAppend_self]
      simp
    · have hprit : pr ∈ c.activeHandles.items := (eraseKey_sublist id _).subset h1
      have hprne : pr.1 ≠ id := by
        intro hh
        exact not_mem_keysOf_eraseKey k1 (hh ▸ mem_keysOf h1)
      have h5 := k5 pr hprit
      unfold bucketOf at h5 ⊢
      dsimp only
      rw [mem_getD_bucketAppend_ne _ _ _ hprne, mem_getD_evict_ne _ _ _ hprne]
      exact h5
  · dsimp only
    intro pr hpr
    rcases List.mem_cons.mp hpr with h1 | h1
    · subst h1
      exact k6 (id, e) hmem
    · exact k6 pr ((eraseKey_sublist id _).subset h1)
  · dsimp only
    intro pr hpr i hi
    rcases hmemR pr hpr with h1 | ⟨hprE, _⟩
    · subst h1
      dsimp only at hi
      rcases List.mem_append.mp hi with hib | hii
      · obtain ⟨idsp, hq, hmemp, hip⟩ := bucket_mem_rev _ i (hEsub _ i hib)
        exact k7 _ hmemp i hip
      · rw [List.mem_singleton] at hii
        rw [hii]
        exact k6 (id, e) hmem
    · rcases hmemE pr hprE with h1 | ⟨h1, _⟩
      · subst h1
        dsimp only at hi
        exact k7 _ hmem0 i ((removeFirstId_sublist id ids0).subset hi)
      · exact k7 pr h1 i hi
  · dsimp only
    intro pr hpr i hi
    rcases hmemR pr hpr with h1 | ⟨hprE, hprne⟩
    · subst h1
      dsimp only at hi
      rcases List.mem_append.mp hi with hib | hii
      · have hine : i ≠ id := fun hh => hnoid _ (hh ▸ hib)
        rw [hfI_ne i hine]
        obtain ⟨idsp, hq, hmemp, hip⟩ := bucket_mem_rev _ i (hEsub _ i hib)
        exact ho _ hmemp i hip
      · rw [List.mem_singleton] at hii
        subst hii
        rw [hfI_self]
        rfl
    · rcases hmemE pr hprE with h1 | ⟨h1, hne1⟩
      · subst h1
        dsimp only at hi
        have hine : i ≠ id := fun hh => not_mem_removeFirstId hnd0 (hh ▸ hi)
        rw [hfI_ne i hine]
        exact ho _ hmem0 i ((removeFirstId_sublist id ids0).subset hi)
      · have hine : i ≠ id := by
          intro hh
          subst hh
          exact hne1 (k4 pr h1 i hi e hfind).symm
        rw [hfI_ne i hine]
        exact ho pr h1 i hi

theorem erase_WF (c : CachingHandler) (fh : Nat) (e : Entry) (av : Lru Verifier)
    (cl cap : Nat) (hwf : WF c)
    (hfind : findKey fh c.activeHandles.items = some e) :
    WF { activeHandles := { items := eraseKey fh c.activeHandles.items, cap := cap }
         reverseHandles := (evictReverseCache c (joinPath e.p) fh).reverseHandles
         activeVerifiers := av
         cacheLimit := cl
         nextId := c.nextId } := by
  obtain ⟨⟨k1, k2, k3, k4, k5, k6, k7⟩, ho⟩ := hwf
  have hmem : (fh, e) ∈ c.activeHandles.items := mem_of_findKey_some hfind
  have hidb : fh ∈ bucketOf c (joinPath e.p) := k5 (fh, e) hmem
  obtain ⟨ids0, hrf⟩ : ∃ ids0, revFind (joinPath e.p) c.reverseHandles = some ids0 := by
    unfold bucketOf at hidb
    cases hrf0 : revFind (joinPath e.p) c.reverseHandles with
    | none => rw [hrf0] at hidb; simp at hidb
    | some ids0 => exact ⟨ids0, rfl⟩
  have hmem0 : (joinPath e.p, ids0) ∈ c.reverseHandles := revFind_mem hrf
  have hnd0 : ids0.Nodup := k3 _ hmem0
  have hE : (evictReverseCache c (joinPath e.p) fh).reverseHandles =
      revSet (joinPath e.p) (removeFirstId fh ids0) c.reverseHandles := by
    rw [evictReverseCache_reverseHandles, hrf]
  have hEkeys : ((evictReverseCache c (joinPath e.p) fh).reverseHandles.map Prod.fst)
      = c.reverseHandles.map Prod.fst := by
    rw [hE]
    exact revKeys_revSet_of_mem _ (by rw [hrf]; rfl)
  have hmemE : ∀ pr, pr ∈ (evictReverseCache c (joinPath e.p) fh).reverseHandles →
      pr = (joinPath e.p, removeFirstId fh ids0) ∨
      (pr ∈ c.reverseHandles ∧ pr.1 ≠ joinPath e.p) := by
    intro pr hpr
    rw [hE] at hpr
    exact mem_revSet_elim k2 hpr
  have hfI_none : findKey fh (eraseKey fh c.activeHandles.items) = none :=
    findKey_eq_none_iff.mpr (not_mem_keysOf_eraseKey k1)
  have hfI_ne : ∀ k, k ≠ fh →
      findKey k (eraseKey fh c.activeHandles.items) = findKey k c.activeHandles.items :=
    fun k hk => findKey_eraseKey_ne _ hk
  have hlive_ne : ∀ pr ∈ c.reverseHandles, pr.1 ≠ joinPath e.p → ∀ i ∈ pr.2, i ≠ fh := by
    intro pr h1 hne1 i hi hh
    subst hh
    exact hne1 (k4 pr h1 i hi e hfind).symm
  refine ⟨⟨?_, ?_, ?_, ?_, ?_, ?_, ?_⟩, ?_⟩
  · dsimp only
    exact nodup_keysOf_eraseKey k1
  · dsimp only
    rw [hEkeys]
    exact k2
  · dsimp only
    intro pr hpr
    rcases hmemE pr hpr with h1 | ⟨h1, _⟩
    · rw [h1]
      dsimp only
      exact nodup_removeFirstId hnd0
    · exact k3 pr h1
  · dsimp only
    intro pr hpr i hi e' he'
    have hine : i ≠ fh := by
      intro hh
      rw [hh, hfI_none] at he'
      exact Option.noConfusion he'
    rw [hfI_ne i hine] at he'
    rcases hmemE pr hpr with h1 | ⟨h1, _⟩
    · subst h1
      dsimp only at hi ⊢
      exact k4 (joinPath e.p, ids0) hmem0 i
        ((removeFirstId_sublist fh ids0).subset hi) e' he'
    · exact k4 pr h1 i hi e' he'
  · dsimp only
    intro pr hpr
    have hprit : pr ∈ c.activeHandles.items := (eraseKey_sublist fh _).subset hpr
    have hprne : pr.1 ≠ fh := by
      intro hh
      exact not_mem_keysOf_eraseKey k1 (hh ▸ mem_keysOf hpr)
    have h5 := k5 pr hprit
    unfold bucketOf at h5 ⊢
    dsimp only
    rw [mem_getD_evict_ne _ _ _ hprne]
    exact h5
  · dsimp only
    intro pr hpr
    exact k6 pr ((eraseKey_sublist fh _).subset hpr)
  · dsimp only
    intro pr hpr i hi
    rcases hmemE pr hpr with h1 | ⟨h1, _⟩
    · subst h1
      dsimp only at hi
      exact k7 _ hmem0 i ((removeFirstId_sublist fh ids0).subset hi)
    · exact k7 pr h1 i hi
  · dsimp only
    intro pr hpr i hi
    rcases hmemE pr hpr with h1 | ⟨h1, hne1⟩
    · subst h1
      dsimp only at hi
      have hine : i ≠ fh := fun hh => not_mem_removeFirstId hnd0 (hh ▸ hi)
      rw [hfI_ne i hine]
      exact ho _ hmem0 i ((removeFirstId_sublist fh ids0).subset hi)
    · have hine : i ≠ fh := hlive_ne pr h1 hne1 i hi
      rw [hfI_ne i hine]
      exact ho pr h1 i hi

theorem insert_WF (c : CachingHandler) (f : Fs) (path : List String)
    (av : Lru Verifier) (cl cap : Nat) (hwf : WF c) :
    WF { activeHandles :=
           { items := (c.nextId, { f := f, p := path }) :: c.activeHandles.items,
             cap := cap }
         reverseHandles := bucketAppend c.reverseHandles (joinPath path) c.nextId
         activeVerifiers := av
         cacheLimit := cl
         nextId := c.nextId + 1 } := by
  obtain ⟨⟨k1, k2, k3, k4, k5, k6, k7⟩, ho⟩ := hwf
  have hfresh : c.nextId ∉ keysOf c.activeHandles.items := by
    intro hmm
    obtain ⟨pr, hpr, hpreq⟩ := List.mem_map.mp hmm
    have hlt := k6 pr hpr
    rw [hpreq] at hlt
    exact lt_irrefl _ hlt
  have hfI_self : findKey c.nextId ((c.nextId, ({ f := f, p := path } : Entry)) ::
      c.activeHandles.items) = some { f := f, p := path } := by simp
  have hfI_ne : ∀ k, k ≠ c.nextId →
      findKey k ((c.nextId, ({ f := f, p := path } : Entry)) ::
        c.activeHandles.items) = findKey k c.activeHandles.items := by
    intro k hk
    have h1 : ¬ c.nextId = k := fun hh => hk hh.symm
    simp only [findKey_cons, if_neg h1]
  have hbfresh : ∀ p' i, i ∈ (revFind p' c.reverseHandles).getD [] → i ≠ c.nextId := by
    intro p' i hi hh
    obtain ⟨idsp, hq, hmemp, hip⟩ := bucket_mem_rev _ i hi
    have hlt := k7 _ hmemp i hip
    rw [hh] at hlt
    exact lt_irrefl _ hlt
  have hR : bucketAppend c.reverseHandles (joinPath path) c.nextId =
      revSet (joinPath path)
        ((revFind (joinPath path) c.reverseHandles).getD [] ++ [c.nextId])
        c.reverseHandles :=
    bucketAppend_eq_revSet _ _ _
  have hmemR : ∀ pr, pr ∈ bucketAppend c.reverseHandles (joinPath path) c.nextId →
      pr = (joinPath path,
        (revFind (joinPath path) c.reverseHandles).getD [] ++ [c.nextId]) ∨
      (pr ∈ c.reverseHandles ∧ pr.1 ≠ joinPath path) := by
    intro pr hpr
    rw [hR] at hpr
    exact mem_revSet_elim k2 hpr
  have hb0nd : ((revFind (joinPath path) c.reverseHandles).getD []).Nodup := by
    cases hq : revFind (joinPath path) c.reverseHandles with
    | none => simp
    | some ids =>
      simp only [Option.getD_some]
      exact k3 _ (revFind_mem hq)
  refine ⟨⟨?_, ?_, ?_, ?_, ?_, ?_, ?_⟩, ?_⟩
  · dsimp only
    simp only [keysOf_cons]
    exact List.nodup_cons.mpr ⟨hfresh, k1⟩
  · dsimp only
    rw [hR]
    exact nodup_revKeys_revSet _ k2
  · dsimp only
    intro pr hpr
    rcases hmemR pr hpr with h1 | ⟨h1, _⟩
    · rw [h1]
      dsimp only
      rw [List.nodup_append]
      refine ⟨hb0nd, List.nodup_singleton _, ?_⟩
      intro a ha hamem
      rw [List.mem_singleton] at hamem
      exact hbfresh _ a ha hamem
    · exact k3 pr h1
  · dsimp only
    intro pr hpr i hi e' he'
    rcases hmemR pr hpr with h1 | ⟨h1, hne1⟩
    · subst h1
      dsimp only at hi ⊢
      rcases List.mem_append.mp hi with hib | hii
      · have hine : i ≠ c.nextId := hbfresh _ i hib
        rw [hfI_ne i hine] at he'
        obtain ⟨idsp, hq, hmemp, hip⟩ := bucket_mem_rev _ i hib
        exact k4 (joinPath path, idsp) hmemp i hip e' he'
      · rw [List.mem_singleton] at hii
        rw [hii, hfI_self] at he'
        obtain rfl : ({ f := f, p := path } : Entry) = e' := Option.some.inj he'
        rfl
    · have hine : i ≠ c.nextId := Nat.ne_of_lt (k7 pr h1 i hi)
      rw [hfI_ne i hine] at he'
      exact k4 pr h1 i hi e' he'
  · dsimp only
    intro pr hpr
    rcases List.mem_cons.mp hpr with h1 | h1
    · subst h1
      unfold bucketOf
      dsimp only
      rw [revFind_bucketAppend_self]
      simp
    · have hprne : pr.1 ≠ c.nextId := by
        intro hh
        exact hfresh (hh ▸ mem_keysOf h1)
      have h5 := k5 pr h1
      unfold bucketOf at h5 ⊢
      dsimp only
      rw [mem_getD_bucketAppend_ne _ _ _ hprne]
      exact h5
  · dsimp only
    intro pr hpr
    rcases List.mem_cons.mp hpr with h1 | h1
    · rw [h1]
      dsimp only
      omega
    · have := k6 pr h1
      omega
  · dsimp only
    intro pr hpr i hi
    rcases hmemR pr hpr with h1 | ⟨h1, _⟩
    · subst h1
      dsimp only at hi
      rcases List.mem_append.mp hi with hib | hii
      · obtain ⟨idsp, hq, hmemp, hip⟩ := bucket_mem_rev _ i hib
        have := k7 _ hmemp i hip
        omega
      · rw [List.mem_singleton] at hii
        omega
    · have := k7 pr h1 i hi
      omega
  · dsimp only
    intro pr hpr i hi
    rcases hmemR pr hpr with h1 | ⟨h1, hne1⟩
    · subst h1
      dsimp only at hi
      rcases List.mem_append.mp hi with hib | hii
      · have hine : i ≠ c.nextId := hbfresh _ i hib
        rw [hfI_ne i hine]
        obtain ⟨idsp, hq, hmemp, hip⟩ := bucket_mem_rev _ i hib
        exact ho _ hmemp i hip
      · rw [List.mem_singleton] at hii
        rw [hii, hfI_self]
        rfl
    · have hine : i ≠ c.nextId := Nat.ne_of_lt (k7 pr h1 i hi)
      rw [hfI_ne i hine]
      exact ho pr h1 i hi

theorem evict_insert_WF (c : CachingHandler) (f : Fs) (path : List String)
    (av : Lru Verifier) (cl cap : Nat) (k0 : Nat) (e0 : Entry) (hwf : WF c)
    (hlast : c.activeHandles.items.getLast? = some (k0, e0)) :
    WF { activeHandles :=
           { items := (c.nextId, { f := f, p := path }) ::
               c.activeHandles.items.dropLast,
             cap := cap }
         reverseHandles :=
           bucketAppend (evictReverseCache c (joinPath e0.p) k0).reverseHandles
             (joinPath path) c.nextId
         activeVerifiers := av
         cacheLimit := cl
         nextId := c.nextId + 1 } := by
  obtain ⟨⟨k1, k2, k3, k4, k5, k6, k7⟩, ho⟩ := hwf
  have hne : c.activeHandles.items ≠ [] := by
    intro h0
    rw [h0] at hlast
    exact Option.noConfusion hlast
  have hitems : c.activeHandles.items.dropLast ++ [(k0, e0)] = c.activeHandles.items := by
    have h1 := List.dropLast_append_getLast hne
    have h2 : c.activeHandles.items.getLast hne = (k0, e0) := by
      have h3 := List.getLast?_eq_getLast c.activeHandles.items hne
      rw [h3] at hlast
      exact Option.some.inj hlast
    rw [h2] at h1
    exact h1
  have hkeyssplit : keysOf c.activeHandles.items =
      keysOf c.activeHandles.items.dropLast ++ [k0] := by
    conv_lhs => rw [← hitems]
    rw [keysOf_append]
    rfl
  have hkdl : (keysOf c.activeHandles.items.dropLast).Nodup := by
    rw [hkeyssplit] at k1
    exact (List.nodup_append.mp k1).1
  have hk0dl : k0 ∉ keysOf c.activeHandles.items.dropLast := by
    rw [hkeyssplit] at k1
    intro hmm
    exact (List.nodup_append.mp k1).2.2 hmm (List.mem_singleton_self k0)
  have hfk0 : findKey k0 c.activeHandles.items = some e0 := by
    rw [← hitems, findKey_append, findKey_eq_none_iff.mpr hk0dl]
    simp
  have hmemk0 : (k0, e0) ∈ c.activeHandles.items := mem_of_findKey_some hfk0
  have hk0lt : k0 < c.nextId := k6 (k0, e0) hmemk0
  have hidb : k0 ∈ bucketOf c (joinPath e0.p) := k5 (k0, e0) hmemk0
  obtain ⟨ids0, hrf⟩ : ∃ ids0, revFind (joinPath e0.p) c.reverseHandles = some ids0 := by
    unfold bucketOf at hidb
    cases hrf0 : revFind (joinPath e0.p) c.reverseHandles with
    | none => rw [hrf0] at hidb; simp at hidb
    | some ids0 => exact ⟨ids0, rfl⟩
  have hmem0 : (joinPath e0.p, ids0) ∈ c.reverseHandles := revFind_mem hrf
  have hnd0 : ids0.Nodup := k3 _ hmem0
  have hE : (evictReverseCache c (joinPath e0.p) k0).reverseHandles =
      revSet (joinPath e0.p) (removeFirstId k0 ids0) c.reverseHandles := by
    rw [evictReverseCache_reverseHandles, hrf]
  have hEkeys : ((evictReverseCache c (joinPath e0.p) k0).reverseHandles.map Prod.fst)
      = c.reverseHandles.map Prod.fst := by
    rw [hE]
    exact revKeys_revSet_of_mem _ (by rw [hrf]; rfl)
  have hEkeysNodup :
      ((evictReverseCache c (joinPath e0.p) k0).reverseHandles.map Prod.fst).Nodup := by
    rw [hEkeys]; exact k2
  have hmemE : ∀ pr, pr ∈ (evictReverseCache c (joinPath e0.p) k0).reverseHandles →
      pr = (joinPath e0.p, removeFirstId k0 ids0) ∨
      (pr ∈ c.reverseHandles ∧ pr.1 ≠ joinPath e0.p) := by
    intro pr hpr
    rw [hE] at hpr
    exact mem_revSet_elim k2 hpr
  have hEsub : ∀ p' i,
      i ∈ (revFind p' (evictReverseCache c (joinPath e0.p) k0).reverseHandles).getD [] →
      i ∈ (revFind p' c.reverseHandles).getD [] :=
    fun p' i hi => mem_getD_evict_subset c _ _ k0 hi
  have hnok0 : ∀ p',
      k0 ∉ (revFind p' (evictReverseCache c (joinPath e0.p) k0).reverseHandles).getD [] := by
    intro p' hmm
    rw [hE] at hmm
    by_cases hp : p' = joinPath e0.p
    · subst hp
      rw [revFind_revSet_self] at hmm
      simp only [Option.getD_some] at hmm
      exact not_mem_removeFirstId hnd0 hmm
    · rw [revFind_revSet_ne _ _ hp] at hmm
      cases hq : revFind p' c.reverseHandles with
      | none => rw [hq] at hmm; simp at hmm
      | some idsq =>
        rw [hq] at hmm
        simp only [Option.getD_some] at hmm
        exact hp (k4 (p', idsq) (revFind_mem hq) k0 hmm e0 hfk0).symm
  have hfreshdl : c.nextId ∉ keysOf c.activeHandles.items.dropLast := by
    intro hmm
    have hmm2 : c.nextId ∈ keysOf c.activeHandles.items := by
      rw [hkeyssplit]
      exact List.mem_append_left _ hmm
    obtain ⟨pr, hpr, hpreq⟩ := List.mem_map.mp hmm2
    have hlt := k6 pr hpr
    rw [hpreq] at hlt
    exact lt_irrefl _ hlt
  have hdl : ∀ k, k ≠ k0 →
      findKey k c.activeHandles.items.dropLast = findKey k c.activeHandles.items := by
    intro k hk
    cases hq : findKey k c.activeHandles.items with
    | none =>
      rw [findKey_eq_none_iff] at hq ⊢
      intro hmm
      apply hq
      rw [hkeyssplit]
      exact List.mem_append_left _ hmm
    | some v =>
      have hmemv : (k, v) ∈ c.activeHandles.items := mem_of_findKey_some hq
      have hmemv2 : (k, v) ∈ c.activeHandles.items.dropLast ++ [(k0, e0)] := by
        rw [hitems]
        exact hmemv
      rcases List.mem_append.mp hmemv2 with h1 | h1
      · exact findKey_of_mem_nodup hkdl h1
      · rw [List.mem_singleton] at h1
        exact absurd (congrArg Prod.fst h1) hk
  have hfI_self : findKey c.nextId ((c.nextId, ({ f := f, p := path } : Entry)) ::
      c.activeHandles.items.dropLast) = some { f := f, p := path } := by simp
  have hfI_ne : ∀ k, k ≠ c.nextId →
      findKey k ((c.nextId, ({ f := f, p := path } : Entry)) ::
        c.activeHandles.items.dropLast) = findKey k c.activeHandles.items.dropLast := by
    intro k hk
    have h1 : ¬ c.nextId = k := fun hh => hk hh.symm
    simp only [findKey_cons, if_neg h1]
  have htransI : ∀ i e', i ≠ c.nextId →
      findKey i ((c.nextId, ({ f := f, p := path } : Entry)) ::
        c.activeHandles.items.dropLast) = some e' →
      findKey i c.activeHandles.items = some e' := by
    intro i e' hi he'
    rw [hfI_ne i hi] at he'
    exact findKey_of_mem_nodup k1
      ((List.dropLast_sublist c.activeHandles.items).subset (mem_of_findKey_some he'))
  have htrans2 : ∀ i, i ≠ c.nextId → i ≠ k0 →
      (findKey i c.activeHandles.items).isSome = true →
      (findKey i ((c.nextId, ({ f := f, p := path } : Entry)) ::
        c.activeHandles.items.dropLast)).isSome = true := by
    intro i h1 h2 hl
    obtain ⟨e', he'⟩ := Option.isSome_iff_exists.mp hl
    rw [hfI_ne i h1, hdl i h2, he']
    rfl
  have hbE_ne : ∀ p' i,
      i ∈ (revFind p' (evictReverseCache c (joinPath e0.p) k0).reverseHandles).getD [] →
      i ≠ c.nextId := by
    intro p' i hi hh
    obtain ⟨idsp, hq, hmemp, hip⟩ := bucket_mem_rev _ i (hEsub _ i hi)
    have hlt := k7 _ hmemp i hip
    rw [hh] at hlt
    exact lt_irrefl _ hlt
  have hR : bucketAppend (evictReverseCache c (joinPath e0.p) k0).reverseHandles
      (joinPath path) c.nextId =
      revSet (joinPath path)
        ((revFind (joinPath path)
          (evictReverseCache c (joinPath e0.p) k0).reverseHandles).getD [] ++ [c.nextId])
        (evictReverseCache c (joinPath e0.p) k0).reverseHandles :=
    bucketAppend_eq_revSet _ _ _
  have hmemR : ∀ pr,
      pr ∈ bucketAppend (evictReverseCache c (joinPath e0.p) k0).reverseHandles
        (joinPath path) c.nextId →
      pr = (joinPath path, (revFind (joinPath path)
          (evictReverseCache c (joinPath e0.p) k0).reverseHandles).getD [] ++ [c.nextId]) ∨
      (pr ∈ (evictReverseCache c (joinPath e0.p) k0).reverseHandles ∧
        pr.1 ≠ joinPath path) := by
    intro pr hpr
    rw [hR] at hpr
    exact mem_revSet_elim hEkeysNodup hpr
  have hb1nd : ((revFind (joinPath path)
      (evictReverseCache c (joinPath e0.p) k0).reverseHandles).getD []).Nodup := by
    cases hq : revFind (joinPath path)
        (evictReverseCache c (joinPath e0.p) k0).reverseHandles with
    | none => simp
    | some idsn =>
      simp only [Option.getD_some]
      rcases hmemE _ (revFind_mem hq) with h1 | ⟨h1, _⟩
      · have h2 : idsn = removeFirstId k0 ids0 := congrArg Prod.snd h1
        rw [h2]
        exact nodup_removeFirstId hnd0
      · exact k3 _ h1
  refine ⟨⟨?_, ?_, ?_, ?_, ?_, ?_, ?_⟩, ?_⟩
  · dsimp only
    simp only [keysOf_cons]
    exact List.nodup_cons.mpr ⟨hfreshdl, hkdl⟩
  · dsimp only
    rw [hR]
    exact nodup_revKeys_revSet _ hEkeysNodup
  · dsimp only
    intro pr hpr
    rcases hmemR pr hpr with h1 | ⟨hprE, _⟩
    · subst h1
      dsimp only
      rw [List.nodup_append]
      refine ⟨hb1nd, List.nodup_singleton _, ?_⟩
      intro a ha hamem
      rw [List.mem_singleton] at hamem
      exact hbE_ne _ a ha hamem
    · rcases hmemE pr hprE with h1 | ⟨h1, _⟩
      · rw [h1]
        dsimp only
        exact nodup_removeFirstId hnd0
      · exact k3 pr h1
  · dsimp only
    intro pr hpr i hi e' he'
    rcases hmemR pr hpr with h1 | ⟨hprE, hprne⟩
    · subst h1
      dsimp only at hi ⊢
      rcases List.mem_append.mp hi with hib | hii
      · have hine : i ≠ c.nextId := hbE_ne _ i hib
        have he'2 := htransI i e' hine he'
        obtain ⟨idsp, hq, hmemp, hip⟩ := bucket_mem_rev _ i (hEsub _ i hib)
        exact k4 (joinPath path, idsp) hmemp i hip e' he'2
      · rw [List.mem_singleton] at hii
        rw [hii, hfI_self] at he'
        obtain rfl : ({ f := f, p := path } : Entry) = e' := Option.some.inj he'
        rfl
    · rcases hmemE pr hprE with h1 | ⟨h1, hne1⟩
      · subst h1
        dsimp only at hi ⊢
        have hine : i ≠ c.nextId := by
          have hlt := k7 _ hmem0 i ((removeFirstId_sublist k0 ids0).subset hi)
          exact Nat.ne_of_lt hlt
        exact k4 (joinPath e0.p, ids0) hmem0 i
          ((removeFirstId_sublist k0 ids0).subset hi) e' (htransI i e' hine he')
      · have hine : i ≠ c.nextId := Nat.ne_of_lt (k7 pr h1 i hi)
        exact k4 pr h1 i hi e' (htransI i e' hine he')
  · dsimp only
    intro pr hpr
    rcases List.mem_cons.mp hpr with h1 | h1
    · subst h1
      unfold bucketOf
      dsimp only
      rw [revFind_bucketAppend_self]
      simp
    · have hprit : pr ∈ c.activeHandles.items :=
        (List.dropLast_sublist c.activeHandles.items).subset h1
      have hprneN : pr.1 ≠ c.nextId := by
        intro hh
        exact hfreshdl (hh ▸ mem_keysOf h1)
      have hprne0 : pr.1 ≠ k0 := by
        intro hh
        exact hk0dl (hh ▸ mem_keysOf h1)
      have h5 := k5 pr hprit
      unfold bucketOf at h5 ⊢
      dsimp only
      rw [mem_getD_bucketAppend_ne _ _ _ hprneN, mem_getD_evict_ne _ _ _ hprne0]
      exact h5
  · dsimp only
    intro pr hpr
    rcases List.mem_cons.mp hpr with h1 | h1
    · rw [h1]
      dsimp only
      omega
    · have := k6 pr ((List.dropLast_sublist c.activeHandles.items).subset h1)
      omega
  · dsimp only
    intro pr hpr i hi
    rcases hmemR pr hpr with h1 | ⟨hprE, _⟩
    · subst h1
      dsimp only at hi
      rcases List.mem_append.mp hi with hib | hii
      · obtain ⟨idsp, hq, hmemp, hip⟩ := bucket_mem_rev _ i (hEsub _ i hib)
        have := k7 _ hmemp i hip
        omega
      · rw [List.mem_singleton] at hii
        omega
    · rcases hmemE pr hprE with h1 | ⟨h1, _⟩
      · rw [h1] at hi
        dsimp only at hi
        have := k7 _ hmem0 i ((removeFirstId_sublist k0 ids0).subset hi)
        omega
      · have := k7 pr h1 i hi
        omega
  · dsimp only
    intro pr hpr i hi
    rcases hmemR pr hpr with h1 | ⟨hprE, hprne⟩
    · subst h1
      dsimp only at hi
      rcases List.mem_append.mp hi with hib | hii
      · have hineN : i ≠ c.nextId := hbE_ne _ i hib
        have hine0 : i ≠ k0 := by
          intro hh
          exact hnok0 _ (hh ▸ hib)
        obtain ⟨idsp, hq, hmemp, hip⟩ := bucket_mem_rev _ i (hEsub _ i hib)
        exact htrans2 i hineN hine0 (ho _ hmemp i hip)
      · rw [List.mem_singleton] at hii
        rw [hii, hfI_self]
        rfl
    · rcases hmemE pr hprE with h1 | ⟨h1, hne1⟩
      · subst h1
        dsimp only at hi
        have hine0 : i ≠ k0 := fun hh => not_mem_removeFirstId hnd0 (hh ▸ hi)
        have hi0 : i ∈ ids0 := (removeFirstId_sublist k0 ids0).subset hi
        have hineN : i ≠ c.nextId := Nat.ne_of_lt (k7 _ hmem0 i hi0)
        exact htrans2 i hineN hine0 (ho _ hmem0 i hi0)
      · have hineN : i ≠ c.nextId := Nat.ne_of_lt (k7 pr h1 i hi)
        have hine0 : i ≠ k0 := by
          intro hh
          have h4 := k4 pr h1 k0 (hh ▸ hi) e0 hfk0
          exact hne1 h4.symm
        exact htrans2 i hineN hine0 (ho pr h1 i hi)

theorem mint_WF (c : CachingHandler) (f : Fs) (path : List String) (hwf : WF c)
    (hcap : 1 ≤ c.activeHandles.cap) : WF (mintState c f path) := by
  have hfresh : findKey c.nextId c.activeHandles.items = none := by
    rw [findKey_eq_none_iff]
    intro hmm
    obtain ⟨pr, hpr, hpreq⟩ := List.mem_map.mp hmm
    have hlt := hwf.1.freshLru pr hpr
    rw [hpreq] at hlt
    exact lt_irrefl _ hlt
  unfold mintState
  dsimp only
  simp only [Lru.add, hfresh]
  by_cases hlen : c.activeHandles.cap <
      ((c.nextId, ({ f := f, p := path } : Entry)) :: c.activeHandles.items).length
  · rw [if_pos hlen]
    have hne : c.activeHandles.items ≠ [] := by
      intro h0
      rw [h0] at hlen
      simp at hlen
      omega
    obtain ⟨⟨k0, e0⟩, hlast⟩ : ∃ pr, c.activeHandles.items.getLast? = some pr := by
      cases hq : c.activeHandles.items.getLast? with
      | none => exact absurd (List.getLast?_eq_none_iff.mp hq) hne
      | some pr => exact ⟨pr, rfl⟩
    have hold : c.activeHandles.getOldest = some (k0, e0) := hlast
    rw [hold]
    dsimp only
    have hdrop : ((c.nextId, ({ f := f, p := path } : Entry)) ::
        c.activeHandles.items).dropLast =
        (c.nextId, ({ f := f, p := path } : Entry)) ::
          c.activeHandles.items.dropLast :=
      List.dropLast_cons_of_ne_nil hne
    rw [hdrop]
    refine WF_of_eq ?_ ?_ ?_
      (evict_insert_WF c f path c.activeVerifiers c.cacheLimit c.activeHandles.cap
        k0 e0 hwf hlast)
    · rw [evictReverseCache_activeHandles]
    · dsimp only
      rw [evictReverseCache_reverseHandles, evictReverseCache_reverseHandles]
    · rw [evictReverseCache_nextId]
  · rw [if_neg hlen]
    cases hold : c.activeHandles.getOldest with
    | none =>
      dsimp only
      refine WF_of_eq ?_ ?_ ?_
        (insert_WF c f path c.activeVerifiers c.cacheLimit c.activeHandles.cap hwf)
      · rfl
      · rfl
      · rfl
    | some ev =>
      dsimp only
      refine WF_of_eq ?_ ?_ ?_
        (insert_WF c f path c.activeVerifiers c.cacheLimit c.activeHandles.cap hwf)
      · rfl
      · rfl
      · rfl

theorem ToHandle_WF (c : CachingHandler) (f : Fs) (path : List String) (hwf : WF c)
    (hcap : 1 ≤ c.activeHandles.cap) : WF (ToHandle c f path).2 := by
  cases hsr : searchReverseCache c f (joinPath path) with
  | mk r c1 =>
    have hstate := searchReverseCache_state c f (joinPath path)
    rw [hsr] at hstate
    dsimp only at hstate
    have hwf1 : WF c1 := WF_perm_items hstate.1 hstate.2.1 hstate.2.2.2.2.2.2 hwf
    cases r with
    | some h0 =>
      rw [ToHandle_found hsr]
      exact hwf1
    | none =>
      rw [ToHandle_miss hsr]
      refine mint_WF c1 f path hwf1 ?_
      rw [hstate.2.2.2.2.1]
      exact hcap

theorem FromHandle_WF (c : CachingHandler) (fh : Nat) (hwf : WF c) :
    WF (FromHandle c fh).2 := by
  cases hf : findKey fh c.activeHandles.items with
  | none =>
    rw [FromHandle_none hf]
    exact hwf
  | some e =>
    rw [FromHandle_some hf]
    apply WF_perm_items _ _ _ hwf
    · rfl
    · rfl
    · dsimp only
      exact (refreshPfx_perm _ _ _).trans ((perm_cons_eraseKey hf).symm)

theorem InvalidateHandle_WF (c : CachingHandler) (fh : Nat) (hwf : WF c) :
    WF (InvalidateHandle c fh) := by
  cases hf : findKey fh c.activeHandles.items with
  | none =>
    have hg : c.activeHandles.get fh = (none, c.activeHandles) := by
      unfold Lru.get
      rw [hf]
    have hiv : InvalidateHandle c fh = c := by
      unfold InvalidateHandle
      rw [hg]
      dsimp only
      unfold Lru.remove
      rw [eraseKey_of_not_mem (findKey_eq_none_iff.mp hf)]
    rw [hiv]
    exact hwf
  | some e =>
    have hg : c.activeHandles.get fh = (some e,
        ⟨(fh, e) :: eraseKey fh c.activeHandles.items, c.activeHandles.cap⟩) := by
      unfold Lru.get
      rw [hf]
    refine WF_of_eq ?_ ?_ ?_
      (erase_WF c fh e c.activeVerifiers c.cacheLimit c.activeHandles.cap hwf hf)
    · unfold InvalidateHandle
      rw [hg]
      dsimp only
      unfold Lru.remove
      rw [evictReverseCache_activeHandles]
      dsimp only
      simp
    · unfold InvalidateHandle
      rw [hg]
      dsimp only
      rw [evictReverseCache_reverseHandles, evictReverseCache_reverseHandles]
    · unfold InvalidateHandle
      rw [hg]
      dsimp only
      rw [evictReverseCache_nextId]

theorem UpdateHandle_WF (c : CachingHandler) (f : Fs) (fh : Nat)
    (newPath : List String) (hwf : WF c) : WF (UpdateHandle c f fh newPath).1 := by
  cases hf : findKey fh c.activeHandles.items with
  | none =>
    have hg : c.activeHandles.get fh = (none, c.activeHandles) := by
      unfold Lru.get
      rw [hf]
    have hiv : (UpdateHandle c f fh newPath).1 = c := by
      unfold UpdateHandle
      rw [hg]
    rw [hiv]
    exact hwf
  | some oldE =>
    have hg : c.activeHandles.get fh = (some oldE,
        ⟨(fh, oldE) :: eraseKey fh c.activeHandles.items, c.activeHandles.cap⟩) := by
      unfold Lru.get
      rw [hf]
    refine WF_of_eq ?_ ?_ ?_
      (retarget_WF c fh oldE f newPath c.activeVerifiers c.cacheLimit
        c.activeHandles.cap hwf hf)
    · unfold UpdateHandle
      rw [hg]
      dsimp only
      simp only [Lru.add, evictReverseCache_activeHandles]
      simp
    · unfold UpdateHandle
      rw [hg]
      dsimp only
      rw [evictReverseCache_reverseHandles, evictReverseCache_reverseHandles]
    · unfold UpdateHandle
      rw [hg]
      dsimp only
      rw [evictReverseCache_nextId]

theorem updateLoop_WF (oldJ : String) (np : List String) (ids : List Nat) :
    ∀ (c : CachingHandler) (acc : Nat), WF c → ids.Nodup →
    (∀ i ∈ ids, ∀ e, findKey i c.activeHandles.items = some e → joinPath e.p = oldJ) →
    WF (updateLoop oldJ (joinPath np) np ids c acc).1 := by
  induction ids with
  | nil =>
    intro c acc hwf _ _
    simpa [updateLoop] using hwf
  | cons id rest ih =>
    intro c acc hwf hn hinv
    rw [List.nodup_cons] at hn
    cases hf : findKey id c.activeHandles.items with
    | none =>
      rw [updateLoop_cons_dead _ _ _ _ _ _ _ hf]
      exact ih c acc hwf hn.2 (fun i hi => hinv i (List.mem_cons_of_mem _ hi))
    | some e =>
      rw [updateLoop_cons_live _ _ _ _ _ _ _ _ hf]
      have hj : joinPath e.p = oldJ := hinv id (List.mem_cons_self _ _) e hf
      have hwf2 : WF (updateStep oldJ (joinPath np) np id e c) := by
        refine WF_of_eq ?_ ?_ ?_
          (retarget_WF c id e e.f np c.activeVerifiers c.cacheLimit
            c.activeHandles.cap hwf hf)
        · rw [updateStep_items]
        · rw [updateStep_reverseHandles, hj]
        · rw [updateStep_nextId]
      refine ih _ _ hwf2 hn.2 ?_
      intro i hi e' he'
      have hne : i ≠ id := fun hh => hn.1 (hh ▸ hi)
      rw [updateStep_findKey_ne _ _ _ _ _ hne] at he'
      exact hinv i (List.mem_cons_of_mem _ hi) e' he'

theorem UpdateHandlesByPath_WF (c : CachingHandler) (f : Fs)
    (oldPath newPath : List String) (hwf : WF c) :
    WF (UpdateHandlesByPath c f oldPath newPath).1 := by
  cases hrf : revFind (joinPath oldPath) c.reverseHandles with
  | none =>
    rw [UpdateHandlesByPath_none hrf]
    exact hwf
  | some ids =>
    by_cases hlen : ids.length = 0
    · rw [List.length_eq_zero] at hlen
      subst hlen
      rw [UpdateHandlesByPath_some_nil hrf]
      exact hwf
    · rw [UpdateHandlesByPath_some hrf hlen]
      refine updateLoop_WF (joinPath oldPath) newPath ids c 0 hwf
        (hwf.1.bucketsNodup _ (revFind_mem hrf)) ?_
      intro i hi e he
      exact hwf.1.sound (joinPath oldPath, ids) (revFind_mem hrf) i hi e he

/-- Claim C9: forward/reverse consistency — `WF` states that the forward map has
no duplicate handles, every live handle appears in the Reverse Index bucket keyed
by its entry's joined path (and, by the soundness and key-uniqueness components,
in no other bucket), and every bucket member is live (no orphan entries, so a
handle removed from the forward map left its bucket in the same logical step).
Every Handle Cache operation preserves `WF`: `ToHandle`, `FromHandle`,
`InvalidateHandle`, `UpdateHandle` and `UpdateHandlesByPath`.  (Capacity at
least 1 is the library's constructor precondition.) -/
theorem cache_ops_preserve_consistency (c : CachingHandler) (f : Fs)
    (path newPath oldPath : List String) (fh : Nat)
    (hwf : WF c) (hcap : 1 ≤ c.activeHandles.cap) :
    WF (ToHandle c f path).2 ∧
    WF (FromHandle c fh).2 ∧
    WF (InvalidateHandle c fh) ∧
    WF (UpdateHandle c f fh newPath).1 ∧
    WF (UpdateHandlesByPath c f oldPath newPath).1 :=
  ⟨ToHandle_WF c f path hwf hcap, FromHandle_WF c fh hwf,
   InvalidateHandle_WF c fh hwf, UpdateHandle_WF c f fh newPath hwf,
   UpdateHandlesByPath_WF c f oldPath newPath hwf⟩

/-- Witness for claim C9: a concrete two-handle state (capacity 2, handles for
a and b under one backend) is well-formed, and all five operations applied to it
preserve the forward/reverse consistency. -/
theorem cache_ops_preserve_consistency_witness :
    WF (ToHandle (ToHandle (ToHandle (NewCachingHandler 2) fsA ["a"]).2 fsA ["b"]).2
      fsB ["c"]).2 ∧
    WF (FromHandle (ToHandle (ToHandle (NewCachingHandler 2) fsA ["a"]).2 fsA ["b"]).2 0).2 ∧
    WF (InvalidateHandle (ToHandle (ToHandle (NewCachingHandler 2) fsA ["a"]).2
      fsA ["b"]).2 0) ∧
    WF (UpdateHandle (ToHandle (ToHandle (NewCachingHandler 2) fsA ["a"]).2
      fsA ["b"]).2 fsB 0 ["n"]).1 ∧
    WF (UpdateHandlesByPath (ToHandle (ToHandle (NewCachingHandler 2) fsA ["a"]).2
      fsA ["b"]).2 fsA ["a"] ["n"]).1 :=
  cache_ops_preserve_consistency
    (ToHandle (ToHandle (NewCachingHandler 2) fsA ["a"]).2 fsA ["b"]).2
    fsB ["c"] ["n"] ["a"] 0 (WF_of_check (by decide)) (by decide)

end GoNfs
